import Mathlib

/-!
# Pyxel core rasterizer (`pyxelcore/graphics.cc`): a shallow embedding

The drawing routines of `Graphics` are translated function by function into
state-passing Lean definitions.  `int32_t` values are mathematical integers
(signed overflow is undefined behaviour in C++, so the model describes the
overflow-free executions), buffers are flat row-major lists, and the `float`
expressions of `DrawLine` are evaluated in binary32: every operation rounds its
exact result to the nearest single-precision value, and the C++ float-to-int
conversion truncates toward zero.

Compile-time constants, `Rectangle`, `Image`, `Tilemap` and the inline helpers
`SetPixel`, `GetDrawColor`, `GetImageBank`, `GetTilemapBank` live in headers
that are not part of the source tree; constants are parameters (`Constants`)
and the helpers are modelled from the specification.
-/

set_option autoImplicit false

namespace Pyxel

/-! ## Constants -/

/-- Compile-time constants of `pyxelcore` that `graphics.cc` refers to.
Their values are declared in a header outside the source tree, so they are
parameters of the model. -/
structure Constants where
  COLOR_COUNT : Int
  IMAGE_BANK_COUNT : Int
  IMAGE_BANK_WIDTH : Int
  IMAGE_BANK_HEIGHT : Int
  IMAGE_BANK_FOR_SYSTEM : Int
  TILEMAP_BANK_COUNT : Int
  TILEMAP_BANK_WIDTH : Int
  TILEMAP_BANK_HEIGHT : Int
  TILEMAP_CHIP_WIDTH : Int
  TILEMAP_CHIP_HEIGHT : Int
  FONT_X : Int
  FONT_Y : Int
  FONT_WIDTH : Int
  FONT_HEIGHT : Int
  FONT_ROW_COUNT : Int
  MIN_FONT_CODE : Int
  MAX_FONT_CODE : Int
  FONT_COLOR : Int
  FONT_DATA : List Nat
  MOUSE_CURSOR_X : Int
  MOUSE_CURSOR_Y : Int
  MOUSE_CURSOR_HEIGHT : Int
  MOUSE_CURSOR_DATA : List (List Int)

/-- A small concrete choice of the constants, used to evaluate the model:
16 colors, one 16x16 user bank and one system bank, 4x6 glyphs, a 3x3 mouse
cursor. -/
def sampleConstants : Constants where
  COLOR_COUNT := 16
  IMAGE_BANK_COUNT := 2
  IMAGE_BANK_WIDTH := 16
  IMAGE_BANK_HEIGHT := 16
  IMAGE_BANK_FOR_SYSTEM := 1
  TILEMAP_BANK_COUNT := 1
  TILEMAP_BANK_WIDTH := 4
  TILEMAP_BANK_HEIGHT := 4
  TILEMAP_CHIP_WIDTH := 8
  TILEMAP_CHIP_HEIGHT := 8
  FONT_X := 0
  FONT_Y := 4
  FONT_WIDTH := 4
  FONT_HEIGHT := 6
  FONT_ROW_COUNT := 4
  MIN_FONT_CODE := 32
  MAX_FONT_CODE := 39
  FONT_COLOR := 7
  FONT_DATA := [0x000000, 0x444040, 0xAA0000, 0xAEAEA0, 0x6C6C40, 0x824820, 0x4A4AC0, 0x440000]
  MOUSE_CURSOR_X := 0
  MOUSE_CURSOR_Y := 0
  MOUSE_CURSOR_HEIGHT := 3
  MOUSE_CURSOR_DATA := [[1, 1, 0], [1, 7, 1], [0, 1, 1]]

/-! ## Raw buffers -/

/-- Raw store `data[idx] = v` into a flat buffer.  A store outside the buffer
is undefined behaviour in C++; the model leaves the buffer unchanged. -/
def writeAt (data : List Int) (idx v : Int) : List Int :=
  if 0 ≤ idx then data.set idx.toNat v else data

/-- Raw load `data[idx]` from a flat buffer (0 outside the buffer, where the
C++ load is undefined behaviour). -/
def readAt (data : List Int) (idx : Int) : Int :=
  if 0 ≤ idx then data.getD idx.toNat 0 else 0

/-- The loop `for (int32_t i = lo; i <= hi; i++) s = body(i, s);`.
A loop `for (i = 0; i < n; i++)` is `forLoop 0 (n - 1)`. -/
def forLoop {σ : Type} (lo hi : Int) (body : Int → σ → σ) (s : σ) : σ :=
  (List.range (hi + 1 - lo).toNat).foldl (fun s (k : Nat) => body (lo + (k : Int)) s) s

/-! ## Rectangle -/

/-- Modelled from the spec: the `Rectangle` value class (`rectangle.h` is not
in the source tree).  Inclusive bounds `left, top, right, bottom`. -/
structure Rectangle where
  left : Int
  top : Int
  right : Int
  bottom : Int
deriving DecidableEq, Repr

/-- Modelled from the spec: `CopyArea`, the clipped copy region returned by
`Rectangle::GetCopyArea` (`rectangle.h` is not in the source tree). -/
structure CopyArea where
  src_x : Int
  src_y : Int
  dst_x : Int
  dst_y : Int
  width : Int
  height : Int
deriving DecidableEq, Repr

namespace Rectangle

/-- Modelled from the spec: `Rectangle::FromPos` (missing header), construction
from two corners, normalizing reversed coordinates. -/
def FromPos (x1 y1 x2 y2 : Int) : Rectangle :=
  ⟨min x1 x2, min y1 y2, max x1 x2, max y1 y2⟩

/-- Modelled from the spec: `Rectangle::FromSize` (missing header), with
`right = left + width - 1` and `bottom = top + height - 1`. -/
def FromSize (x y width height : Int) : Rectangle :=
  ⟨x, y, x + width - 1, y + height - 1⟩

/-- Modelled from the spec: `Rectangle::Width` (missing header). -/
def Width (r : Rectangle) : Int := r.right - r.left + 1

/-- Modelled from the spec: `Rectangle::Height` (missing header). -/
def Height (r : Rectangle) : Int := r.bottom - r.top + 1

/-- Modelled from the spec: `Rectangle::IsEmpty` (missing header): a rectangle
with `right < left` or `bottom < top` is empty. -/
def IsEmpty (r : Rectangle) : Bool :=
  decide (r.right < r.left) || decide (r.bottom < r.top)

/-- Modelled from the spec: `Rectangle::Includes` (missing header), the point
test against the inclusive bounds. -/
def Includes (r : Rectangle) (x y : Int) : Bool :=
  decide (r.left ≤ x) && decide (x ≤ r.right) && decide (r.top ≤ y) && decide (y ≤ r.bottom)

/-- Modelled from the spec: `Rectangle::Intersect` (missing header):
`max(left), max(top), min(right), min(bottom)`; the result is empty
(`right < left` or `bottom < top`) when the rectangles do not overlap. -/
def Intersect (a b : Rectangle) : Rectangle :=
  ⟨max a.left b.left, max a.top b.top, min a.right b.right, min a.bottom b.bottom⟩

/-- Modelled from the spec: `Rectangle::GetCopyArea` (missing header).  The
requested source window `copy` is clamped to the source bounds `src` and to
the destination rectangle `dst` once placed at `(x, y)`; the width and height
are reduced by the cut on each side and the source and destination starts are
shifted by the same cut.  Width and height are 0 when nothing overlaps. -/
def GetCopyArea (dst : Rectangle) (x y : Int) (src copy : Rectangle) : CopyArea :=
  let left_cut := max 0 (max (src.left - copy.left) (dst.left - x))
  let right_cut := max 0 (max (copy.right - src.right) (x + copy.Width - 1 - dst.right))
  let top_cut := max 0 (max (src.top - copy.top) (dst.top - y))
  let bottom_cut := max 0 (max (copy.bottom - src.bottom) (y + copy.Height - 1 - dst.bottom))
  { src_x := copy.left + left_cut
    src_y := copy.top + top_cut
    dst_x := x + left_cut
    dst_y := y + top_cut
    width := max 0 (copy.Width - left_cut - right_cut)
    height := max 0 (copy.Height - top_cut - bottom_cut) }

end Rectangle

/-! ## Image, Tilemap and the canvas state -/

/-- Modelled from the spec: `Image` (`image.h` is not in the source tree), a
`width` x `height` raster of color indices stored row-major in `data`. -/
structure Image where
  width : Int
  height : Int
  data : List Int
deriving DecidableEq, Repr

/-- Modelled from the spec: `Image::Rectangle`, the bounds of the image at
origin (0,0). -/
def Image.Rectangle (img : Image) : Rectangle :=
  Rectangle.FromSize 0 0 img.width img.height

/-- Value of the pixel `(x, y)` of an image: `data[width * y + x]`. -/
def Image.pixel (img : Image) (x y : Int) : Int :=
  readAt img.data (img.width * y + x)

/-- Modelled from the spec: `Tilemap` (`tilemap.h` is not in the source tree),
a grid of tile values with the index of the image bank they refer to. -/
structure Tilemap where
  width : Int
  height : Int
  data : List Int
  image_index : Int
deriving DecidableEq, Repr

/-- Modelled from the spec: `Tilemap::Rectangle`, the bounds of the grid. -/
def Tilemap.Rectangle (tm : Tilemap) : Rectangle :=
  Rectangle.FromSize 0 0 tm.width tm.height

/-- The member variables of `Graphics`. -/
structure Graphics where
  screen_image : Image
  image_bank : List Image
  tilemap_bank : List Tilemap
  clip_rect : Rectangle
  palette_table : List Int
deriving DecidableEq, Repr

/-- Value of the screen pixel `(x, y)`. -/
def Graphics.pixel (g : Graphics) (x y : Int) : Int :=
  g.screen_image.pixel x y

/-- The screen with its buffer replaced (a sequence of stores through
`screen_image_->Data()`). -/
def Graphics.withScreenData (g : Graphics) (data : List Int) : Graphics :=
  { g with screen_image := { g.screen_image with data := data } }

/-! ## Inline helpers of `Graphics` -/

/-- Modelled from the spec: `Graphics::GetDrawColor` (declared in the missing
`graphics.h`): the requested color is passed through `palette_table[color]`,
with no bounds validation at the point of resolution. -/
def GetDrawColor (g : Graphics) (color : Int) : Int :=
  readAt g.palette_table color

/-- Modelled from the spec: `Graphics::SetPixel` (declared in the missing
`graphics.h`): writes the pixel `(x, y)` if it is inside the clip rectangle;
writes outside are silently dropped. -/
def SetPixel (g : Graphics) (x y color : Int) : Graphics :=
  if g.clip_rect.Includes x y then
    g.withScreenData (writeAt g.screen_image.data (g.screen_image.width * y + x) color)
  else g

/-- Modelled from the spec: `Graphics::GetImageBank` (declared in the missing
`graphics.h`): the bank accessor; an index outside the bank is reported and
slot 0 is substituted. -/
def GetImageBank (K : Constants) (g : Graphics) (image_index : Int) : Image :=
  if 0 ≤ image_index ∧ image_index < K.IMAGE_BANK_COUNT then
    g.image_bank.getD image_index.toNat ⟨0, 0, []⟩
  else g.image_bank.getD 0 ⟨0, 0, []⟩

/-- Modelled from the spec: `Graphics::GetTilemapBank` (declared in the
missing `graphics.h`): the bank accessor; an index outside the bank is
reported and slot 0 is substituted. -/
def GetTilemapBank (K : Constants) (g : Graphics) (tilemap_index : Int) : Tilemap :=
  if 0 ≤ tilemap_index ∧ tilemap_index < K.TILEMAP_BANK_COUNT then
    g.tilemap_bank.getD tilemap_index.toNat ⟨0, 0, [], 0⟩
  else g.tilemap_bank.getD 0 ⟨0, 0, [], 0⟩

/-! ## Single-precision floating point

A finite `float` is the rational number it denotes.  Every arithmetic operation
and every conversion from `int32_t` rounds its exact result to binary32 (IEEE
754 round to nearest, ties to even), one rounding per operation.  The operands
of `DrawLine` are `int32_t` values and slopes of magnitude at most 1, so no
operation leaves the finite range; the sign of a zero plays no part in a
conversion to `int32_t`. -/

/-- Round to the nearest integer, a tie to the even one. -/
def roundHalfEven (q : ℚ) : Int :=
  if q - (⌊q⌋ : ℚ) < 1 / 2 then ⌊q⌋
  else if 1 / 2 < q - (⌊q⌋ : ℚ) then ⌊q⌋ + 1
  else if ⌊q⌋ % 2 = 0 then ⌊q⌋ else ⌊q⌋ + 1

/-- Number of binary digits of `n` (0 for 0), with `fuel` bounding the count. -/
def bitLength : Nat → Nat → Nat
  | 0, _ => 0
  | fuel + 1, n => if n = 0 then 0 else bitLength fuel (n / 2) + 1

/-- The binary exponent of a non-zero rational: the `e` with
`2^e ≤ |q| < 2^(e+1)`. -/
def floorLog2 (q : ℚ) : Int :=
  if q.den * 2 ^ bitLength q.num.natAbs q.num.natAbs ≤
      q.num.natAbs * 2 ^ bitLength q.den q.den then
    (bitLength q.num.natAbs q.num.natAbs : Int) - (bitLength q.den q.den : Int)
  else (bitLength q.num.natAbs q.num.natAbs : Int) - (bitLength q.den q.den : Int) - 1

/-- Rounding of an exact value to binary32: 24 significant bits, exponents from
-126 (below it the subnormal spacing `2^-149`), round to nearest, ties to
even. -/
def roundF32 (q : ℚ) : ℚ :=
  (roundHalfEven (q / (2 : ℚ) ^ (max (floorLog2 q) (-126) - 23)) : ℚ) *
    (2 : ℚ) ^ (max (floorLog2 q) (-126) - 23)

/-- The conversion `static_cast<float>(n)` of an `int32_t`, also the implicit
one of an `int32_t` operand of a `float` operation. -/
def f32OfInt (n : Int) : ℚ := roundF32 (n : ℚ)

/-- The `float` sum `a + b`. -/
def f32Add (a b : ℚ) : ℚ := roundF32 (a + b)

/-- The `float` product `a * b`. -/
def f32Mul (a b : ℚ) : ℚ := roundF32 (a * b)

/-- The `float` quotient `a / b`. -/
def f32Div (a b : ℚ) : ℚ := roundF32 (a / b)

/-- The C++ conversion of a `float` value to `int32_t`: truncation toward
zero. -/
def truncToInt (q : ℚ) : Int := Int.tdiv q.num (q.den : Int)

/-- The expression `std::sqrt(n) + 0.5f` converted to `int32_t`: the square
root of `n` rounded to the nearest integer. -/
def sqrtRound (n : Int) : Int :=
  let s := Nat.sqrt n.toNat
  if s < n.toNat - s * s then (s : Int) + 1 else (s : Int)

/-! ## Clip rectangle and palette -/

/-- `Graphics::ResetClippingArea`. -/
def ResetClippingArea (g : Graphics) : Graphics :=
  { g with clip_rect := g.screen_image.Rectangle }

/-- `Graphics::SetClippingArea`. -/
def SetClippingArea (g : Graphics) (x1 y1 x2 y2 : Int) : Graphics :=
  { g with clip_rect := (Rectangle.FromPos x1 y1 x2 y2).Intersect g.screen_image.Rectangle }

/-- `Graphics::ResetPalette`. -/
def ResetPalette (K : Constants) (g : Graphics) : Graphics :=
  { g with palette_table :=
      forLoop 0 (K.COLOR_COUNT - 1) (fun i table => writeAt table i i) g.palette_table }

/-- `Graphics::SetPalette`. -/
def SetPalette (K : Constants) (g : Graphics) (src_color dst_color : Int) : Graphics :=
  if src_color < 0 ∨ src_color ≥ K.COLOR_COUNT then g
  else if dst_color < 0 ∨ dst_color ≥ K.COLOR_COUNT then g
  else { g with palette_table := writeAt g.palette_table src_color dst_color }

/-! ## Primitive rasterizer -/

/-- `Graphics::Clear`. -/
def Clear (g : Graphics) (color : Int) : Graphics :=
  let color := GetDrawColor g color
  let size := g.screen_image.width * g.screen_image.height
  g.withScreenData (forLoop 0 (size - 1) (fun i data => writeAt data i color) g.screen_image.data)

/-- `Graphics::DrawPoint`. -/
def DrawPoint (g : Graphics) (x y color : Int) : Graphics :=
  SetPixel g x y (GetDrawColor g color)

/-- The x-major branch of `Graphics::DrawLine` once the endpoints are ordered:
`color` is the resolved color. -/
def DrawLineXMajor (g : Graphics) (start_x start_y end_x end_y color : Int) : Graphics :=
  let length := end_x - start_x + 1
  let alpha : ℚ := f32Div (f32OfInt (end_y - start_y)) (f32OfInt (end_x - start_x))
  forLoop 0 (length - 1)
    (fun i g => SetPixel g (start_x + i)
      (truncToInt (f32Add (f32Add (f32OfInt start_y) (f32Mul alpha (f32OfInt i))) (1 / 2)))
      color) g

/-- The y-major branch of `Graphics::DrawLine` once the endpoints are ordered:
`color` is the resolved color. -/
def DrawLineYMajor (g : Graphics) (start_x start_y end_x end_y color : Int) : Graphics :=
  let length := end_y - start_y + 1
  let alpha : ℚ := f32Div (f32OfInt (end_x - start_x)) (f32OfInt (end_y - start_y))
  forLoop 0 (length - 1)
    (fun i g => SetPixel g
      (truncToInt (f32Add (f32Add (f32OfInt start_x) (f32Mul alpha (f32OfInt i))) (1 / 2)))
      (start_y + i) color) g

/-- `Graphics::DrawLine`. -/
def DrawLine (g : Graphics) (x1 y1 x2 y2 color : Int) : Graphics :=
  let color := GetDrawColor g color
  if x1 = x2 ∧ y1 = y2 then SetPixel g x1 y1 color
  else if |x1 - x2| > |y1 - y2| then
    if x1 < x2 then DrawLineXMajor g x1 y1 x2 y2 color
    else DrawLineXMajor g x2 y2 x1 y1 color
  else
    if y1 < y2 then DrawLineYMajor g x1 y1 x2 y2 color
    else DrawLineYMajor g x2 y2 x1 y1 color

/-- `Graphics::DrawRectangle`. -/
def DrawRectangle (g : Graphics) (x1 y1 x2 y2 color : Int) : Graphics :=
  let color := GetDrawColor g color
  let draw_rect := (Rectangle.FromPos x1 y1 x2 y2).Intersect g.clip_rect
  if draw_rect.IsEmpty then g
  else
    g.withScreenData
      (forLoop draw_rect.top draw_rect.bottom
        (fun i data =>
          let index := g.screen_image.width * i
          forLoop draw_rect.left draw_rect.right (fun j data => writeAt data (index + j) color) data)
        g.screen_image.data)

/-- `Graphics::DrawRectangleBorder`. -/
def DrawRectangleBorder (g : Graphics) (x1 y1 x2 y2 color : Int) : Graphics :=
  let color := GetDrawColor g color
  let draw_rect := Rectangle.FromPos x1 y1 x2 y2
  if (draw_rect.Intersect g.clip_rect).IsEmpty then g
  else
    let g := forLoop draw_rect.left draw_rect.right
      (fun i g => SetPixel (SetPixel g i y1 color) i y2 color) g
    forLoop draw_rect.top draw_rect.bottom
      (fun i g => SetPixel (SetPixel g x1 i color) x2 i color) g

/-- `Graphics::DrawCircle`. -/
def DrawCircle (g : Graphics) (x y radius color : Int) : Graphics :=
  let color := GetDrawColor g color
  if radius = 0 then SetPixel g x y color
  else
    forLoop 0 radius
      (fun dx g =>
        let dy := sqrtRound (radius * radius - dx * dx)
        if dx > dy then g
        else
          forLoop (-dy) dy
            (fun i g =>
              SetPixel (SetPixel (SetPixel (SetPixel g (x - dx) (y + i) color)
                (x + dx) (y + i) color) (x + i) (y - dx) color) (x + i) (y + dx) color) g)
      g

/-- `Graphics::DrawCircleBorder`. -/
def DrawCircleBorder (g : Graphics) (x y radius color : Int) : Graphics :=
  let color := GetDrawColor g color
  if radius = 0 then SetPixel g x y color
  else
    forLoop 0 radius
      (fun dx g =>
        let dy := sqrtRound (radius * radius - dx * dx)
        if dx > dy then g
        else
          let g := SetPixel g (x - dx) (y - dy) color
          let g := SetPixel g (x + dx) (y - dy) color
          let g := SetPixel g (x - dx) (y + dy) color
          let g := SetPixel g (x + dx) (y + dy) color
          let g := SetPixel g (x - dy) (y - dx) color
          let g := SetPixel g (x + dy) (y - dx) color
          let g := SetPixel g (x - dy) (y + dx) color
          SetPixel g (x + dy) (y + dx) color)
      g

/-! ## Blit engine -/

/-- `Graphics::DrawImage`. -/
def DrawImage (K : Constants) (g : Graphics)
    (x y image_index u v width height color_key : Int) : Graphics :=
  let image := GetImageBank K g image_index
  let color_key :=
    if color_key ≠ -1 ∧ (color_key < 0 ∨ color_key ≥ K.COLOR_COUNT) then -1 else color_key
  let dst_rect := g.screen_image.Rectangle.Intersect g.clip_rect
  let copy_rect := Rectangle.FromSize u v width height
  let copy_area := dst_rect.GetCopyArea x y image.Rectangle copy_rect
  if copy_area.width ≤ 0 ∨ copy_area.height ≤ 0 then g
  else
    let src_width := image.width
    let src_data := image.data
    let dst_width := g.screen_image.width
    if color_key = -1 then
      g.withScreenData
        (forLoop 0 (copy_area.height - 1)
          (fun i dst_data =>
            let src_index := src_width * (copy_area.src_y + i) + copy_area.src_x
            let dst_index := dst_width * (copy_area.dst_y + i) + copy_area.dst_x
            forLoop 0 (copy_area.width - 1)
              (fun j dst_data =>
                writeAt dst_data (dst_index + j)
                  (readAt g.palette_table (readAt src_data (src_index + j))))
              dst_data)
          g.screen_image.data)
    else
      g.withScreenData
        (forLoop 0 (copy_area.height - 1)
          (fun i dst_data =>
            let src_index := src_width * (copy_area.src_y + i) + copy_area.src_x
            let dst_index := dst_width * (copy_area.dst_y + i) + copy_area.dst_x
            forLoop 0 (copy_area.width - 1)
              (fun j dst_data =>
                let src_color := readAt src_data (src_index + j)
                if src_color ≠ color_key then
                  writeAt dst_data (dst_index + j) (readAt g.palette_table src_color)
                else dst_data)
              dst_data)
          g.screen_image.data)

/-- `Graphics::DrawTilemap` (`INT16_MIN = -32768`, `INT16_MAX = 32767`; `/` and
`%` are the truncating C++ operators). -/
def DrawTilemap (K : Constants) (g : Graphics)
    (x y tilemap_index u v width height color_key : Int) : Graphics :=
  let tilemap := GetTilemapBank K g tilemap_index
  let image_index := tilemap.image_index
  let copy_rect := Rectangle.FromSize u v width height
  let dst_rect := Rectangle.FromPos (-32768) (-32768) 32767 32767
  let copy_area := dst_rect.GetCopyArea x y tilemap.Rectangle copy_rect
  let src_width := tilemap.width
  let src_data := tilemap.data
  forLoop 0 (copy_area.height - 1)
    (fun i g =>
      let index := src_width * (copy_area.src_y + i) + copy_area.src_x
      forLoop 0 (copy_area.width - 1)
        (fun j g =>
          let value := readAt src_data (index + j)
          let u := (Int.tmod value (Int.tdiv K.IMAGE_BANK_WIDTH K.TILEMAP_CHIP_WIDTH)) *
            K.TILEMAP_CHIP_WIDTH
          let v := (Int.tdiv value (Int.tdiv K.IMAGE_BANK_HEIGHT K.TILEMAP_CHIP_HEIGHT)) *
            K.TILEMAP_CHIP_HEIGHT
          DrawImage K g (x + j * K.TILEMAP_CHIP_WIDTH) (y + i * K.TILEMAP_CHIP_HEIGHT)
            image_index u v K.TILEMAP_CHIP_WIDTH K.TILEMAP_CHIP_HEIGHT color_key)
        g)
    g

/-! ## Font and text -/

/-- The character loop of `Graphics::DrawText`: `text` holds the character
codes of the string before its terminating NUL, `left` is the starting column
and `(x, y)` the running cursor. -/
def DrawTextLoop (K : Constants) (left : Int) : List Int → Int → Int → Graphics → Graphics
  | [], _, _, g => g
  | ch :: rest, x, y, g =>
    if ch = 10 then DrawTextLoop K left rest left (y + K.FONT_HEIGHT) g
    else if ch = 32 then DrawTextLoop K left rest (x + K.FONT_WIDTH) y g
    else if ch < K.MIN_FONT_CODE ∨ ch > K.MAX_FONT_CODE then DrawTextLoop K left rest x y g
    else
      let code := ch - K.MIN_FONT_CODE
      let u := (Int.tmod code K.FONT_ROW_COUNT) * K.FONT_WIDTH
      let v := (Int.tdiv code K.FONT_ROW_COUNT) * K.FONT_HEIGHT
      DrawTextLoop K left rest (x + K.FONT_WIDTH) y
        (DrawImage K g x y K.IMAGE_BANK_FOR_SYSTEM (K.FONT_X + u) (K.FONT_Y + v)
          K.FONT_WIDTH K.FONT_HEIGHT 0)

/-- `Graphics::DrawText`. -/
def DrawText (K : Constants) (g : Graphics) (x y : Int) (text : List Int) (color : Int) :
    Graphics :=
  let color := GetDrawColor g color
  let original_color := readAt g.palette_table K.FONT_COLOR
  let g := { g with palette_table := writeAt g.palette_table K.FONT_COLOR color }
  let left := x
  let g := DrawTextLoop K left text x y g
  { g with palette_table := writeAt g.palette_table K.FONT_COLOR original_color }

/-- The loops of `Graphics::SetupFont` over the buffer of the system image
bank.  The `uint32_t` glyph word is shifted modulo `2^32`. -/
def SetupFontData (K : Constants) (data : List Int) : List Int :=
  let FONT_COUNT : Int := K.FONT_DATA.length
  forLoop 0 (FONT_COUNT - 1)
    (fun i data =>
      let row := Int.tdiv i K.FONT_ROW_COUNT
      let col := Int.tmod i K.FONT_ROW_COUNT
      let index := K.IMAGE_BANK_WIDTH * (K.FONT_HEIGHT * row + K.FONT_Y) +
        K.FONT_WIDTH * col + K.FONT_X
      let font := K.FONT_DATA.getD i.toNat 0
      (forLoop 0 (K.FONT_HEIGHT - 1)
        (fun _ (st : List Int × Int × Nat) =>
          let st := forLoop 0 (K.FONT_WIDTH - 1)
            (fun k (st : List Int × Int × Nat) =>
              (writeAt st.1 (st.2.1 + k) (if st.2.2 &&& 0x800000 ≠ 0 then K.FONT_COLOR else 0),
                st.2.1, (st.2.2 <<< 1) % 2 ^ 32))
            st
          (st.1, st.2.1 + K.IMAGE_BANK_WIDTH, st.2.2))
        (data, index, font)).1)
    data

/-- `Graphics::SetupFont`. -/
def SetupFont (K : Constants) (g : Graphics) : Graphics :=
  let image := g.image_bank.getD K.IMAGE_BANK_FOR_SYSTEM.toNat ⟨0, 0, []⟩
  let image : Image := ⟨image.width, image.height, SetupFontData K image.data⟩
  { g with image_bank := g.image_bank.set K.IMAGE_BANK_FOR_SYSTEM.toNat image }

/-! ## Well-formed canvas states -/

/-- The clip rectangle is empty or lies inside the screen rectangle. -/
def ClipInScreen (g : Graphics) : Prop :=
  g.clip_rect.IsEmpty = true ∨
    (0 ≤ g.clip_rect.left ∧ g.clip_rect.right ≤ g.screen_image.width - 1 ∧
      0 ≤ g.clip_rect.top ∧ g.clip_rect.bottom ≤ g.screen_image.height - 1)

/-- A well-formed canvas: the screen buffer holds `width * height` pixels and
the clip rectangle does not leave the screen. -/
def WellFormed (g : Graphics) : Prop :=
  0 ≤ g.screen_image.width ∧ 0 ≤ g.screen_image.height ∧
    (g.screen_image.data.length : Int) = g.screen_image.width * g.screen_image.height ∧
    ClipInScreen g

/-- The point `(x, y)` lies on the screen. -/
def OnScreen (g : Graphics) (x y : Int) : Prop :=
  0 ≤ x ∧ x < g.screen_image.width ∧ 0 ≤ y ∧ y < g.screen_image.height

/-- A 10x10 canvas cleared to 0 with the identity palette, the full-screen
clip rectangle, and two 16x16 image banks; bank 0 holds the pattern
[[1,2],[3,4]] at its origin. -/
def sampleGraphics : Graphics where
  screen_image := ⟨10, 10, List.replicate 100 0⟩
  image_bank :=
    [⟨16, 16, [1, 2] ++ List.replicate 14 0 ++ [3, 4] ++ List.replicate 238 0⟩,
     ⟨16, 16, List.replicate 256 0⟩]
  tilemap_bank := [⟨4, 4, List.replicate 16 0, 0⟩]
  clip_rect := ⟨0, 0, 9, 9⟩
  palette_table := List.range 16 |>.map Int.ofNat

/-! ## Frame conditions -/

/-- The canvas `g'` differs from `g` at most in the contents of the screen
buffer: dimensions, banks, clip rectangle and palette are those of `g`. -/
def ScreenOnly (g g' : Graphics) : Prop :=
  g'.screen_image.width = g.screen_image.width ∧
    g'.screen_image.height = g.screen_image.height ∧
    g'.screen_image.data.length = g.screen_image.data.length ∧
    g'.image_bank = g.image_bank ∧ g'.tilemap_bank = g.tilemap_bank ∧
    g'.clip_rect = g.clip_rect ∧ g'.palette_table = g.palette_table

/-- Every screen pixel outside the clip rectangle of `g` has the same value in
`g'` as in `g`. -/
def SameOutsideClip (g g' : Graphics) : Prop :=
  ∀ px py, OnScreen g px py → g.clip_rect.Includes px py = false →
    g'.pixel px py = g.pixel px py

instance (g : Graphics) : Decidable (ClipInScreen g) := by
  unfold ClipInScreen; infer_instance

instance (g : Graphics) : Decidable (WellFormed g) := by
  unfold WellFormed; infer_instance

instance (g : Graphics) (x y : Int) : Decidable (OnScreen g x y) := by
  unfold OnScreen; infer_instance

/-- The color key `DrawImage` works with after its validation step: an invalid
key other than -1 is replaced by -1. -/
def effectiveColorKey (K : Constants) (color_key : Int) : Int :=
  if color_key ≠ -1 ∧ (color_key < 0 ∨ color_key ≥ K.COLOR_COUNT) then -1 else color_key

/-- The screen pixel `(px, py)` is written by a blit of the window
`(u, v, width, height)` of `image` placed at `(x, y)` with key `key`: its offset
lies in the window, its source pixel lies in the image and is not the key, and
`(px, py)` is inside the clip rectangle. -/
def BlitWrites (g : Graphics) (image : Image) (x y u v width height key px py : Int) : Prop :=
  0 ≤ px - x ∧ px - x < width ∧ 0 ≤ py - y ∧ py - y < height ∧
    0 ≤ u + (px - x) ∧ u + (px - x) < image.width ∧
    0 ≤ v + (py - y) ∧ v + (py - y) < image.height ∧
    g.clip_rect.Includes px py = true ∧
    ¬ (key ≠ -1 ∧ image.pixel (u + (px - x)) (v + (py - y)) = key)

instance (g : Graphics) (image : Image) (x y u v width height key px py : Int) :
    Decidable (BlitWrites g image x y u v width height key px py) := by
  unfold BlitWrites; infer_instance

/-- The canvas `g'` has the screen dimensions and the clip rectangle of `g`,
and agrees with `g` on every screen pixel outside the clip rectangle. -/
def Framed (g g' : Graphics) : Prop :=
  g'.screen_image.width = g.screen_image.width ∧
    g'.screen_image.height = g.screen_image.height ∧
    g'.screen_image.data.length = g.screen_image.data.length ∧
    g'.clip_rect = g.clip_rect ∧ SameOutsideClip g g'

/-! ## Font atlas -/

/-- Flat index, in the buffer of the system image bank, of the pixel in row `j`
and column `k` of the cell of glyph `i`: the value of `index + k` in
`SetupFont` after `j` row steps. -/
def fontCellIndex (K : Constants) (i j k : Int) : Int :=
  K.IMAGE_BANK_WIDTH * (K.FONT_HEIGHT * Int.tdiv i K.FONT_ROW_COUNT + K.FONT_Y) +
    K.FONT_WIDTH * Int.tmod i K.FONT_ROW_COUNT + K.FONT_X + K.IMAGE_BANK_WIDTH * j + k

/-- Every entry of `data` that is selected by `S` and lies inside the buffer is
a font pixel value: 0 (background) or `FONT_COLOR` (foreground). -/
def FontValued (K : Constants) (len : Nat) (S : Int → Prop) (data : List Int) : Prop :=
  data.length = len ∧
    ∀ idx, S idx → 0 ≤ idx → idx < (len : Int) →
      readAt data idx = 0 ∨ readAt data idx = K.FONT_COLOR

/-- The glyph with index `code`, drawn by `DrawText` with its cell at `(x, y)`,
has a foreground pixel at the screen position `(px, py)`: the position is in
the cell, its source pixel is inside the atlas image and is not the
background value 0. -/
def GlyphInk (K : Constants) (atlas : Image) (code x y px py : Int) : Bool :=
  decide (0 ≤ px - x ∧ px - x < K.FONT_WIDTH ∧ 0 ≤ py - y ∧ py - y < K.FONT_HEIGHT ∧
    0 ≤ K.FONT_X + Int.tmod code K.FONT_ROW_COUNT * K.FONT_WIDTH + (px - x) ∧
    K.FONT_X + Int.tmod code K.FONT_ROW_COUNT * K.FONT_WIDTH + (px - x) < atlas.width ∧
    0 ≤ K.FONT_Y + Int.tdiv code K.FONT_ROW_COUNT * K.FONT_HEIGHT + (py - y) ∧
    K.FONT_Y + Int.tdiv code K.FONT_ROW_COUNT * K.FONT_HEIGHT + (py - y) < atlas.height ∧
    atlas.pixel (K.FONT_X + Int.tmod code K.FONT_ROW_COUNT * K.FONT_WIDTH + (px - x))
      (K.FONT_Y + Int.tdiv code K.FONT_ROW_COUNT * K.FONT_HEIGHT + (py - y)) ≠ 0)

/-- Some glyph of `text`, laid out by the cursor rules of `DrawText` from the
cursor `(x, y)` with starting column `left`, has a foreground pixel at the
screen position `(px, py)`. -/
def TextInk (K : Constants) (atlas : Image) (left : Int) :
    List Int → Int → Int → Int → Int → Bool
  | [], _, _, _, _ => false
  | ch :: rest, x, y, px, py =>
    if ch = 10 then TextInk K atlas left rest left (y + K.FONT_HEIGHT) px py
    else if ch = 32 then TextInk K atlas left rest (x + K.FONT_WIDTH) y px py
    else if ch < K.MIN_FONT_CODE ∨ ch > K.MAX_FONT_CODE then TextInk K atlas left rest x y px py
    else GlyphInk K atlas (ch - K.MIN_FONT_CODE) x y px py ||
      TextInk K atlas left rest (x + K.FONT_WIDTH) y px py

/-! ## Positions handed to `SetPixel` -/

/-- The calls `SetPixel(p.1, p.2, color)` for the positions of a list, in the
order of the list. -/
def SetPixels (g : Graphics) (positions : List (Int × Int)) (color : Int) : Graphics :=
  positions.foldl (fun g p => SetPixel g p.1 p.2 color) g

/-- The positions `Graphics::DrawCircleBorder` passes to `SetPixel`, in call
order: the loop of the routine with the calls recorded instead of executed. -/
def DrawCircleBorderPositions (x y radius : Int) : List (Int × Int) :=
  if radius = 0 then [(x, y)]
  else
    forLoop 0 radius
      (fun dx ps =>
        let dy := sqrtRound (radius * radius - dx * dx)
        if dx > dy then ps
        else
          ps ++ [(x - dx, y - dy), (x + dx, y - dy), (x - dx, y + dy), (x + dx, y + dy),
            (x - dy, y - dx), (x + dy, y - dx), (x - dy, y + dx), (x + dy, y + dx)])
      []

/-- The positions `Graphics::DrawCircle` passes to `SetPixel`, in call order:
the loops of the routine with the calls recorded instead of executed. -/
def DrawCirclePositions (x y radius : Int) : List (Int × Int) :=
  if radius = 0 then [(x, y)]
  else
    forLoop 0 radius
      (fun dx ps =>
        let dy := sqrtRound (radius * radius - dx * dx)
        if dx > dy then ps
        else
          forLoop (-dy) dy
            (fun i ps => ps ++ [(x - dx, y + i), (x + dx, y + i), (x + i, y - dx), (x + i, y + dx)])
            ps)
      []

/-- The positions `Graphics::DrawLine` passes to `SetPixel`, in call order: the
branches and loops of the routine with the calls recorded instead of
executed. -/
def DrawLinePositions (x1 y1 x2 y2 : Int) : List (Int × Int) :=
  if x1 = x2 ∧ y1 = y2 then [(x1, y1)]
  else if |x1 - x2| > |y1 - y2| then
    let start_x := if x1 < x2 then x1 else x2
    let start_y := if x1 < x2 then y1 else y2
    let end_x := if x1 < x2 then x2 else x1
    let end_y := if x1 < x2 then y2 else y1
    let length := end_x - start_x + 1
    let alpha : ℚ := f32Div (f32OfInt (end_y - start_y)) (f32OfInt (end_x - start_x))
    forLoop 0 (length - 1)
      (fun i ps => ps ++ [(start_x + i,
        truncToInt (f32Add (f32Add (f32OfInt start_y) (f32Mul alpha (f32OfInt i))) (1 / 2)))]) []
  else
    let start_x := if y1 < y2 then x1 else x2
    let start_y := if y1 < y2 then y1 else y2
    let end_x := if y1 < y2 then x2 else x1
    let end_y := if y1 < y2 then y2 else y1
    let length := end_y - start_y + 1
    let alpha : ℚ := f32Div (f32OfInt (end_x - start_x)) (f32OfInt (end_y - start_y))
    forLoop 0 (length - 1)
      (fun i ps => ps ++ [(truncToInt (f32Add (f32Add (f32OfInt start_x)
        (f32Mul alpha (f32OfInt i))) (1 / 2)), start_y + i)]) []

/-- The routine the spec compares `DrawRectangleBorder` with: every pixel of
the four edges of the rectangle is drawn one by one through the clip-checking
`SetPixel`, with no test of the rectangle against the clip rectangle. -/
def DrawRectangleBorderPixelByPixel (g : Graphics) (x1 y1 x2 y2 color : Int) : Graphics :=
  let color := GetDrawColor g color
  let g := forLoop (min x1 x2) (max x1 x2)
    (fun i g => SetPixel (SetPixel g i y1 color) i y2 color) g
  forLoop (min y1 y2) (max y1 y2)
    (fun i g => SetPixel (SetPixel g x1 i color) x2 i color) g

/-! ## Tilemap calls and text filtering -/

/-- The source column `u` that `DrawTilemap` computes from a tile value:
`(value % (IMAGE_BANK_WIDTH / TILEMAP_CHIP_WIDTH)) * TILEMAP_CHIP_WIDTH`. -/
def TileU (K : Constants) (value : Int) : Int :=
  (Int.tmod value (Int.tdiv K.IMAGE_BANK_WIDTH K.TILEMAP_CHIP_WIDTH)) * K.TILEMAP_CHIP_WIDTH

/-- The source row `v` that `DrawTilemap` computes from a tile value:
`(value / (IMAGE_BANK_HEIGHT / TILEMAP_CHIP_HEIGHT)) * TILEMAP_CHIP_HEIGHT`. -/
def TileV (K : Constants) (value : Int) : Int :=
  (Int.tdiv value (Int.tdiv K.IMAGE_BANK_HEIGHT K.TILEMAP_CHIP_HEIGHT)) * K.TILEMAP_CHIP_HEIGHT

/-- One `DrawImage` call made by `DrawTilemap`: the tilemap cell
`(tile_u, tile_v)` it reads, the tile value stored there, and the destination
`(dst_x, dst_y)` it passes. -/
structure TileCall where
  tile_u : Int
  tile_v : Int
  value : Int
  dst_x : Int
  dst_y : Int
deriving DecidableEq, Repr

/-- The `DrawImage` calls made by `Graphics::DrawTilemap`, in call order: the
loops of the routine with the calls recorded instead of executed. -/
def DrawTilemapCalls (K : Constants) (tilemap : Tilemap) (x y u v width height : Int) :
    List TileCall :=
  let copy_rect := Rectangle.FromSize u v width height
  let dst_rect := Rectangle.FromPos (-32768) (-32768) 32767 32767
  let copy_area := dst_rect.GetCopyArea x y tilemap.Rectangle copy_rect
  let src_width := tilemap.width
  let src_data := tilemap.data
  forLoop 0 (copy_area.height - 1)
    (fun i calls =>
      let index := src_width * (copy_area.src_y + i) + copy_area.src_x
      forLoop 0 (copy_area.width - 1)
        (fun j calls =>
          calls ++ [⟨copy_area.src_x + j, copy_area.src_y + i, readAt src_data (index + j),
            x + j * K.TILEMAP_CHIP_WIDTH, y + i * K.TILEMAP_CHIP_HEIGHT⟩])
        calls)
    []

/-- Executes recorded tilemap calls: each is the `DrawImage` call of
`DrawTilemap` for its tile value and destination. -/
def RunTileCalls (K : Constants) (g : Graphics) (image_index color_key : Int)
    (calls : List TileCall) : Graphics :=
  calls.foldl
    (fun g c => DrawImage K g c.dst_x c.dst_y image_index (TileU K c.value) (TileV K c.value)
      K.TILEMAP_CHIP_WIDTH K.TILEMAP_CHIP_HEIGHT color_key)
    g

/-- The text with every character removed that is not a newline (10) and whose
code is below `MIN_FONT_CODE` or above `MAX_FONT_CODE`. -/
def removeUnsupported (K : Constants) (text : List Int) : List Int :=
  text.filter (fun ch => decide (¬ (ch ≠ 10 ∧ (ch < K.MIN_FONT_CODE ∨ ch > K.MAX_FONT_CODE))))

/-- The text with every character removed that `DrawText` skips: it is not a
newline (10), not a space (32), and its code is below `MIN_FONT_CODE` or above
`MAX_FONT_CODE`. -/
def removeSkipped (K : Constants) (text : List Int) : List Int :=
  text.filter (fun ch =>
    decide (¬ (ch ≠ 10 ∧ ch ≠ 32 ∧ (ch < K.MIN_FONT_CODE ∨ ch > K.MAX_FONT_CODE))))

/-! ## Construction and reachable states -/

/-- Modelled from the spec: the constructor `Image::Image(width, height)`
(`image.h` is not in the source tree): a `width` x `height` raster, all 0. -/
def Image.new (width height : Int) : Image :=
  ⟨width, height, List.replicate (width * height).toNat 0⟩

/-- Modelled from the spec: the constructor `Tilemap::Tilemap(width, height)`
(`tilemap.h` is not in the source tree): a `width` x `height` grid of tile
value 0 that refers to image bank 0. -/
def Tilemap.new (width height : Int) : Tilemap :=
  ⟨width, height, List.replicate (width * height).toNat 0, 0⟩

/-- Modelled from the spec: `Image::SetData(x, y, data, height)` (`image.h` is
not in the source tree), the bulk initializer for built-in bitmaps: row `i` of
`data` is stored at row `y + i`, from column `x` on. -/
def Image.SetData (img : Image) (x y : Int) (data : List (List Int)) (height : Int) : Image :=
  ⟨img.width, img.height,
    forLoop 0 (height - 1)
      (fun i buf =>
        forLoop 0 (((data.getD i.toNat []).length : Int) - 1)
          (fun j buf => writeAt buf (img.width * (y + i) + x + j)
            ((data.getD i.toNat []).getD j.toNat 0))
          buf)
      img.data⟩

/-- `Graphics::SetupMouseCursor`. -/
def SetupMouseCursor (K : Constants) (g : Graphics) : Graphics :=
  let image := g.image_bank.getD K.IMAGE_BANK_FOR_SYSTEM.toNat ⟨0, 0, []⟩
  let image := image.SetData K.MOUSE_CURSOR_X K.MOUSE_CURSOR_Y K.MOUSE_CURSOR_DATA
    K.MOUSE_CURSOR_HEIGHT
  { g with image_bank := g.image_bank.set K.IMAGE_BANK_FOR_SYSTEM.toNat image }

/-- The constructor `Graphics::Graphics(width, height)`.  The clip rectangle
and the palette table hold no defined value before `ResetClippingArea` and
`ResetPalette` set them; the model starts them at 0. -/
def Graphics.new (K : Constants) (width height : Int) : Graphics :=
  let g : Graphics :=
    ⟨Image.new width height,
      List.replicate K.IMAGE_BANK_COUNT.toNat
        (Image.new K.IMAGE_BANK_WIDTH K.IMAGE_BANK_HEIGHT),
      List.replicate K.TILEMAP_BANK_COUNT.toNat
        (Tilemap.new K.TILEMAP_BANK_WIDTH K.TILEMAP_BANK_HEIGHT),
      ⟨0, 0, 0, 0⟩, List.replicate K.COLOR_COUNT.toNat 0⟩
  let g := SetupMouseCursor K g
  let g := SetupFont K g
  let g := ResetClippingArea g
  let g := ResetPalette K g
  Clear g 0

/-- The canvas states reachable from the constructor by the configuration and
draw calls of `Graphics`. -/
inductive Reachable (K : Constants) (width height : Int) : Graphics → Prop
  | init : Reachable K width height (Graphics.new K width height)
  | setClippingArea {g : Graphics} (x1 y1 x2 y2 : Int) :
      Reachable K width height g → Reachable K width height (SetClippingArea g x1 y1 x2 y2)
  | resetClippingArea {g : Graphics} :
      Reachable K width height g → Reachable K width height (ResetClippingArea g)
  | setPalette {g : Graphics} (src_color dst_color : Int) :
      Reachable K width height g → Reachable K width height (SetPalette K g src_color dst_color)
  | resetPalette {g : Graphics} :
      Reachable K width height g → Reachable K width height (ResetPalette K g)
  | clear {g : Graphics} (color : Int) :
      Reachable K width height g → Reachable K width height (Clear g color)
  | drawPoint {g : Graphics} (x y color : Int) :
      Reachable K width height g → Reachable K width height (DrawPoint g x y color)
  | drawLine {g : Graphics} (x1 y1 x2 y2 color : Int) :
      Reachable K width height g → Reachable K width height (DrawLine g x1 y1 x2 y2 color)
  | drawRectangle {g : Graphics} (x1 y1 x2 y2 color : Int) :
      Reachable K width height g → Reachable K width height (DrawRectangle g x1 y1 x2 y2 color)
  | drawRectangleBorder {g : Graphics} (x1 y1 x2 y2 color : Int) :
      Reachable K width height g →
        Reachable K width height (DrawRectangleBorder g x1 y1 x2 y2 color)
  | drawCircle {g : Graphics} (x y radius color : Int) :
      Reachable K width height g → Reachable K width height (DrawCircle g x y radius color)
  | drawCircleBorder {g : Graphics} (x y radius color : Int) :
      Reachable K width height g → Reachable K width height (DrawCircleBorder g x y radius color)
  | drawImage {g : Graphics} (x y image_index u v w h color_key : Int) :
      Reachable K width height g →
        Reachable K width height (DrawImage K g x y image_index u v w h color_key)
  | drawTilemap {g : Graphics} (x y tilemap_index u v w h color_key : Int) :
      Reachable K width height g →
        Reachable K width height (DrawTilemap K g x y tilemap_index u v w h color_key)
  | drawText {g : Graphics} (x y : Int) (text : List Int) (color : Int) :
      Reachable K width height g → Reachable K width height (DrawText K g x y text color)

/-- The canvas `g'` has the screen dimensions and the clip rectangle of `g`. -/
def SameShape (g g' : Graphics) : Prop :=
  g'.screen_image.width = g.screen_image.width ∧
    g'.screen_image.height = g.screen_image.height ∧ g'.clip_rect = g.clip_rect

/-- The pixel value the spec gives for pixel number `n` of a glyph (rows of
`FONT_WIDTH` pixels, first row first): `FONT_COLOR` if bit `23 - n` of the
glyph word is set, and 0 otherwise. -/
def glyphBit (K : Constants) (font : Nat) (n : Int) : Int :=
  if n ≤ 23 ∧ font.testBit (23 - n).toNat = true then K.FONT_COLOR else 0

/-- The font atlas fits in the system image bank: the system bank exists, the
glyph cells have positive size, and the `FONT_ROW_COUNT` cells of a row and
every row of cells lie inside the `IMAGE_BANK_WIDTH` x `IMAGE_BANK_HEIGHT`
raster, so that `SetupFont` writes inside the buffer. -/
def FontAtlasFits (K : Constants) : Prop :=
  0 ≤ K.IMAGE_BANK_FOR_SYSTEM ∧ K.IMAGE_BANK_FOR_SYSTEM < K.IMAGE_BANK_COUNT ∧
    0 < K.FONT_WIDTH ∧ 0 < K.FONT_HEIGHT ∧ 0 < K.FONT_ROW_COUNT ∧
    0 ≤ K.FONT_X ∧ K.FONT_X + K.FONT_WIDTH * K.FONT_ROW_COUNT ≤ K.IMAGE_BANK_WIDTH ∧
    0 ≤ K.FONT_Y ∧
    ∀ i : Int, 0 ≤ i → i < (K.FONT_DATA.length : Int) →
      K.FONT_Y + K.FONT_HEIGHT * (Int.tdiv i K.FONT_ROW_COUNT + 1) ≤ K.IMAGE_BANK_HEIGHT

/-! ## Raw buffers and loops: basic lemmas -/

theorem length_writeAt (data : List Int) (idx v : Int) :
    (writeAt data idx v).length = data.length := by
  unfold writeAt
  split <;> simp

theorem readAt_writeAt (data : List Int) (idx v j : Int) :
    readAt (writeAt data idx v) j =
      if idx = j ∧ 0 ≤ idx ∧ idx < (data.length : Int) then v else readAt data j := by
  unfold writeAt readAt
  by_cases hi : 0 ≤ idx
  · by_cases hj : 0 ≤ j
    · simp only [hi, hj, if_true, true_and, List.getD_eq_getElem?_getD, List.getElem?_set]
      by_cases hij : idx = j
      · subst hij
        by_cases hlt : idx < (data.length : Int)
        · have : idx.toNat < data.length := by omega
          simp [hlt, this]
        · have h1 : ¬ idx.toNat < data.length := by omega
          have h2 : data.length ≤ idx.toNat := by omega
          simp [hlt, h1, List.getElem?_eq_none h2]
      · have : idx.toNat ≠ j.toNat := by omega
        simp [hij, this]
    · have hne : idx ≠ j := by omega
      simp [hi, hj, hne]
  · simp [hi]

theorem readAt_writeAt_ne (data : List Int) (idx v j : Int) (h : idx ≠ j) :
    readAt (writeAt data idx v) j = readAt data j := by
  rw [readAt_writeAt]; simp [h]

theorem forLoop_of_lt {σ : Type} (lo hi : Int) (body : Int → σ → σ) (s : σ) (h : hi < lo) :
    forLoop lo hi body s = s := by
  unfold forLoop
  have : (hi + 1 - lo).toNat = 0 := by omega
  simp [this]

theorem forLoop_succ {σ : Type} (lo hi : Int) (body : Int → σ → σ) (s : σ) (h : lo ≤ hi + 1) :
    forLoop lo (hi + 1) body s = body (hi + 1) (forLoop lo hi body s) := by
  unfold forLoop
  have h1 : (hi + 1 + 1 - lo).toNat = (hi + 1 - lo).toNat + 1 := by omega
  rw [h1, List.range_succ, List.foldl_append]
  have h2 : lo + ((hi + 1 - lo).toNat : Int) = hi + 1 := by omega
  simp only [List.foldl_cons, List.foldl_nil, h2]

/-- Loop induction: `P i s` reads "`s` is the state once all indices below `i` are done". -/
theorem forLoop_induction {σ : Type} (P : Int → σ → Prop) (lo hi : Int) (body : Int → σ → σ)
    (s : σ) (hle : lo ≤ hi + 1) (h0 : P lo s)
    (hstep : ∀ i s, lo ≤ i → i ≤ hi → P i s → P (i + 1) (body i s)) :
    P (hi + 1) (forLoop lo hi body s) := by
  obtain ⟨n, hn⟩ : ∃ n : Nat, hi + 1 = lo + (n : Int) := ⟨(hi + 1 - lo).toNat, by omega⟩
  induction n generalizing hi with
  | zero =>
    have : hi < lo := by omega
    rw [forLoop_of_lt _ _ _ _ this]
    have : hi + 1 = lo := by omega
    rw [this]; exact h0
  | succ n ih =>
    have e : hi = (hi - 1) + 1 := by omega
    rw [e, forLoop_succ _ _ _ _ (by omega)]
    apply hstep
    · omega
    · omega
    · have := ih (hi - 1) (by omega) (fun i s h1 h2 => hstep i s h1 (by omega)) (by push_cast at hn; omega)
      simpa using this

/-- Loop invariant: a property kept by every iteration holds after the loop. -/
theorem forLoop_invariant {σ : Type} (P : σ → Prop) (lo hi : Int) (body : Int → σ → σ)
    (s : σ) (h0 : P s) (hstep : ∀ i s, lo ≤ i → i ≤ hi → P s → P (body i s)) :
    P (forLoop lo hi body s) := by
  by_cases hle : lo ≤ hi + 1
  · exact forLoop_induction (fun _ s => P s) lo hi body s hle h0 hstep
  · rw [forLoop_of_lt _ _ _ _ (by omega)]; exact h0

/-! ## Row-major addressing -/

theorem row_offset_zero (W t px : Int) (h0 : 0 ≤ px) (h1 : px < W)
    (h2 : 0 ≤ W * t + px) (h3 : W * t + px < W) : t = 0 := by
  by_contra hne
  rcases lt_or_gt_of_ne hne with hlt | hgt
  · have : W * t ≤ W * (-1) := mul_le_mul_of_nonneg_left (by omega) (by omega)
    omega
  · have : W * 1 ≤ W * t := mul_le_mul_of_nonneg_left (by omega) (by omega)
    omega

theorem index_inj (W x y x' y' : Int) (hx : 0 ≤ x) (hxW : x < W) (hx' : 0 ≤ x')
    (hxW' : x' < W) (h : W * y + x = W * y' + x') : x = x' ∧ y = y' := by
  have ht : y - y' = 0 := by
    have e : W * (y - y') + x = x' := by rw [mul_sub]; omega
    exact row_offset_zero W (y - y') x hx hxW (by omega) (by omega)
  have hy : y = y' := by omega
  subst hy
  exact ⟨by omega, rfl⟩

theorem index_bounds (W H x y : Int) (hx : 0 ≤ x) (hxW : x < W) (hy : 0 ≤ y) (hyH : y < H) :
    0 ≤ W * y + x ∧ W * y + x < W * H := by
  have h1 : 0 ≤ W * y := mul_nonneg (by omega) hy
  have h2 : W * (y + 1) ≤ W * H := mul_le_mul_of_nonneg_left (by omega) (by omega)
  rw [mul_add, mul_one] at h2
  omega

/-- One row of conditional stores: `data[base + j] = val j` for the `j` in
`[lo, hi]` with `cond j`. -/
theorem rowLoop_spec (body : Int → List Int → List Int) (base lo hi : Int)
    (cond : Int → Prop) [DecidablePred cond] (val : Int → Int)
    (hbody : ∀ j d, body j d = if cond j then writeAt d (base + j) (val j) else d)
    (d0 : List Int)
    (hb : ∀ j, lo ≤ j → j ≤ hi → 0 ≤ base + j ∧ base + j < (d0.length : Int)) :
    (forLoop lo hi body d0).length = d0.length ∧
      ∀ k, readAt (forLoop lo hi body d0) k =
        if lo ≤ k - base ∧ k - base ≤ hi ∧ cond (k - base) then val (k - base)
        else readAt d0 k := by
  by_cases hle : lo ≤ hi + 1
  · have key := forLoop_induction
      (fun i d => d.length = d0.length ∧ ∀ k, readAt d k =
        if lo ≤ k - base ∧ k - base < i ∧ cond (k - base) then val (k - base) else readAt d0 k)
      lo hi body d0 hle
      ⟨rfl, fun k => by
        have : ¬ (lo ≤ k - base ∧ k - base < lo ∧ cond (k - base)) := by
          rintro ⟨h1, h2, _⟩; omega
        simp [this]⟩
      (by
        intro i d hlo hhi ⟨hlen, hread⟩
        rw [hbody]
        by_cases hc : cond i
        · simp only [hc, if_true]
          refine ⟨by rw [length_writeAt, hlen], fun k => ?_⟩
          rw [readAt_writeAt, hread k, hlen]
          have hbi := hb i hlo hhi
          by_cases hk : base + i = k
          · have e : k - base = i := by omega
            simp [hk, e, hc, hlo, hbi.1, hbi.2]
            omega
          · have hne : k - base ≠ i := by omega
            have e : (k - base < i + 1) ↔ (k - base < i) := by omega
            simp [hk, e]
        · simp only [hc, if_false]
          refine ⟨hlen, fun k => ?_⟩
          rw [hread k]
          by_cases hk : k - base = i
          · have h1 : ¬ (lo ≤ k - base ∧ k - base < i + 1 ∧ cond (k - base)) := by
              rw [hk]; rintro ⟨_, _, h⟩; exact hc h
            have h2 : ¬ (lo ≤ k - base ∧ k - base < i ∧ cond (k - base)) := by
              rintro ⟨_, h, _⟩; omega
            simp [h1, h2]
          · have e : (k - base < i + 1) ↔ (k - base < i) := by omega
            simp [e])
    refine ⟨key.1, fun k => ?_⟩
    rw [key.2 k]
    have e : (k - base < hi + 1) ↔ (k - base ≤ hi) := by omega
    simp [e]
  · rw [forLoop_of_lt _ _ _ _ (by omega)]
    refine ⟨rfl, fun k => ?_⟩
    have : ¬ (lo ≤ k - base ∧ k - base ≤ hi ∧ cond (k - base)) := by
      rintro ⟨h1, h2, _⟩; omega
    rw [if_neg this]

/-- A block of conditional stores into a `W` x `H` row-major buffer: rows
`oy + i` for `i` in `[rlo, rhi]`, columns `ox + j` for `j` in `[clo, chi]`. -/
theorem blockLoop_spec (W H : Int) (d0 : List Int)
    (hlen : (d0.length : Int) = W * H) (rlo rhi clo chi ox oy : Int)
    (hx : 0 ≤ ox + clo ∧ ox + chi < W) (hy : 0 ≤ oy + rlo ∧ oy + rhi < H)
    (cond : Int → Int → Prop) [∀ i j, Decidable (cond i j)] (val : Int → Int → Int)
    (inner : Int → Int → List Int → List Int)
    (hinner : ∀ i j d, inner i j d =
      if cond i j then writeAt d (W * (oy + i) + ox + j) (val i j) else d) :
    (forLoop rlo rhi (fun i d => forLoop clo chi (inner i) d) d0).length = d0.length ∧
      ∀ px py, 0 ≤ px → px < W → 0 ≤ py → py < H →
        readAt (forLoop rlo rhi (fun i d => forLoop clo chi (inner i) d) d0) (W * py + px) =
          if rlo ≤ py - oy ∧ py - oy ≤ rhi ∧ clo ≤ px - ox ∧ px - ox ≤ chi ∧
              cond (py - oy) (px - ox) then val (py - oy) (px - ox)
          else readAt d0 (W * py + px) := by
  by_cases hle : rlo ≤ rhi + 1
  · have key := forLoop_induction
      (fun i d => d.length = d0.length ∧ ∀ px py, 0 ≤ px → px < W → 0 ≤ py → py < H →
        readAt d (W * py + px) =
          if rlo ≤ py - oy ∧ py - oy < i ∧ clo ≤ px - ox ∧ px - ox ≤ chi ∧
              cond (py - oy) (px - ox) then val (py - oy) (px - ox)
          else readAt d0 (W * py + px))
      rlo rhi (fun i d => forLoop clo chi (inner i) d) d0 hle
      ⟨rfl, fun px py _ _ _ _ => by
        have : ¬ (rlo ≤ py - oy ∧ py - oy < rlo ∧ clo ≤ px - ox ∧ px - ox ≤ chi ∧
            cond (py - oy) (px - ox)) := by
          rintro ⟨h1, h2, _⟩; omega
        rw [if_neg this]⟩
      (by
        intro i d hlo hhi ⟨hlen', hread⟩
        have hrow := rowLoop_spec (inner i) (W * (oy + i) + ox) clo chi (cond i) (val i)
          (fun j d => by rw [hinner]) d
          (by
            intro j hj1 hj2
            have := index_bounds W H (ox + j) (oy + i) (by omega) (by omega) (by omega) (by omega)
            rw [hlen', hlen]; omega)
        refine ⟨by rw [hrow.1, hlen'], fun px py hpx hpxW hpy hpyH => ?_⟩
        show readAt (forLoop clo chi (inner i) d) (W * py + px) = _
        rw [hrow.2, hread px py hpx hpxW hpy hpyH]
        by_cases hpyi : py - oy = i
        · have e : W * py + px - (W * (oy + i) + ox) = px - ox := by
            rw [← hpyi]; ring_nf
          rw [e, hpyi]
          have h1 : ¬ (rlo ≤ i ∧ i < i ∧ clo ≤ px - ox ∧ px - ox ≤ chi ∧ cond i (px - ox)) := by
            rintro ⟨_, h, _⟩; omega
          rw [if_neg h1]
          by_cases hc : clo ≤ px - ox ∧ px - ox ≤ chi ∧ cond i (px - ox)
          · have h2 : rlo ≤ i ∧ i < i + 1 ∧ clo ≤ px - ox ∧ px - ox ≤ chi ∧ cond i (px - ox) :=
              ⟨hlo, by omega, hc⟩
            rw [if_pos hc, if_pos h2]
          · have h2 : ¬ (rlo ≤ i ∧ i < i + 1 ∧ clo ≤ px - ox ∧ px - ox ≤ chi ∧
                cond i (px - ox)) := fun h => hc h.2.2
            rw [if_neg hc, if_neg h2]
        · have h1 : ¬ (clo ≤ W * py + px - (W * (oy + i) + ox) ∧
              W * py + px - (W * (oy + i) + ox) ≤ chi ∧
              cond i (W * py + px - (W * (oy + i) + ox))) := by
            rintro ⟨ha, hb, _⟩
            apply hpyi
            have e : W * py + px - (W * (oy + i) + ox) = W * (py - oy - i) + px - ox := by ring
            rw [e] at ha hb
            have := row_offset_zero W (py - oy - i) px hpx hpxW (by omega) (by omega)
            omega
          rw [if_neg h1]
          have e : (py - oy < i + 1) ↔ (py - oy < i) := by omega
          simp only [e])
    refine ⟨key.1, fun px py hpx hpxW hpy hpyH => ?_⟩
    rw [key.2 px py hpx hpxW hpy hpyH]
    have e : (py - oy < rhi + 1) ↔ (py - oy ≤ rhi) := by omega
    simp only [e]
  · rw [forLoop_of_lt _ _ _ _ (by omega)]
    refine ⟨rfl, fun px py _ _ _ _ => ?_⟩
    have : ¬ (rlo ≤ py - oy ∧ py - oy ≤ rhi ∧ clo ≤ px - ox ∧ px - ox ≤ chi ∧
        cond (py - oy) (px - ox)) := by
      rintro ⟨h1, h2, _⟩; omega
    rw [if_neg this]

/-! ## Frame conditions and `SetPixel` -/

theorem ScreenOnly.refl (g : Graphics) : ScreenOnly g g :=
  ⟨rfl, rfl, rfl, rfl, rfl, rfl, rfl⟩

theorem ScreenOnly.trans {g1 g2 g3 : Graphics} (h12 : ScreenOnly g1 g2)
    (h23 : ScreenOnly g2 g3) : ScreenOnly g1 g3 := by
  obtain ⟨a1, a2, a3, a4, a5, a6, a7⟩ := h12
  obtain ⟨b1, b2, b3, b4, b5, b6, b7⟩ := h23
  exact ⟨b1.trans a1, b2.trans a2, b3.trans a3, b4.trans a4, b5.trans a5, b6.trans a6,
    b7.trans a7⟩

theorem ScreenOnly.wellFormed {g g' : Graphics} (h : ScreenOnly g g') (hwf : WellFormed g) :
    WellFormed g' := by
  obtain ⟨a1, a2, a3, _, _, a6, _⟩ := h
  unfold WellFormed ClipInScreen at *
  rw [a1, a2, a3, a6]
  exact hwf

theorem ScreenOnly.onScreen {g g' : Graphics} (h : ScreenOnly g g') (px py : Int) :
    OnScreen g' px py ↔ OnScreen g px py := by
  unfold OnScreen
  rw [h.1, h.2.1]

@[simp] theorem withScreenData_width (g : Graphics) (data : List Int) :
    (g.withScreenData data).screen_image.width = g.screen_image.width := rfl

@[simp] theorem withScreenData_height (g : Graphics) (data : List Int) :
    (g.withScreenData data).screen_image.height = g.screen_image.height := rfl

@[simp] theorem withScreenData_data (g : Graphics) (data : List Int) :
    (g.withScreenData data).screen_image.data = data := rfl

theorem pixel_withScreenData (g : Graphics) (data : List Int) (px py : Int) :
    (g.withScreenData data).pixel px py = readAt data (g.screen_image.width * py + px) := rfl

theorem pixel_eq_readAt (g : Graphics) (px py : Int) :
    g.pixel px py = readAt g.screen_image.data (g.screen_image.width * py + px) := rfl

theorem withScreenData_screenOnly (g : Graphics) (data : List Int)
    (h : data.length = g.screen_image.data.length) : ScreenOnly g (g.withScreenData data) :=
  ⟨rfl, rfl, h, rfl, rfl, rfl, rfl⟩

theorem Includes_iff (r : Rectangle) (x y : Int) :
    r.Includes x y = true ↔ r.left ≤ x ∧ x ≤ r.right ∧ r.top ≤ y ∧ y ≤ r.bottom := by
  simp [Rectangle.Includes, and_assoc]

theorem Includes_eq_false_iff (r : Rectangle) (x y : Int) :
    r.Includes x y = false ↔ ¬ (r.left ≤ x ∧ x ≤ r.right ∧ r.top ≤ y ∧ y ≤ r.bottom) := by
  rw [← Includes_iff]; simp

theorem IsEmpty_iff (r : Rectangle) :
    r.IsEmpty = true ↔ r.right < r.left ∨ r.bottom < r.top := by
  simp [Rectangle.IsEmpty]

/-- In a well-formed canvas a point inside the clip rectangle is on the screen. -/
theorem onScreen_of_includes {g : Graphics} (hwf : WellFormed g) {x y : Int}
    (h : g.clip_rect.Includes x y = true) : OnScreen g x y := by
  rw [Includes_iff] at h
  obtain ⟨_, _, _, hc⟩ := hwf
  rcases hc with he | hin
  · rw [IsEmpty_iff] at he; omega
  · unfold OnScreen; omega

theorem SetPixel_screenOnly (g : Graphics) (x y color : Int) :
    ScreenOnly g (SetPixel g x y color) := by
  unfold SetPixel
  split
  · exact withScreenData_screenOnly _ _ (length_writeAt _ _ _)
  · exact ScreenOnly.refl g

/-- `SetPixel` on a well-formed canvas: the pixel `(x, y)` takes the color if
it is inside the clip rectangle, and no other pixel changes. -/
theorem pixel_SetPixel {g : Graphics} (hwf : WellFormed g) (x y color px py : Int)
    (hon : OnScreen g px py) :
    (SetPixel g x y color).pixel px py =
      if g.clip_rect.Includes x y = true ∧ px = x ∧ py = y then color else g.pixel px py := by
  unfold SetPixel
  by_cases hinc : g.clip_rect.Includes x y = true
  · have hxy := onScreen_of_includes hwf hinc
    unfold OnScreen at hxy hon
    have hb := index_bounds g.screen_image.width g.screen_image.height x y hxy.1 hxy.2.1
      hxy.2.2.1 hxy.2.2.2
    rw [if_pos hinc, pixel_withScreenData, readAt_writeAt, hwf.2.2.1, pixel_eq_readAt]
    by_cases hp : px = x ∧ py = y
    · obtain ⟨rfl, rfl⟩ := hp
      simp [hinc, hb.1, hb.2]
    · have hne : g.screen_image.width * y + x ≠ g.screen_image.width * py + px := by
        intro h
        have := index_inj _ _ _ _ _ hxy.1 hxy.2.1 hon.1 hon.2.1 h
        exact hp ⟨this.1.symm, this.2.symm⟩
      simp [hne, hp]
  · simp [hinc]

theorem SetPixel_sameOutsideClip {g : Graphics} (hwf : WellFormed g) (x y color : Int) :
    SameOutsideClip g (SetPixel g x y color) := by
  intro px py hon hout
  rw [pixel_SetPixel hwf x y color px py hon]
  have : ¬ (g.clip_rect.Includes x y = true ∧ px = x ∧ py = y) := by
    rintro ⟨h, rfl, rfl⟩
    rw [h] at hout; exact Bool.noConfusion hout
  rw [if_neg this]

/-! ## Palette -/

theorem ResetPalette_table (K : Constants) (g : Graphics)
    (hlen : (g.palette_table.length : Int) = K.COLOR_COUNT) (i : Int) (h0 : 0 ≤ i)
    (h1 : i < K.COLOR_COUNT) : readAt (ResetPalette K g).palette_table i = i := by
  have h := rowLoop_spec (fun i table => writeAt table i i) 0 0 (K.COLOR_COUNT - 1)
    (fun _ => True) (fun j => j) (fun j d => by simp) g.palette_table
    (fun j hj1 hj2 => by omega)
  show readAt (forLoop 0 (K.COLOR_COUNT - 1) (fun i table => writeAt table i i) g.palette_table) i = i
  rw [h.2 i]
  have : 0 ≤ i - 0 ∧ i - 0 ≤ K.COLOR_COUNT - 1 ∧ True := ⟨by omega, by omega, trivial⟩
  rw [if_pos this]; show i - 0 = i; omega

/-- C7: `SetPalette` checks both indices before it stores.  If `src_color` or
`dst_color` is outside `[0, COLOR_COUNT)` the canvas state (so the whole
palette table) is unchanged; otherwise `palette_table[src_color]` becomes
`dst_color`, every other palette entry keeps its value, and the screen, the
banks and the clip rectangle are unchanged. -/
theorem SetPalette_spec (K : Constants) (g : Graphics)
    (hlen : (g.palette_table.length : Int) = K.COLOR_COUNT) (src_color dst_color : Int) :
    ((src_color < 0 ∨ K.COLOR_COUNT ≤ src_color ∨ dst_color < 0 ∨ K.COLOR_COUNT ≤ dst_color) →
        SetPalette K g src_color dst_color = g) ∧
      ((0 ≤ src_color ∧ src_color < K.COLOR_COUNT ∧ 0 ≤ dst_color ∧ dst_color < K.COLOR_COUNT) →
        (∀ i, readAt (SetPalette K g src_color dst_color).palette_table i =
            if i = src_color then dst_color else readAt g.palette_table i) ∧
          (SetPalette K g src_color dst_color).palette_table.length = g.palette_table.length ∧
          (SetPalette K g src_color dst_color).screen_image = g.screen_image ∧
          (SetPalette K g src_color dst_color).image_bank = g.image_bank ∧
          (SetPalette K g src_color dst_color).tilemap_bank = g.tilemap_bank ∧
          (SetPalette K g src_color dst_color).clip_rect = g.clip_rect) := by
  constructor
  · intro h
    unfold SetPalette
    by_cases hs : src_color < 0 ∨ src_color ≥ K.COLOR_COUNT
    · rw [if_pos hs]
    · have hd : dst_color < 0 ∨ dst_color ≥ K.COLOR_COUNT := by omega
      rw [if_neg hs, if_pos hd]
  · rintro ⟨hs0, hs1, hd0, hd1⟩
    have hs : ¬ (src_color < 0 ∨ src_color ≥ K.COLOR_COUNT) := by omega
    have hd : ¬ (dst_color < 0 ∨ dst_color ≥ K.COLOR_COUNT) := by omega
    unfold SetPalette
    rw [if_neg hs, if_neg hd]
    refine ⟨fun i => ?_, length_writeAt _ _ _, rfl, rfl, rfl, rfl⟩
    show readAt (writeAt g.palette_table src_color dst_color) i = _
    rw [readAt_writeAt]
    by_cases hi : i = src_color
    · subst hi
      have : i = i ∧ 0 ≤ i ∧ i < (g.palette_table.length : Int) := ⟨rfl, hs0, by omega⟩
      rw [if_pos this, if_pos rfl]
    · have : ¬ (src_color = i ∧ 0 ≤ src_color ∧ src_color < (g.palette_table.length : Int)) :=
        fun h => hi h.1.symm
      rw [if_neg this, if_neg hi]

/-- Witness for C7 on the sample canvas: an invalid destination color leaves
the state unchanged. -/
theorem SetPalette_spec_witness :
    SetPalette sampleConstants sampleGraphics 3 16 = sampleGraphics :=
  (SetPalette_spec sampleConstants sampleGraphics (by decide) 3 16).1 (by decide)

/-! ## `DrawPoint` -/

/-- C3: `DrawPoint` on a well-formed canvas.  For `(x, y)` outside the clip
rectangle the canvas is unchanged; for `(x, y)` inside it the pixel `(x, y)`
becomes the resolved color `palette_table[color]` and no other screen pixel
changes.  Only the screen buffer is touched. -/
theorem DrawPoint_spec (g : Graphics) (hwf : WellFormed g) (x y color : Int) :
    ScreenOnly g (DrawPoint g x y color) ∧
      (g.clip_rect.Includes x y = false → DrawPoint g x y color = g) ∧
      (g.clip_rect.Includes x y = true →
        (DrawPoint g x y color).pixel x y = readAt g.palette_table color ∧
          ∀ px py, OnScreen g px py → ¬ (px = x ∧ py = y) →
            (DrawPoint g x y color).pixel px py = g.pixel px py) := by
  refine ⟨SetPixel_screenOnly _ _ _ _, fun hout => ?_, fun hin => ⟨?_, fun px py hon hne => ?_⟩⟩
  · unfold DrawPoint SetPixel
    rw [hout]; rfl
  · unfold DrawPoint
    rw [pixel_SetPixel hwf _ _ _ _ _ (onScreen_of_includes hwf hin), if_pos ⟨hin, rfl, rfl⟩]
    rfl
  · unfold DrawPoint
    rw [pixel_SetPixel hwf _ _ _ _ _ hon]
    have : ¬ (g.clip_rect.Includes x y = true ∧ px = x ∧ py = y) := fun h => hne h.2
    rw [if_neg this]

/-- Witness for C3: on the 10x10 sample canvas with the clip rectangle set to
(0,0,4,4), `DrawPoint(5,5,2)` leaves the canvas unchanged. -/
theorem DrawPoint_spec_witness :
    DrawPoint (SetClippingArea sampleGraphics 0 0 4 4) 5 5 2 =
      SetClippingArea sampleGraphics 0 0 4 4 :=
  (DrawPoint_spec (SetClippingArea sampleGraphics 0 0 4 4) (by decide) 5 5 2).2.1 (by decide)

/-- C8: `ResetPalette` restores the identity mapping whatever the palette was
(`palette_table[i] = i` for every `i` in `[0, COLOR_COUNT)`), and a following
`DrawPoint(x, y, c)` with `c` in `[0, COLOR_COUNT)` and `(x, y)` inside the
clip rectangle leaves the pixel `(x, y)` with value exactly `c`. -/
theorem ResetPalette_DrawPoint (K : Constants) (g : Graphics) (hwf : WellFormed g)
    (hlen : (g.palette_table.length : Int) = K.COLOR_COUNT) :
    (∀ i, 0 ≤ i → i < K.COLOR_COUNT → readAt (ResetPalette K g).palette_table i = i) ∧
      ∀ x y c, 0 ≤ c → c < K.COLOR_COUNT → g.clip_rect.Includes x y = true →
        (DrawPoint (ResetPalette K g) x y c).pixel x y = c := by
  refine ⟨fun i h0 h1 => ResetPalette_table K g hlen i h0 h1, fun x y c h0 h1 hin => ?_⟩
  have hwf' : WellFormed (ResetPalette K g) := hwf
  have hin' : (ResetPalette K g).clip_rect.Includes x y = true := hin
  unfold DrawPoint
  rw [pixel_SetPixel hwf' _ _ _ _ _ (onScreen_of_includes hwf' hin'), if_pos ⟨hin', rfl, rfl⟩]
  exact ResetPalette_table K g hlen c h0 h1

/-- Witness for C8 on the sample canvas with a scrambled palette. -/
theorem ResetPalette_DrawPoint_witness :
    (DrawPoint (ResetPalette sampleConstants
      (SetPalette sampleConstants sampleGraphics 5 9)) 3 4 5).pixel 3 4 = 5 :=
  (ResetPalette_DrawPoint sampleConstants (SetPalette sampleConstants sampleGraphics 5 9)
    (by decide) (by decide)).2 3 4 5 (by decide) (by decide) (by decide)

/-! ## `DrawRectangle` -/

/-- `DrawRectangle` on a well-formed canvas, pixel by pixel: the pixels of the
normalized rectangle that are inside the clip rectangle take the resolved
color, every other screen pixel is unchanged. -/
theorem DrawRectangle_pixel (g : Graphics) (hwf : WellFormed g) (x1 y1 x2 y2 color : Int) :
    ScreenOnly g (DrawRectangle g x1 y1 x2 y2 color) ∧
      ∀ px py, OnScreen g px py →
        (DrawRectangle g x1 y1 x2 y2 color).pixel px py =
          if min x1 x2 ≤ px ∧ px ≤ max x1 x2 ∧ min y1 y2 ≤ py ∧ py ≤ max y1 y2 ∧
              g.clip_rect.Includes px py = true
          then readAt g.palette_table color else g.pixel px py := by
  by_cases hemp : ((Rectangle.FromPos x1 y1 x2 y2).Intersect g.clip_rect).IsEmpty = true
  · have hg : DrawRectangle g x1 y1 x2 y2 color = g := by
      unfold DrawRectangle
      simp only [hemp, if_true]
    rw [hg]
    refine ⟨ScreenOnly.refl g, fun px py _ => ?_⟩
    have : ¬ (min x1 x2 ≤ px ∧ px ≤ max x1 x2 ∧ min y1 y2 ≤ py ∧ py ≤ max y1 y2 ∧
        g.clip_rect.Includes px py = true) := by
      rintro ⟨h1, h2, h3, h4, h5⟩
      rw [Includes_iff] at h5
      rw [IsEmpty_iff] at hemp
      simp only [Rectangle.Intersect, Rectangle.FromPos] at hemp
      omega
    rw [if_neg this]
  · have hne := hemp
    rw [IsEmpty_iff] at hne
    simp only [Rectangle.Intersect, Rectangle.FromPos] at hne
    obtain ⟨hW, hH, hlen, hclip⟩ := hwf
    have hin : 0 ≤ g.clip_rect.left ∧ g.clip_rect.right ≤ g.screen_image.width - 1 ∧
        0 ≤ g.clip_rect.top ∧ g.clip_rect.bottom ≤ g.screen_image.height - 1 := by
      rcases hclip with he | hin
      · rw [IsEmpty_iff] at he; omega
      · exact hin
    have hblock := blockLoop_spec g.screen_image.width g.screen_image.height g.screen_image.data
      hlen (max (min y1 y2) g.clip_rect.top) (min (max y1 y2) g.clip_rect.bottom)
      (max (min x1 x2) g.clip_rect.left) (min (max x1 x2) g.clip_rect.right) 0 0
      (by omega) (by omega) (fun _ _ => True) (fun _ _ => GetDrawColor g color)
      (fun i j data => writeAt data (g.screen_image.width * i + j) (GetDrawColor g color))
      (fun i j d => by simp)
    have hg : DrawRectangle g x1 y1 x2 y2 color = g.withScreenData
        (forLoop (max (min y1 y2) g.clip_rect.top) (min (max y1 y2) g.clip_rect.bottom)
          (fun i d => forLoop (max (min x1 x2) g.clip_rect.left)
            (min (max x1 x2) g.clip_rect.right)
            (fun j data => writeAt data (g.screen_image.width * i + j) (GetDrawColor g color)) d)
          g.screen_image.data) := by
      unfold DrawRectangle
      simp only [hemp]
      rfl
    rw [hg]
    refine ⟨withScreenData_screenOnly _ _ hblock.1, fun px py hon => ?_⟩
    rw [pixel_withScreenData, hblock.2 px py hon.1 hon.2.1 hon.2.2.1 hon.2.2.2, pixel_eq_readAt]
    simp only [Includes_iff, GetDrawColor, sub_zero, and_true]
    congr 1
    apply propext
    constructor <;> intro h <;> omega

/-- C2: `DrawRectangle` on a well-formed canvas.  After the call a screen pixel
`(px, py)` holds `palette_table[color]` if it lies in the normalized rectangle
`[min x1 x2, max x1 x2] x [min y1 y2, max y1 y2]` and inside the clip
rectangle, and every other screen pixel is unchanged; only the screen buffer
is touched, and when the normalized rectangle does not meet the clip rectangle
the canvas is unchanged. -/
theorem DrawRectangle_spec (g : Graphics) (hwf : WellFormed g) (x1 y1 x2 y2 color : Int) :
    ScreenOnly g (DrawRectangle g x1 y1 x2 y2 color) ∧
      (∀ px py, OnScreen g px py →
        (DrawRectangle g x1 y1 x2 y2 color).pixel px py =
          if min x1 x2 ≤ px ∧ px ≤ max x1 x2 ∧ min y1 y2 ≤ py ∧ py ≤ max y1 y2 ∧
              g.clip_rect.Includes px py = true
          then readAt g.palette_table color else g.pixel px py) ∧
      (((Rectangle.FromPos x1 y1 x2 y2).Intersect g.clip_rect).IsEmpty = true →
        DrawRectangle g x1 y1 x2 y2 color = g) := by
  have h := DrawRectangle_pixel g hwf x1 y1 x2 y2 color
  refine ⟨h.1, h.2, fun hemp => ?_⟩
  unfold DrawRectangle
  simp only [hemp, if_true]

/-- Witness for C2 and the scenario of the spec: on the cleared 10x10 sample
canvas `DrawRectangle(2,2,4,4,1)` sets exactly the 3x3 block (2,2)..(4,4) to 1. -/
theorem DrawRectangle_spec_witness :
    WellFormed sampleGraphics ∧
      (DrawRectangle sampleGraphics 2 2 4 4 1).pixel 4 2 = 1 ∧
      (DrawRectangle sampleGraphics 2 2 4 4 1).pixel 5 2 = 0 ∧
      (DrawRectangle sampleGraphics 2 2 4 4 1).screen_image.data =
        List.replicate 20 0 ++ [0, 0, 1, 1, 1, 0, 0, 0, 0, 0] ++ [0, 0, 1, 1, 1, 0, 0, 0, 0, 0] ++
          [0, 0, 1, 1, 1, 0, 0, 0, 0, 0] ++ List.replicate 50 0 :=
  ⟨by decide,
    ((DrawRectangle_spec sampleGraphics (by decide) 2 2 4 4 1).2.1 4 2 (by decide)).trans
      (by decide),
    ((DrawRectangle_spec sampleGraphics (by decide) 2 2 4 4 1).2.1 5 2 (by decide)).trans
      (by decide),
    by decide⟩

/-! ## `GetCopyArea` and `DrawImage` -/

/-- The copy area of a `width` x `height` window at `(u, v)` placed at `(x, y)`:
source and destination starts stay aligned, and the destination columns and
rows are those whose offset is in the window, whose source is in `src` and
which lie in `dst`. -/
theorem GetCopyArea_spec (dst src : Rectangle) (x y u v width height : Int) :
    (dst.GetCopyArea x y src (Rectangle.FromSize u v width height)).src_x -
        (dst.GetCopyArea x y src (Rectangle.FromSize u v width height)).dst_x = u - x ∧
      (dst.GetCopyArea x y src (Rectangle.FromSize u v width height)).src_y -
        (dst.GetCopyArea x y src (Rectangle.FromSize u v width height)).dst_y = v - y ∧
      (∀ px, (0 ≤ px - (dst.GetCopyArea x y src (Rectangle.FromSize u v width height)).dst_x ∧
          px - (dst.GetCopyArea x y src (Rectangle.FromSize u v width height)).dst_x ≤
            (dst.GetCopyArea x y src (Rectangle.FromSize u v width height)).width - 1) ↔
        (0 ≤ px - x ∧ px - x < width ∧ src.left ≤ u + (px - x) ∧ u + (px - x) ≤ src.right ∧
          dst.left ≤ px ∧ px ≤ dst.right)) ∧
      (∀ py, (0 ≤ py - (dst.GetCopyArea x y src (Rectangle.FromSize u v width height)).dst_y ∧
          py - (dst.GetCopyArea x y src (Rectangle.FromSize u v width height)).dst_y ≤
            (dst.GetCopyArea x y src (Rectangle.FromSize u v width height)).height - 1) ↔
        (0 ≤ py - y ∧ py - y < height ∧ src.top ≤ v + (py - y) ∧ v + (py - y) ≤ src.bottom ∧
          dst.top ≤ py ∧ py ≤ dst.bottom)) := by
  simp only [Rectangle.GetCopyArea, Rectangle.FromSize, Rectangle.Width, Rectangle.Height]
  refine ⟨by omega, by omega, fun px => ?_, fun py => ?_⟩
  · constructor <;> intro h <;> omega
  · constructor <;> intro h <;> omega

/-- `DrawImage` on a well-formed canvas, pixel by pixel: a screen pixel written
by the blit becomes the palette image of its source pixel, every other screen
pixel is unchanged, and only the screen buffer is touched. -/
theorem DrawImage_pixel (K : Constants) (g : Graphics) (hwf : WellFormed g)
    (x y image_index u v width height color_key : Int) :
    ScreenOnly g (DrawImage K g x y image_index u v width height color_key) ∧
      ∀ px py, OnScreen g px py →
        (DrawImage K g x y image_index u v width height color_key).pixel px py =
          if BlitWrites g (GetImageBank K g image_index) x y u v width height
              (effectiveColorKey K color_key) px py
          then readAt g.palette_table
            ((GetImageBank K g image_index).pixel (u + (px - x)) (v + (py - y)))
          else g.pixel px py := by
  obtain ⟨hW, hH, hlen, hclip⟩ := hwf
  have hca := GetCopyArea_spec (g.screen_image.Rectangle.Intersect g.clip_rect)
    (GetImageBank K g image_index).Rectangle x y u v width height
  generalize hcadef : (g.screen_image.Rectangle.Intersect g.clip_rect).GetCopyArea x y
    (GetImageBank K g image_index).Rectangle (Rectangle.FromSize u v width height) = ca at hca
  obtain ⟨hsx, hsy, hcol, hrow⟩ := hca
  simp only [Image.Rectangle, Rectangle.Intersect, Rectangle.FromSize] at hcol hrow
  -- membership in the copy area, in terms of the claim
  have hmem : ∀ px py, OnScreen g px py →
      ((0 ≤ py - ca.dst_y ∧ py - ca.dst_y ≤ ca.height - 1 ∧ 0 ≤ px - ca.dst_x ∧
          px - ca.dst_x ≤ ca.width - 1) ↔
        (0 ≤ px - x ∧ px - x < width ∧ 0 ≤ py - y ∧ py - y < height ∧
          0 ≤ u + (px - x) ∧ u + (px - x) < (GetImageBank K g image_index).width ∧
          0 ≤ v + (py - y) ∧ v + (py - y) < (GetImageBank K g image_index).height ∧
          g.clip_rect.Includes px py = true)) := by
    intro px py hon
    have h1 := hcol px
    have h2 := hrow py
    unfold OnScreen at hon
    rw [Includes_iff]
    constructor <;> intro h <;> omega
  have hsrc : ∀ px py, (GetImageBank K g image_index).width * (ca.src_y + (py - ca.dst_y)) +
      ca.src_x + (px - ca.dst_x) =
      (GetImageBank K g image_index).width * (v + (py - y)) + (u + (px - x)) := by
    intro px py
    have e1 : ca.src_y + (py - ca.dst_y) = v + (py - y) := by omega
    have e2 : ca.src_x + (px - ca.dst_x) = u + (px - x) := by omega
    rw [e1, add_assoc, e2]
  by_cases hempty : ca.width ≤ 0 ∨ ca.height ≤ 0
  · have hg : DrawImage K g x y image_index u v width height color_key = g := by
      unfold DrawImage
      simp only [hcadef, hempty, if_true]
    rw [hg]
    refine ⟨ScreenOnly.refl g, fun px py hon => ?_⟩
    have : ¬ BlitWrites g (GetImageBank K g image_index) x y u v width height
        (effectiveColorKey K color_key) px py := by
      intro hb
      have := (hmem px py hon).2 ⟨hb.1, hb.2.1, hb.2.2.1, hb.2.2.2.1, hb.2.2.2.2.1,
        hb.2.2.2.2.2.1, hb.2.2.2.2.2.2.1, hb.2.2.2.2.2.2.2.1, hb.2.2.2.2.2.2.2.2.1⟩
      omega
    rw [if_neg this]
  · have hbx : 0 ≤ ca.dst_x + 0 ∧ ca.dst_x + (ca.width - 1) < g.screen_image.width := by
      have h1 := (hcol ca.dst_x).1 (by omega)
      have h2 := (hcol (ca.dst_x + (ca.width - 1))).1 (by omega)
      omega
    have hby : 0 ≤ ca.dst_y + 0 ∧ ca.dst_y + (ca.height - 1) < g.screen_image.height := by
      have h1 := (hrow ca.dst_y).1 (by omega)
      have h2 := (hrow (ca.dst_y + (ca.height - 1))).1 (by omega)
      omega
    have hblock := blockLoop_spec g.screen_image.width g.screen_image.height
      g.screen_image.data hlen 0 (ca.height - 1) 0 (ca.width - 1) ca.dst_x ca.dst_y hbx hby
      (fun i j => ¬ (effectiveColorKey K color_key ≠ -1 ∧
        readAt (GetImageBank K g image_index).data
          ((GetImageBank K g image_index).width * (ca.src_y + i) + ca.src_x + j) =
          effectiveColorKey K color_key))
      (fun i j => readAt g.palette_table (readAt (GetImageBank K g image_index).data
          ((GetImageBank K g image_index).width * (ca.src_y + i) + ca.src_x + j)))
    by_cases hkey : effectiveColorKey K color_key = -1
    · have hb := hblock
        (fun i j dst_data => writeAt dst_data (g.screen_image.width * (ca.dst_y + i) + ca.dst_x + j)
          (readAt g.palette_table (readAt (GetImageBank K g image_index).data
            ((GetImageBank K g image_index).width * (ca.src_y + i) + ca.src_x + j))))
        (fun i j d => by simp [hkey])
      have hg : DrawImage K g x y image_index u v width height color_key = g.withScreenData
          (forLoop 0 (ca.height - 1) (fun i d => forLoop 0 (ca.width - 1)
            (fun j dst_data =>
              writeAt dst_data (g.screen_image.width * (ca.dst_y + i) + ca.dst_x + j)
                (readAt g.palette_table (readAt (GetImageBank K g image_index).data
                  ((GetImageBank K g image_index).width * (ca.src_y + i) + ca.src_x + j)))) d)
            g.screen_image.data) := by
        unfold effectiveColorKey at hkey
        unfold DrawImage
        simp only [hcadef, hempty, if_false, hkey, if_true]
      rw [hg]
      refine ⟨withScreenData_screenOnly _ _ hb.1, fun px py hon => ?_⟩
      rw [pixel_withScreenData, hb.2 px py hon.1 hon.2.1 hon.2.2.1 hon.2.2.2, pixel_eq_readAt]
      unfold BlitWrites Image.pixel
      simp only [hsrc, hkey]
      have hm := hmem px py hon
      congr 1
      apply propext
      constructor
      · rintro ⟨a1, a2, a3, a4, _⟩
        have := hm.1 ⟨a1, a2, a3, a4⟩
        exact ⟨this.1, this.2.1, this.2.2.1, this.2.2.2.1, this.2.2.2.2.1, this.2.2.2.2.2.1,
          this.2.2.2.2.2.2.1, this.2.2.2.2.2.2.2.1, this.2.2.2.2.2.2.2.2, by simp⟩
      · rintro ⟨a1, a2, a3, a4, a5, a6, a7, a8, a9, _⟩
        have := hm.2 ⟨a1, a2, a3, a4, a5, a6, a7, a8, a9⟩
        exact ⟨this.1, this.2.1, this.2.2.1, this.2.2.2, by simp⟩
    · have hb := hblock
        (fun i j dst_data =>
          if readAt (GetImageBank K g image_index).data
              ((GetImageBank K g image_index).width * (ca.src_y + i) + ca.src_x + j) ≠
              effectiveColorKey K color_key then
            writeAt dst_data (g.screen_image.width * (ca.dst_y + i) + ca.dst_x + j)
              (readAt g.palette_table (readAt (GetImageBank K g image_index).data
                ((GetImageBank K g image_index).width * (ca.src_y + i) + ca.src_x + j)))
          else dst_data)
        (fun i j d => by simp [hkey])
      have hg : DrawImage K g x y image_index u v width height color_key = g.withScreenData
          (forLoop 0 (ca.height - 1) (fun i d => forLoop 0 (ca.width - 1)
            (fun j dst_data =>
              if readAt (GetImageBank K g image_index).data
                  ((GetImageBank K g image_index).width * (ca.src_y + i) + ca.src_x + j) ≠
                  effectiveColorKey K color_key then
                writeAt dst_data (g.screen_image.width * (ca.dst_y + i) + ca.dst_x + j)
                  (readAt g.palette_table (readAt (GetImageBank K g image_index).data
                    ((GetImageBank K g image_index).width * (ca.src_y + i) + ca.src_x + j)))
              else dst_data) d)
            g.screen_image.data) := by
        unfold effectiveColorKey at hkey ⊢
        unfold DrawImage
        simp only [hcadef, hempty, if_false, hkey]
      rw [hg]
      refine ⟨withScreenData_screenOnly _ _ hb.1, fun px py hon => ?_⟩
      rw [pixel_withScreenData, hb.2 px py hon.1 hon.2.1 hon.2.2.1 hon.2.2.2, pixel_eq_readAt]
      unfold BlitWrites Image.pixel
      simp only [hsrc]
      have hm := hmem px py hon
      congr 1
      apply propext
      constructor
      · rintro ⟨a1, a2, a3, a4, a5⟩
        have := hm.1 ⟨a1, a2, a3, a4⟩
        exact ⟨this.1, this.2.1, this.2.2.1, this.2.2.2.1, this.2.2.2.2.1, this.2.2.2.2.2.1,
          this.2.2.2.2.2.2.1, this.2.2.2.2.2.2.2.1, this.2.2.2.2.2.2.2.2, a5⟩
      · rintro ⟨a1, a2, a3, a4, a5, a6, a7, a8, a9, a10⟩
        have := hm.2 ⟨a1, a2, a3, a4, a5, a6, a7, a8, a9⟩
        exact ⟨this.1, this.2.1, this.2.2.1, this.2.2.2, a10⟩

theorem effectiveColorKey_valid (K : Constants) (color_key : Int)
    (hk : color_key = -1 ∨ (0 ≤ color_key ∧ color_key < K.COLOR_COUNT)) :
    effectiveColorKey K color_key = color_key := by
  unfold effectiveColorKey
  have : ¬ (color_key ≠ -1 ∧ (color_key < 0 ∨ color_key ≥ K.COLOR_COUNT)) := by omega
  rw [if_neg this]

/-- C1: `DrawImage(x, y, img, u, v, w, h, k)` on a well-formed canvas with `k`
either -1 or in `[0, COLOR_COUNT)`.  For every offset `(i, j)` in the window
whose source pixel `(u+i, v+j)` lies inside the source image and whose
destination `(x+i, y+j)` lies inside the clip rectangle, the screen pixel
`(x+i, y+j)` is left unchanged when `k ≠ -1` and the source pixel equals `k`,
and otherwise becomes `palette_table[source pixel]`; every other screen pixel is
unchanged, and only the screen buffer is touched. -/
theorem DrawImage_spec (K : Constants) (g : Graphics) (hwf : WellFormed g)
    (x y image_index u v width height color_key : Int)
    (hk : color_key = -1 ∨ (0 ≤ color_key ∧ color_key < K.COLOR_COUNT)) :
    ScreenOnly g (DrawImage K g x y image_index u v width height color_key) ∧
      (∀ i j, 0 ≤ i → i < width → 0 ≤ j → j < height →
        0 ≤ u + i → u + i < (GetImageBank K g image_index).width →
        0 ≤ v + j → v + j < (GetImageBank K g image_index).height →
        g.clip_rect.Includes (x + i) (y + j) = true →
        (DrawImage K g x y image_index u v width height color_key).pixel (x + i) (y + j) =
          if color_key ≠ -1 ∧ (GetImageBank K g image_index).pixel (u + i) (v + j) = color_key
          then g.pixel (x + i) (y + j)
          else readAt g.palette_table ((GetImageBank K g image_index).pixel (u + i) (v + j))) ∧
      (∀ px py, OnScreen g px py →
        ¬ (0 ≤ px - x ∧ px - x < width ∧ 0 ≤ py - y ∧ py - y < height ∧
            0 ≤ u + (px - x) ∧ u + (px - x) < (GetImageBank K g image_index).width ∧
            0 ≤ v + (py - y) ∧ v + (py - y) < (GetImageBank K g image_index).height ∧
            g.clip_rect.Includes px py = true) →
        (DrawImage K g x y image_index u v width height color_key).pixel px py =
          g.pixel px py) := by
  have h := DrawImage_pixel K g hwf x y image_index u v width height color_key
  rw [effectiveColorKey_valid K color_key hk] at h
  refine ⟨h.1, fun i j hi0 hi1 hj0 hj1 hu0 hu1 hv0 hv1 hin => ?_, fun px py hon hnot => ?_⟩
  · rw [h.2 (x + i) (y + j) (onScreen_of_includes hwf hin)]
    have ei : x + i - x = i := by omega
    have ej : y + j - y = j := by omega
    unfold BlitWrites
    simp only [ei, ej]
    by_cases hkey : color_key ≠ -1 ∧ (GetImageBank K g image_index).pixel (u + i) (v + j) = color_key
    · rw [if_pos hkey, if_neg (fun hb => hb.2.2.2.2.2.2.2.2.2 hkey)]
    · rw [if_neg hkey, if_pos ⟨hi0, hi1, hj0, hj1, hu0, hu1, hv0, hv1, hin, hkey⟩]
  · rw [h.2 px py hon]
    have : ¬ BlitWrites g (GetImageBank K g image_index) x y u v width height color_key px py :=
      fun hb => hnot ⟨hb.1, hb.2.1, hb.2.2.1, hb.2.2.2.1, hb.2.2.2.2.1, hb.2.2.2.2.2.1,
        hb.2.2.2.2.2.2.1, hb.2.2.2.2.2.2.2.1, hb.2.2.2.2.2.2.2.2.1⟩
    rw [if_neg this]

/-- Witness for C1 and the scenario of the spec: bank 0 holds [[1,2],[3,4]] at
its origin; with the identity palette `DrawImage(0,0,0,0,0,2,2,-1)` on the
cleared sample canvas gives (0,0)=1, (1,0)=2, (0,1)=3, (1,1)=4. -/
theorem DrawImage_spec_witness :
    WellFormed sampleGraphics ∧
      (DrawImage sampleConstants sampleGraphics 0 0 0 0 0 2 2 (-1)).pixel 0 0 = 1 ∧
      (DrawImage sampleConstants sampleGraphics 0 0 0 0 0 2 2 (-1)).pixel 1 0 = 2 ∧
      (DrawImage sampleConstants sampleGraphics 0 0 0 0 0 2 2 (-1)).pixel 0 1 = 3 ∧
      (DrawImage sampleConstants sampleGraphics 0 0 0 0 0 2 2 (-1)).pixel 1 1 = 4 ∧
      (DrawImage sampleConstants sampleGraphics 0 0 0 0 0 2 2 (-1)).pixel 2 1 = 0 :=
  ⟨by decide,
    ((DrawImage_spec sampleConstants sampleGraphics (by decide) 0 0 0 0 0 2 2 (-1)
      (by decide)).2.1 0 0 (by decide) (by decide) (by decide) (by decide) (by decide)
      (by decide) (by decide) (by decide) (by decide)).trans (by decide),
    ((DrawImage_spec sampleConstants sampleGraphics (by decide) 0 0 0 0 0 2 2 (-1)
      (by decide)).2.1 1 0 (by decide) (by decide) (by decide) (by decide) (by decide)
      (by decide) (by decide) (by decide) (by decide)).trans (by decide),
    ((DrawImage_spec sampleConstants sampleGraphics (by decide) 0 0 0 0 0 2 2 (-1)
      (by decide)).2.1 0 1 (by decide) (by decide) (by decide) (by decide) (by decide)
      (by decide) (by decide) (by decide) (by decide)).trans (by decide),
    ((DrawImage_spec sampleConstants sampleGraphics (by decide) 0 0 0 0 0 2 2 (-1)
      (by decide)).2.1 1 1 (by decide) (by decide) (by decide) (by decide) (by decide)
      (by decide) (by decide) (by decide) (by decide)).trans (by decide),
    ((DrawImage_spec sampleConstants sampleGraphics (by decide) 0 0 0 0 0 2 2 (-1)
      (by decide)).2.2 2 1 (by decide) (by decide)).trans (by decide)⟩

/-! ## No write outside the clip rectangle -/

theorem Framed.fr_refl (g : Graphics) : Framed g g :=
  ⟨rfl, rfl, rfl, rfl, fun _ _ _ _ => rfl⟩

theorem Framed.fr_trans {g1 g2 g3 : Graphics} (h12 : Framed g1 g2) (h23 : Framed g2 g3) :
    Framed g1 g3 := by
  obtain ⟨a1, a2, a3, a4, a5⟩ := h12
  obtain ⟨b1, b2, b3, b4, b5⟩ := h23
  refine ⟨b1.trans a1, b2.trans a2, b3.trans a3, b4.trans a4, fun px py hon hout => ?_⟩
  have hon2 : OnScreen g2 px py := by
    unfold OnScreen at hon ⊢
    rw [a1, a2]; exact hon
  rw [b5 px py hon2 (by rw [a4]; exact hout), a5 px py hon hout]

theorem Framed.fr_wellFormed {g g' : Graphics} (h : Framed g g') (hwf : WellFormed g) :
    WellFormed g' := by
  obtain ⟨a1, a2, a3, a4, _⟩ := h
  unfold WellFormed ClipInScreen at *
  rw [a1, a2, a3, a4]
  exact hwf

theorem Framed.of_screenOnly {g g' : Graphics} (h : ScreenOnly g g')
    (hout : SameOutsideClip g g') : Framed g g' :=
  ⟨h.1, h.2.1, h.2.2.1, h.2.2.2.2.2.1, hout⟩

theorem SetPixel_framed {g : Graphics} (hwf : WellFormed g) (x y color : Int) :
    Framed g (SetPixel g x y color) :=
  Framed.of_screenOnly (SetPixel_screenOnly g x y color) (SetPixel_sameOutsideClip hwf x y color)

/-- A loop whose every iteration respects the clip rectangle respects it. -/
theorem forLoop_framed (lo hi : Int) (body : Int → Graphics → Graphics) (g : Graphics)
    (hwf : WellFormed g) (hbody : ∀ i s, WellFormed s → Framed s (body i s)) :
    Framed g (forLoop lo hi body g) :=
  forLoop_invariant (fun s => Framed g s) lo hi body g (Framed.fr_refl g)
    (fun i s _ _ hs => hs.fr_trans (hbody i s (hs.fr_wellFormed hwf)))

theorem DrawLineXMajor_framed {g : Graphics} (hwf : WellFormed g)
    (start_x start_y end_x end_y color : Int) :
    Framed g (DrawLineXMajor g start_x start_y end_x end_y color) :=
  forLoop_framed _ _ _ g hwf (fun _ _ hs => SetPixel_framed hs _ _ _)

theorem DrawLineYMajor_framed {g : Graphics} (hwf : WellFormed g)
    (start_x start_y end_x end_y color : Int) :
    Framed g (DrawLineYMajor g start_x start_y end_x end_y color) :=
  forLoop_framed _ _ _ g hwf (fun _ _ hs => SetPixel_framed hs _ _ _)

theorem DrawLine_framed {g : Graphics} (hwf : WellFormed g) (x1 y1 x2 y2 color : Int) :
    Framed g (DrawLine g x1 y1 x2 y2 color) := by
  unfold DrawLine
  simp only
  split
  · exact SetPixel_framed hwf _ _ _
  · split
    · split
      · exact DrawLineXMajor_framed hwf _ _ _ _ _
      · exact DrawLineXMajor_framed hwf _ _ _ _ _
    · split
      · exact DrawLineYMajor_framed hwf _ _ _ _ _
      · exact DrawLineYMajor_framed hwf _ _ _ _ _

theorem DrawRectangle_framed {g : Graphics} (hwf : WellFormed g) (x1 y1 x2 y2 color : Int) :
    Framed g (DrawRectangle g x1 y1 x2 y2 color) := by
  have h := DrawRectangle_pixel g hwf x1 y1 x2 y2 color
  refine Framed.of_screenOnly h.1 (fun px py hon hout => ?_)
  rw [h.2 px py hon]
  have : ¬ (min x1 x2 ≤ px ∧ px ≤ max x1 x2 ∧ min y1 y2 ≤ py ∧ py ≤ max y1 y2 ∧
      g.clip_rect.Includes px py = true) := by
    rintro ⟨_, _, _, _, h5⟩
    rw [h5] at hout; exact Bool.noConfusion hout
  rw [if_neg this]

theorem DrawRectangleBorder_framed {g : Graphics} (hwf : WellFormed g)
    (x1 y1 x2 y2 color : Int) : Framed g (DrawRectangleBorder g x1 y1 x2 y2 color) := by
  unfold DrawRectangleBorder
  simp only
  split
  · exact Framed.fr_refl g
  · have h1 : Framed g (forLoop (Rectangle.FromPos x1 y1 x2 y2).left
        (Rectangle.FromPos x1 y1 x2 y2).right
        (fun i g' => SetPixel (SetPixel g' i y1 (GetDrawColor g color)) i y2
          (GetDrawColor g color)) g) :=
      forLoop_framed _ _ _ g hwf (fun _ s hs =>
        (SetPixel_framed hs _ _ _).fr_trans
          (SetPixel_framed ((SetPixel_framed hs _ _ _).fr_wellFormed hs) _ _ _))
    exact h1.fr_trans (forLoop_framed _ _ _ _ (h1.fr_wellFormed hwf) (fun _ s hs =>
        (SetPixel_framed hs _ _ _).fr_trans
          (SetPixel_framed ((SetPixel_framed hs _ _ _).fr_wellFormed hs) _ _ _)))

/-- Four clip-checked stores in a row respect the clip rectangle. -/
theorem SetPixel4_framed {g : Graphics} (hwf : WellFormed g)
    (xa ya xb yb xc yc xd yd color : Int) :
    Framed g (SetPixel (SetPixel (SetPixel (SetPixel g xa ya color) xb yb color)
      xc yc color) xd yd color) := by
  have h1 := SetPixel_framed hwf xa ya color
  have h2 := SetPixel_framed (h1.fr_wellFormed hwf) xb yb color
  have h3 := SetPixel_framed ((h1.fr_trans h2).fr_wellFormed hwf) xc yc color
  have h4 := SetPixel_framed (((h1.fr_trans h2).fr_trans h3).fr_wellFormed hwf) xd yd color
  exact ((h1.fr_trans h2).fr_trans h3).fr_trans h4

theorem DrawCircle_framed {g : Graphics} (hwf : WellFormed g) (x y radius color : Int) :
    Framed g (DrawCircle g x y radius color) := by
  unfold DrawCircle
  simp only
  split
  · exact SetPixel_framed hwf _ _ _
  · refine forLoop_framed _ _ _ g hwf (fun dx s hs => ?_)
    split
    · exact Framed.fr_refl s
    · exact forLoop_framed _ _ _ s hs (fun i t ht => SetPixel4_framed ht _ _ _ _ _ _ _ _ _)

theorem DrawCircleBorder_framed {g : Graphics} (hwf : WellFormed g) (x y radius color : Int) :
    Framed g (DrawCircleBorder g x y radius color) := by
  unfold DrawCircleBorder
  simp only
  split
  · exact SetPixel_framed hwf _ _ _
  · refine forLoop_framed _ _ _ g hwf (fun dx s hs => ?_)
    split
    · exact Framed.fr_refl s
    · have h1 := SetPixel4_framed hs (x - dx) (y - sqrtRound (radius * radius - dx * dx))
        (x + dx) (y - sqrtRound (radius * radius - dx * dx))
        (x - dx) (y + sqrtRound (radius * radius - dx * dx))
        (x + dx) (y + sqrtRound (radius * radius - dx * dx)) (GetDrawColor g color)
      exact h1.fr_trans (SetPixel4_framed (h1.fr_wellFormed hs) _ _ _ _ _ _ _ _ _)

theorem DrawImage_framed (K : Constants) {g : Graphics} (hwf : WellFormed g)
    (x y image_index u v width height color_key : Int) :
    Framed g (DrawImage K g x y image_index u v width height color_key) := by
  have h := DrawImage_pixel K g hwf x y image_index u v width height color_key
  refine Framed.of_screenOnly h.1 (fun px py hon hout => ?_)
  rw [h.2 px py hon]
  have : ¬ BlitWrites g (GetImageBank K g image_index) x y u v width height
      (effectiveColorKey K color_key) px py := by
    intro hb
    rw [hb.2.2.2.2.2.2.2.2.1] at hout; exact Bool.noConfusion hout
  rw [if_neg this]

theorem DrawTilemap_framed (K : Constants) {g : Graphics} (hwf : WellFormed g)
    (x y tilemap_index u v width height color_key : Int) :
    Framed g (DrawTilemap K g x y tilemap_index u v width height color_key) := by
  unfold DrawTilemap
  simp only
  exact forLoop_framed _ _ _ g hwf (fun i s hs =>
    forLoop_framed _ _ _ s hs (fun j t ht => DrawImage_framed K ht _ _ _ _ _ _ _ _))

theorem DrawTextLoop_framed (K : Constants) (left : Int) (text : List Int) (x y : Int)
    {g : Graphics} (hwf : WellFormed g) : Framed g (DrawTextLoop K left text x y g) := by
  induction text generalizing x y g with
  | nil => exact Framed.fr_refl g
  | cons ch rest ih =>
    unfold DrawTextLoop
    split
    · exact ih _ _ hwf
    · split
      · exact ih _ _ hwf
      · split
        · exact ih _ _ hwf
        · have h1 := DrawImage_framed K hwf x y K.IMAGE_BANK_FOR_SYSTEM
            (K.FONT_X + Int.tmod (ch - K.MIN_FONT_CODE) K.FONT_ROW_COUNT * K.FONT_WIDTH)
            (K.FONT_Y + Int.tdiv (ch - K.MIN_FONT_CODE) K.FONT_ROW_COUNT * K.FONT_HEIGHT)
            K.FONT_WIDTH K.FONT_HEIGHT 0
          exact h1.fr_trans (ih _ _ (h1.fr_wellFormed hwf))

theorem DrawText_framed (K : Constants) {g : Graphics} (hwf : WellFormed g) (x y : Int)
    (text : List Int) (color : Int) : Framed g (DrawText K g x y text color) := by
  unfold DrawText
  simp only
  have h0 : Framed g ⟨g.screen_image, g.image_bank, g.tilemap_bank, g.clip_rect,
      writeAt g.palette_table K.FONT_COLOR (GetDrawColor g color)⟩ :=
    ⟨rfl, rfl, rfl, rfl, fun _ _ _ _ => rfl⟩
  have h1 := DrawTextLoop_framed K x text x y (h0.fr_wellFormed hwf)
  have h2 := h0.fr_trans h1
  exact ⟨h2.1, h2.2.1, h2.2.2.1, h2.2.2.2.1, h2.2.2.2.2⟩

/-- `Clear` on a well-formed canvas sets every screen pixel to the resolved
color, whatever the clip rectangle is. -/
theorem Clear_pixel (g : Graphics) (hwf : WellFormed g) (color px py : Int)
    (hon : OnScreen g px py) : (Clear g color).pixel px py = readAt g.palette_table color := by
  obtain ⟨hW, hH, hlen, _⟩ := hwf
  have h := rowLoop_spec (fun i data => writeAt data i (GetDrawColor g color)) 0 0
    (g.screen_image.width * g.screen_image.height - 1) (fun _ => True)
    (fun _ => GetDrawColor g color) (fun j d => by simp) g.screen_image.data
    (fun j hj1 hj2 => by omega)
  have hb := index_bounds g.screen_image.width g.screen_image.height px py hon.1 hon.2.1
    hon.2.2.1 hon.2.2.2
  show readAt (forLoop 0 (g.screen_image.width * g.screen_image.height - 1)
    (fun i data => writeAt data i (GetDrawColor g color)) g.screen_image.data)
    (g.screen_image.width * py + px) = _
  rw [h.2]
  have : 0 ≤ g.screen_image.width * py + px - 0 ∧
      g.screen_image.width * py + px - 0 ≤ g.screen_image.width * g.screen_image.height - 1 ∧
      True := ⟨by omega, by omega, trivial⟩
  rw [if_pos this]
  rfl

/-- C4 as stated fails for `Clear`: on the 10x10 sample canvas with the clip
rectangle set to (0,0,4,4), `Clear(3)` changes the pixel (5,5), which is on the
screen and outside the clip rectangle, from 0 to 3. -/
theorem Clear_writes_outside_clip :
    WellFormed (SetClippingArea sampleGraphics 0 0 4 4) ∧
      OnScreen (SetClippingArea sampleGraphics 0 0 4 4) 5 5 ∧
      (SetClippingArea sampleGraphics 0 0 4 4).clip_rect.Includes 5 5 = false ∧
      (SetClippingArea sampleGraphics 0 0 4 4).pixel 5 5 = 0 ∧
      (Clear (SetClippingArea sampleGraphics 0 0 4 4) 3).pixel 5 5 = 3 :=
  ⟨by decide, by decide, by decide, by decide,
    (Clear_pixel (SetClippingArea sampleGraphics 0 0 4 4) (by decide) 3 5 5 (by decide)).trans
      (by decide)⟩

/-- C4 (amended): on a well-formed canvas every draw call other than `Clear`
(`DrawPoint`, `DrawLine`, `DrawRectangle`, `DrawRectangleBorder`, `DrawCircle`,
`DrawCircleBorder`, `DrawImage`, `DrawTilemap`, `DrawText`) leaves every screen
pixel outside the clip rectangle with the value it had before the call, while
`Clear` sets every screen pixel to the resolved color regardless of the clip
rectangle. -/
theorem draw_calls_respect_clip (K : Constants) (g : Graphics) (hwf : WellFormed g) :
    (∀ x y color, SameOutsideClip g (DrawPoint g x y color)) ∧
      (∀ x1 y1 x2 y2 color, SameOutsideClip g (DrawLine g x1 y1 x2 y2 color)) ∧
      (∀ x1 y1 x2 y2 color, SameOutsideClip g (DrawRectangle g x1 y1 x2 y2 color)) ∧
      (∀ x1 y1 x2 y2 color, SameOutsideClip g (DrawRectangleBorder g x1 y1 x2 y2 color)) ∧
      (∀ x y radius color, SameOutsideClip g (DrawCircle g x y radius color)) ∧
      (∀ x y radius color, SameOutsideClip g (DrawCircleBorder g x y radius color)) ∧
      (∀ x y image_index u v width height color_key,
        SameOutsideClip g (DrawImage K g x y image_index u v width height color_key)) ∧
      (∀ x y tilemap_index u v width height color_key,
        SameOutsideClip g (DrawTilemap K g x y tilemap_index u v width height color_key)) ∧
      (∀ x y text color, SameOutsideClip g (DrawText K g x y text color)) ∧
      (∀ color px py, OnScreen g px py →
        (Clear g color).pixel px py = readAt g.palette_table color) := by
  refine ⟨fun x y color => ?_, fun x1 y1 x2 y2 color => ?_, fun x1 y1 x2 y2 color => ?_,
    fun x1 y1 x2 y2 color => ?_, fun x y radius color => ?_, fun x y radius color => ?_,
    fun x y image_index u v width height color_key => ?_,
    fun x y tilemap_index u v width height color_key => ?_, fun x y text color => ?_,
    fun color px py hon => Clear_pixel g hwf color px py hon⟩
  · exact SetPixel_sameOutsideClip hwf x y _
  · exact (DrawLine_framed hwf x1 y1 x2 y2 color).2.2.2.2
  · exact (DrawRectangle_framed hwf x1 y1 x2 y2 color).2.2.2.2
  · exact (DrawRectangleBorder_framed hwf x1 y1 x2 y2 color).2.2.2.2
  · exact (DrawCircle_framed hwf x y radius color).2.2.2.2
  · exact (DrawCircleBorder_framed hwf x y radius color).2.2.2.2
  · exact (DrawImage_framed K hwf x y image_index u v width height color_key).2.2.2.2
  · exact (DrawTilemap_framed K hwf x y tilemap_index u v width height color_key).2.2.2.2
  · exact (DrawText_framed K hwf x y text color).2.2.2.2

/-- Witness for C4 (amended): with the clip rectangle (0,0,4,4) on the sample
canvas, a diagonal line across the screen and a filled circle leave the pixel
(5,5) untouched. -/
theorem draw_calls_respect_clip_witness :
    WellFormed (SetClippingArea sampleGraphics 0 0 4 4) ∧
      (DrawLine (SetClippingArea sampleGraphics 0 0 4 4) 0 0 9 9 3).pixel 5 5 = 0 ∧
      (DrawCircle (SetClippingArea sampleGraphics 0 0 4 4) 5 5 3 3).pixel 5 5 = 0 :=
  ⟨by decide,
    ((draw_calls_respect_clip sampleConstants (SetClippingArea sampleGraphics 0 0 4 4)
      (by decide)).2.1 0 0 9 9 3 5 5 (by decide) (by decide)).trans (by decide),
    ((draw_calls_respect_clip sampleConstants (SetClippingArea sampleGraphics 0 0 4 4)
      (by decide)).2.2.2.2.1 5 5 3 3 5 5 (by decide) (by decide)).trans (by decide)⟩

/-! ## Binary32 rounding -/

/-- With enough fuel `bitLength` is the number of binary digits:
`2^(bitLength n - 1) ≤ n < 2^(bitLength n)` for `n > 0`. -/
theorem bitLength_bounds (fuel n : Nat) (hn : 0 < n) (hf : n ≤ fuel) :
    0 < bitLength fuel n ∧ 2 ^ (bitLength fuel n - 1) ≤ n ∧ n < 2 ^ bitLength fuel n := by
  induction fuel generalizing n with
  | zero => omega
  | succ fuel ih =>
    unfold bitLength
    rw [if_neg (by omega)]
    by_cases h2 : n / 2 = 0
    · have h1 : n = 1 := by omega
      subst h1
      cases fuel with
      | zero => simp [bitLength]
      | succ f => simp [bitLength]
    · obtain ⟨a, b, c⟩ := ih (n / 2) (by omega) (by omega)
      refine ⟨by omega, ?_, ?_⟩
      · have e : bitLength fuel (n / 2) + 1 - 1 = (bitLength fuel (n / 2) - 1) + 1 := by omega
        rw [e, pow_succ]
        omega
      · rw [pow_succ]
        omega

theorem two_zpow_exponent_le (n d A B : Nat) (hA : 0 < A) (hn : 2 ^ (A - 1) ≤ n)
    (hd : d < 2 ^ B) :
    (2 : ℚ) ^ (if d * 2 ^ A ≤ n * 2 ^ B then (A : Int) - (B : Int) else (A : Int) - (B : Int) - 1)
      * (d : ℚ) ≤ (n : ℚ) := by
  have hB : (0 : ℚ) < (2 : ℚ) ^ B := by positivity
  split
  · rename_i h
    rw [zpow_sub₀ (by norm_num), zpow_natCast, zpow_natCast, div_mul_eq_mul_div, div_le_iff₀ hB]
    have : ((d * 2 ^ A : Nat) : ℚ) ≤ ((n * 2 ^ B : Nat) : ℚ) := by exact_mod_cast h
    push_cast at this
    linarith
  · have e : (A : Int) - (B : Int) - 1 = ((A - 1 : Nat) : Int) - (B : Int) := by omega
    rw [e, zpow_sub₀ (by norm_num), zpow_natCast, zpow_natCast, div_mul_eq_mul_div,
      div_le_iff₀ hB]
    have h1 : ((2 ^ (A - 1) : Nat) : ℚ) ≤ (n : ℚ) := by exact_mod_cast hn
    have h2 : (d : ℚ) ≤ ((2 ^ B : Nat) : ℚ) := by exact_mod_cast hd.le
    push_cast at h1 h2
    have h3 : (0 : ℚ) ≤ (d : ℚ) := by positivity
    have h4 : (0 : ℚ) ≤ (n : ℚ) := by positivity
    calc (2 : ℚ) ^ (A - 1) * (d : ℚ) ≤ (n : ℚ) * (d : ℚ) := by gcongr
      _ ≤ (n : ℚ) * (2 : ℚ) ^ B := by gcongr

theorem abs_eq_natAbs_div_den (q : ℚ) : |q| = (q.num.natAbs : ℚ) / (q.den : ℚ) := by
  conv_lhs => rw [← Rat.num_div_den q]
  rw [abs_div, Nat.abs_cast, Nat.cast_natAbs, Int.cast_abs]

/-- The binary exponent is a lower bound: `2^(floorLog2 q) ≤ |q|` for `q ≠ 0`. -/
theorem two_zpow_floorLog2_le (q : ℚ) (hq : q ≠ 0) : (2 : ℚ) ^ floorLog2 q ≤ |q| := by
  have hn : 0 < q.num.natAbs := Int.natAbs_pos.mpr (Rat.num_ne_zero.mpr hq)
  have hd : 0 < q.den := q.den_pos
  obtain ⟨a1, a2, _⟩ := bitLength_bounds q.num.natAbs q.num.natAbs hn le_rfl
  obtain ⟨_, _, b3⟩ := bitLength_bounds q.den q.den hd le_rfl
  have hdq : (0 : ℚ) < (q.den : ℚ) := by exact_mod_cast hd
  rw [abs_eq_natAbs_div_den, le_div_iff₀ hdq]
  exact two_zpow_exponent_le _ _ _ _ a1 a2 b3

theorem roundHalfEven_intCast (z : Int) : roundHalfEven (z : ℚ) = z := by
  unfold roundHalfEven
  simp

/-- A value that is a whole number of units in the last place is not changed by
the rounding. -/
theorem roundF32_of_multiple (q : ℚ) (z : Int)
    (h : q = (z : ℚ) * (2 : ℚ) ^ (max (floorLog2 q) (-126) - 23)) : roundF32 q = q := by
  have hpos : (0 : ℚ) < (2 : ℚ) ^ (max (floorLog2 q) (-126) - 23) := by positivity
  have hz : q / (2 : ℚ) ^ (max (floorLog2 q) (-126) - 23) = (z : ℚ) := by
    rw [div_eq_iff hpos.ne']
    exact h
  unfold roundF32
  rw [hz, roundHalfEven_intCast]
  exact h.symm

/-- Every `m * 2^k` with `|m| < 2^24` and `k ≥ -149` is a binary32 value: the
rounding leaves it as it is. -/
theorem roundF32_exact (m k : Int) (hm : |m| < 2 ^ 24) (hk : -149 ≤ k) :
    roundF32 ((m : ℚ) * (2 : ℚ) ^ k) = (m : ℚ) * (2 : ℚ) ^ k := by
  by_cases hm0 : m = 0
  · subst hm0
    apply roundF32_of_multiple _ 0
    simp
  · have hq : (m : ℚ) * (2 : ℚ) ^ k ≠ 0 := by
      apply mul_ne_zero
      · exact_mod_cast hm0
      · positivity
    have hlog := two_zpow_floorLog2_le _ hq
    have habs : |(m : ℚ) * (2 : ℚ) ^ k| < (2 : ℚ) ^ (24 + k) := by
      rw [abs_mul, abs_of_pos (by positivity : (0 : ℚ) < (2 : ℚ) ^ k), zpow_add₀ (by norm_num)]
      have : |(m : ℚ)| < (2 : ℚ) ^ (24 : Int) := by
        have : ((|m| : Int) : ℚ) < ((2 ^ 24 : Int) : ℚ) := by exact_mod_cast hm
        rw [Int.cast_abs] at this
        norm_num at this ⊢
        exact this
      exact mul_lt_mul_of_pos_right this (by positivity)
    have hlt : (2 : ℚ) ^ floorLog2 ((m : ℚ) * (2 : ℚ) ^ k) < (2 : ℚ) ^ (24 + k) :=
      lt_of_le_of_lt hlog habs
    have he : floorLog2 ((m : ℚ) * (2 : ℚ) ^ k) < 24 + k :=
      (zpow_lt_zpow_iff_right₀ (by norm_num : (1 : ℚ) < 2)).mp hlt
    obtain ⟨t, ht⟩ : ∃ t : Nat,
        k = (max (floorLog2 ((m : ℚ) * (2 : ℚ) ^ k)) (-126) - 23) + (t : Int) :=
      ⟨(k - (max (floorLog2 ((m : ℚ) * (2 : ℚ) ^ k)) (-126) - 23)).toNat, by omega⟩
    apply roundF32_of_multiple _ (m * 2 ^ t)
    generalize max (floorLog2 ((m : ℚ) * (2 : ℚ) ^ k)) (-126) - 23 = u at ht
    rw [ht, zpow_add₀ (by norm_num), zpow_natCast]
    push_cast
    ring

theorem f32OfInt_exact (n : Int) (h : |n| < 2 ^ 24) : f32OfInt n = (n : ℚ) := by
  have := roundF32_exact n 0 h (by norm_num)
  simpa [f32OfInt] using this

theorem roundF32_intCast (n : Int) (h : |n| < 2 ^ 24) : roundF32 (n : ℚ) = (n : ℚ) :=
  f32OfInt_exact n h

theorem roundF32_add_half (n : Int) (h : |n| < 2 ^ 22) :
    roundF32 ((n : ℚ) + 1 / 2) = (n : ℚ) + 1 / 2 := by
  have hm : |2 * n + 1| < 2 ^ 24 := by
    rw [abs_lt] at h ⊢
    constructor <;> omega
  have := roundF32_exact (2 * n + 1) (-1) hm (by norm_num)
  have e : ((2 * n + 1 : Int) : ℚ) * (2 : ℚ) ^ (-1 : Int) = (n : ℚ) + 1 / 2 := by
    push_cast
    rw [zpow_neg_one]
    ring
  rw [e] at this
  exact this

theorem roundF32_zero : roundF32 0 = 0 := by
  have := roundF32_intCast 0 (by norm_num)
  simpa using this

/-! ## `DrawLine` -/

theorem tdiv_mul_left_pos (c n d : Int) (hc : 0 < c) :
    Int.tdiv (c * n) (c * d) = Int.tdiv n d := by
  have key : ∀ n d : Int, 0 ≤ n → 0 ≤ d → Int.tdiv (c * n) (c * d) = Int.tdiv n d := by
    intro n d hn hd
    rw [Int.tdiv_eq_ediv (mul_nonneg hc.le hn) (mul_nonneg hc.le hd), Int.tdiv_eq_ediv hn hd]
    exact Int.mul_ediv_mul_of_pos _ _ hc
  rcases le_total 0 n with hn | hn <;> rcases le_total 0 d with hd | hd
  · exact key n d hn hd
  · have := key n (-d) hn (by omega)
    rw [mul_neg, Int.tdiv_neg, Int.tdiv_neg] at this
    omega
  · have := key (-n) d (by omega) hd
    rw [mul_neg, Int.neg_tdiv, Int.neg_tdiv] at this
    omega
  · have := key (-n) (-d) (by omega) (by omega)
    rw [mul_neg, mul_neg, Int.neg_tdiv_neg, Int.neg_tdiv_neg] at this
    exact this

theorem tdiv_mul_left (c n d : Int) (hc : c ≠ 0) :
    Int.tdiv (c * n) (c * d) = Int.tdiv n d := by
  rcases lt_or_gt_of_ne hc with h | h
  · have := tdiv_mul_left_pos (-c) n d (by omega)
    rw [neg_mul, neg_mul, Int.neg_tdiv_neg] at this
    exact this
  · exact tdiv_mul_left_pos c n d h

/-- Truncating a quotient of two integers is the truncating integer division. -/
theorem truncToInt_div (a b : Int) : truncToInt ((a : ℚ) / (b : ℚ)) = Int.tdiv a b := by
  unfold truncToInt
  by_cases hb : b = 0
  · subst hb; simp
  · obtain ⟨c, h1, h2⟩ := Rat.exists_eq_mul_div_num_and_eq_mul_div_den a hb
    generalize ((a : ℚ) / (b : ℚ)).num = n at h1 ⊢
    generalize ((a : ℚ) / (b : ℚ)).den = d at h2 ⊢
    have hc : c ≠ 0 := by
      rintro rfl
      rw [zero_mul] at h2
      exact hb h2
    rw [h1, h2, tdiv_mul_left c _ _ hc]

/-- The minor coordinate `start + 0.5f` of a line of slope 0, converted to
`int32_t`: the row itself if it is non-negative, the next row if it is
negative (truncation goes toward zero). -/
theorem truncToInt_add_half (y : Int) :
    truncToInt ((y : ℚ) + 1 / 2) = if 0 ≤ y then y else y + 1 := by
  have e : (y : ℚ) + 1 / 2 = ((2 * y + 1 : Int) : ℚ) / ((2 : Int) : ℚ) := by
    push_cast; ring
  rw [e, truncToInt_div]
  split
  · rw [Int.tdiv_eq_ediv (by omega) (by omega)]; omega
  · have h : 2 * y + 1 = -(-(2 * y + 1)) := by omega
    rw [h, Int.neg_tdiv, Int.tdiv_eq_ediv (by omega) (by omega)]; omega

/-- C5: `DrawLine` does not depend on the order of its endpoints: for all
integers `x1, y1, x2, y2`, every color and every canvas state,
`DrawLine(x1,y1,x2,y2,c)` and `DrawLine(x2,y2,x1,y1,c)` give the same canvas
(so the same screen buffer and the same written pixels). -/
theorem DrawLine_endpoint_order (g : Graphics) (x1 y1 x2 y2 color : Int) :
    DrawLine g x1 y1 x2 y2 color = DrawLine g x2 y2 x1 y1 color := by
  unfold DrawLine
  simp only
  by_cases heq : x1 = x2 ∧ y1 = y2
  · obtain ⟨rfl, rfl⟩ := heq
    rfl
  · have heq' : ¬ (x2 = x1 ∧ y2 = y1) := fun h => heq ⟨h.1.symm, h.2.symm⟩
    rw [if_neg heq, if_neg heq', abs_sub_comm x2 x1, abs_sub_comm y2 y1]
    by_cases hmajor : |x1 - x2| > |y1 - y2|
    · rw [if_pos hmajor, if_pos hmajor]
      have hne : x1 ≠ x2 := by
        rintro rfl
        rw [sub_self, abs_zero] at hmajor
        exact absurd hmajor (not_lt.mpr (abs_nonneg _))
      rcases lt_or_gt_of_ne hne with h | h
      · rw [if_pos h, if_neg (by omega)]
      · rw [if_neg (by omega), if_pos h]
    · rw [if_neg hmajor, if_neg hmajor]
      have hne : y1 ≠ y2 := by
        rintro rfl
        rw [sub_self, abs_zero] at hmajor
        have : |x1 - x2| = 0 := le_antisymm (not_lt.mp hmajor) (abs_nonneg _)
        rw [abs_eq_zero] at this
        exact heq ⟨by omega, rfl⟩
      rcases lt_or_gt_of_ne hne with h | h
      · rw [if_pos h, if_neg (by omega)]
      · rw [if_neg (by omega), if_pos h]

/-- A run of clip-checked stores along the row `r`, columns `sx + i` for `i` in
`[lo, hi]`, on a well-formed canvas. -/
theorem rowSetPixel_pixel (g : Graphics) (hwf : WellFormed g) (lo hi sx r color : Int) :
    ScreenOnly g (forLoop lo hi (fun i s => SetPixel s (sx + i) r color) g) ∧
      ∀ px py, OnScreen g px py →
        (forLoop lo hi (fun i s => SetPixel s (sx + i) r color) g).pixel px py =
          if lo ≤ px - sx ∧ px - sx ≤ hi ∧ py = r ∧ g.clip_rect.Includes px py = true
          then color else g.pixel px py := by
  by_cases hle : lo ≤ hi + 1
  · have key := forLoop_induction
      (fun i s => ScreenOnly g s ∧ ∀ px py, OnScreen g px py →
        s.pixel px py =
          if lo ≤ px - sx ∧ px - sx < i ∧ py = r ∧ g.clip_rect.Includes px py = true
          then color else g.pixel px py)
      lo hi (fun i s => SetPixel s (sx + i) r color) g hle
      ⟨ScreenOnly.refl g, fun px py _ => by
        have : ¬ (lo ≤ px - sx ∧ px - sx < lo ∧ py = r ∧ g.clip_rect.Includes px py = true) := by
          rintro ⟨h1, h2, _⟩; omega
        rw [if_neg this]⟩
      (by
        intro i s hlo hhi ⟨hso, hpix⟩
        have hwfs := hso.wellFormed hwf
        refine ⟨hso.trans (SetPixel_screenOnly s _ _ _), fun px py hon => ?_⟩
        rw [pixel_SetPixel hwfs _ _ _ _ _ ((hso.onScreen px py).2 hon), hpix px py hon,
          hso.2.2.2.2.2.1]
        by_cases hp : px = sx + i ∧ py = r
        · obtain ⟨rfl, rfl⟩ := hp
          by_cases hinc : g.clip_rect.Includes (sx + i) py = true
          · rw [if_pos ⟨hinc, rfl, rfl⟩, if_pos ⟨by omega, by omega, rfl, hinc⟩]
          · rw [if_neg (fun h => hinc h.1), if_neg (fun h => hinc h.2.2.2),
              if_neg (fun h => hinc h.2.2.2)]
        · rw [if_neg (fun h => hp h.2)]
          by_cases hpy : py = r
          · have hpx : px ≠ sx + i := fun h => hp ⟨h, hpy⟩
            have e : (px - sx < i + 1) ↔ (px - sx < i) := by omega
            simp only [e]
          · rw [if_neg (fun h => hpy h.2.2.1), if_neg (fun h => hpy h.2.2.1)])
    refine ⟨key.1, fun px py hon => ?_⟩
    rw [key.2 px py hon]
    have e : (px - sx < hi + 1) ↔ (px - sx ≤ hi) := by omega
    simp only [e]
  · rw [forLoop_of_lt _ _ _ _ (by omega)]
    refine ⟨ScreenOnly.refl g, fun px py _ => ?_⟩
    have : ¬ (lo ≤ px - sx ∧ px - sx ≤ hi ∧ py = r ∧ g.clip_rect.Includes px py = true) := by
      rintro ⟨h1, h2, _⟩; omega
    rw [if_neg this]

/-- The x-major loop of `DrawLine` on a horizontal segment of a row `y` with
`|y| < 2^22`: the slope is 0 and every `float` operation is exact, so every
position is stored on the row `trunc(y + 0.5)`, which is `y` for `y ≥ 0` and
`y + 1` for `y < 0`. -/
theorem DrawLineXMajor_horizontal (g : Graphics) (start_x end_x y color : Int)
    (hy : |y| < 2 ^ 22) :
    DrawLineXMajor g start_x y end_x y color =
      forLoop 0 (end_x - start_x)
        (fun i s => SetPixel s (start_x + i) (if 0 ≤ y then y else y + 1) color) g := by
  unfold DrawLineXMajor
  have e : end_x - start_x + 1 - 1 = end_x - start_x := by omega
  have hy24 : |y| < 2 ^ 24 := lt_trans hy (by norm_num)
  have hrow : ∀ i : Int,
      truncToInt (f32Add (f32Add (f32OfInt y)
        (f32Mul (f32Div (f32OfInt (y - y)) (f32OfInt (end_x - start_x))) (f32OfInt i))) (1 / 2)) =
        if 0 ≤ y then y else y + 1 := by
    intro i
    have h0 : f32OfInt (y - y) = 0 := by
      rw [sub_self, f32OfInt_exact 0 (by norm_num)]; simp
    have h1 : f32Div (f32OfInt (y - y)) (f32OfInt (end_x - start_x)) = 0 := by
      rw [h0]; unfold f32Div; rw [zero_div, roundF32_zero]
    have h2 : f32Mul (f32Div (f32OfInt (y - y)) (f32OfInt (end_x - start_x))) (f32OfInt i) = 0 := by
      rw [h1]; unfold f32Mul; rw [zero_mul, roundF32_zero]
    rw [h2, f32OfInt_exact y hy24]
    unfold f32Add
    rw [add_zero, roundF32_intCast y hy24, roundF32_add_half y hy, truncToInt_add_half]
  simp only [e, hrow]

/-- What `DrawLine` does on a horizontal segment `x1 ≠ x2` of a row `y` with
`|y| < 2^22`: it paints the clipped pixels of the columns between the endpoints
on the row `trunc(y + 0.5)`; for `y < 0` this is the row `y + 1`, not `y`. -/
theorem DrawLine_horizontal_pixel (g : Graphics) (hwf : WellFormed g) (x1 x2 y color : Int)
    (hne : x1 ≠ x2) (hy : |y| < 2 ^ 22) (px py : Int) (hon : OnScreen g px py) :
    (DrawLine g x1 y x2 y color).pixel px py =
      if min x1 x2 ≤ px ∧ px ≤ max x1 x2 ∧ py = (if 0 ≤ y then y else y + 1) ∧
          g.clip_rect.Includes px py = true
      then readAt g.palette_table color else g.pixel px py := by
  have hmajor : |x1 - x2| > |y - y| := by
    rw [sub_self, abs_zero]
    exact abs_pos.mpr (sub_ne_zero.mpr hne)
  unfold DrawLine
  simp only
  rw [if_neg (fun h => hne h.1), if_pos hmajor]
  rcases lt_or_gt_of_ne hne with h | h
  · rw [if_pos h, DrawLineXMajor_horizontal _ _ _ _ _ hy,
      (rowSetPixel_pixel g hwf 0 (x2 - x1) x1 _ _).2 px py hon]
    have e1 : min x1 x2 = x1 := min_eq_left h.le
    have e2 : max x1 x2 = x2 := max_eq_right h.le
    rw [e1, e2]
    have e : (0 ≤ px - x1 ∧ px - x1 ≤ x2 - x1) ↔ (x1 ≤ px ∧ px ≤ x2) := by
      constructor <;> intro h <;> omega
    simp only [← and_assoc, e]
    rfl
  · rw [if_neg (by omega), DrawLineXMajor_horizontal _ _ _ _ _ hy,
      (rowSetPixel_pixel g hwf 0 (x1 - x2) x2 _ _).2 px py hon]
    have e1 : min x1 x2 = x2 := min_eq_right h.le
    have e2 : max x1 x2 = x1 := max_eq_left h.le
    rw [e1, e2]
    have e : (0 ≤ px - x2 ∧ px - x2 ≤ x1 - x2) ↔ (x2 ≤ px ∧ px ≤ x1) := by
      constructor <;> intro h <;> omega
    simp only [← and_assoc, e]
    rfl

/-- C6 fails on the code at row -1: `DrawLine(0,-1,4,-1,3)` on the cleared
10x10 sample canvas lies entirely off the screen, yet it changes the pixels
(0,0)..(4,0) of row 0 from 0 to 3, because the row is computed as
`trunc(-1 + 0.5) = 0`. -/
theorem DrawLine_row_minus_one_paints_row_zero :
    WellFormed sampleGraphics ∧ sampleGraphics.pixel 0 0 = 0 ∧ sampleGraphics.pixel 4 0 = 0 ∧
      (DrawLine sampleGraphics 0 (-1) 4 (-1) 3).pixel 0 0 = 3 ∧
      (DrawLine sampleGraphics 0 (-1) 4 (-1) 3).pixel 4 0 = 3 ∧
      (DrawLine sampleGraphics 0 (-1) 4 (-1) 3).pixel 5 0 = 0 :=
  ⟨by decide, by decide, by decide,
    (DrawLine_horizontal_pixel sampleGraphics (by decide) 0 4 (-1) 3 (by decide) (by decide) 0 0
      (by decide)).trans (by decide),
    (DrawLine_horizontal_pixel sampleGraphics (by decide) 0 4 (-1) 3 (by decide) (by decide) 4 0
      (by decide)).trans (by decide),
    (DrawLine_horizontal_pixel sampleGraphics (by decide) 0 4 (-1) 3 (by decide) (by decide) 5 0
      (by decide)).trans (by decide)⟩

/-- The scenario of the spec, where the row is non-negative:
`DrawLine(0,0,4,0,3)` on the cleared sample canvas sets (0,0)..(4,0) to 3 and
leaves the next pixels untouched. -/
theorem DrawLine_row_zero_scenario :
    (DrawLine sampleGraphics 0 0 4 0 3).pixel 0 0 = 3 ∧
      (DrawLine sampleGraphics 0 0 4 0 3).pixel 4 0 = 3 ∧
      (DrawLine sampleGraphics 0 0 4 0 3).pixel 5 0 = 0 ∧
      (DrawLine sampleGraphics 0 0 4 0 3).pixel 0 1 = 0 :=
  ⟨(DrawLine_horizontal_pixel sampleGraphics (by decide) 0 4 0 3 (by decide) (by decide) 0 0
      (by decide)).trans (by decide),
    (DrawLine_horizontal_pixel sampleGraphics (by decide) 0 4 0 3 (by decide) (by decide) 4 0
      (by decide)).trans (by decide),
    (DrawLine_horizontal_pixel sampleGraphics (by decide) 0 4 0 3 (by decide) (by decide) 5 0
      (by decide)).trans (by decide),
    (DrawLine_horizontal_pixel sampleGraphics (by decide) 0 4 0 3 (by decide) (by decide) 0 1
      (by decide)).trans (by decide)⟩

/-! ## `DrawText` -/

/-- Storing a value and then storing back the old one restores the buffer. -/
theorem writeAt_restore (data : List Int) (idx v : Int) :
    writeAt (writeAt data idx v) idx (readAt data idx) = data := by
  unfold writeAt readAt
  by_cases hi : 0 ≤ idx
  · simp only [hi, if_true]
    apply List.ext_getElem?
    intro n
    rw [List.set_set, List.getElem?_set]
    by_cases hn : idx.toNat = n
    · subst hn
      by_cases hlt : idx.toNat < data.length
      · simp [hlt, List.getD_eq_getElem?_getD, List.getElem?_eq_getElem hlt]
      · simp [hlt, List.getElem?_eq_none (not_lt.mp hlt)]
    · simp [hn]
  · simp [hi]

theorem DrawImage_palette_table (K : Constants) (g : Graphics)
    (x y image_index u v width height color_key : Int) :
    (DrawImage K g x y image_index u v width height color_key).palette_table =
      g.palette_table := by
  unfold DrawImage
  simp only
  repeat' split
  all_goals rfl

theorem DrawTextLoop_palette_table (K : Constants) (left : Int) (text : List Int) (x y : Int)
    (g : Graphics) : (DrawTextLoop K left text x y g).palette_table = g.palette_table := by
  induction text generalizing x y g with
  | nil => rfl
  | cons ch rest ih =>
    unfold DrawTextLoop
    split
    · exact ih _ _ _
    · split
      · exact ih _ _ _
      · split
        · exact ih _ _ _
        · simp only
          rw [ih, DrawImage_palette_table]

/-- C9: `DrawText` leaves the palette untouched: for every text, every position
and every color, the whole palette table after `DrawText(x, y, text, c)` equals
the palette table before the call, the reserved `FONT_COLOR` slot included. -/
theorem DrawText_palette_table (K : Constants) (g : Graphics) (x y : Int) (text : List Int)
    (color : Int) :
    (DrawText K g x y text color).palette_table = g.palette_table ∧
      readAt (DrawText K g x y text color).palette_table K.FONT_COLOR =
        readAt g.palette_table K.FONT_COLOR := by
  have h : (DrawText K g x y text color).palette_table = g.palette_table := by
    unfold DrawText
    simp only
    rw [DrawTextLoop_palette_table]
    exact writeAt_restore _ _ _
  exact ⟨h, by rw [h]⟩

/-! ## `SetupFont` -/

/-- Loop induction without a bound on the range: after the loop all indices
below `max lo (hi + 1)` are done. -/
theorem forLoop_induction_max {σ : Type} (P : Int → σ → Prop) (lo hi : Int)
    (body : Int → σ → σ) (s : σ) (h0 : P lo s)
    (hstep : ∀ i s, lo ≤ i → i ≤ hi → P i s → P (i + 1) (body i s)) :
    P (max lo (hi + 1)) (forLoop lo hi body s) := by
  by_cases hle : lo ≤ hi + 1
  · rw [max_eq_right hle]
    exact forLoop_induction P lo hi body s hle h0 hstep
  · rw [max_eq_left (by omega), forLoop_of_lt _ _ _ _ (by omega)]
    exact h0

theorem FontValued.mono {K : Constants} {len : Nat} {S S' : Int → Prop} {data : List Int}
    (h : FontValued K len S data) (hS : ∀ idx, S' idx → S idx) : FontValued K len S' data :=
  ⟨h.1, fun idx hs h0 h1 => h.2 idx (hS idx hs) h0 h1⟩

theorem FontValued.write {K : Constants} {len : Nat} {S : Int → Prop} {data : List Int}
    (h : FontValued K len S data) (w v : Int) (hv : v = 0 ∨ v = K.FONT_COLOR) :
    FontValued K len (fun idx => S idx ∨ idx = w) (writeAt data w v) := by
  refine ⟨by rw [length_writeAt, h.1], fun idx hs h0 h1 => ?_⟩
  rw [readAt_writeAt, h.1]
  by_cases hw : w = idx
  · subst hw
    rw [if_pos ⟨rfl, h0, h1⟩]; exact hv
  · rw [if_neg (fun hc => hw hc.1)]
    rcases hs with hs | hs
    · exact h.2 idx hs h0 h1
    · exact absurd hs.symm hw

/-- One row of `SetupFont`: the column loop leaves `index` as it is and stores
font pixel values at `index + k` for `k` in `[0, FONT_WIDTH)`. -/
theorem SetupFont_row (K : Constants) (len : Nat) (S : Int → Prop)
    (st : List Int × Int × Nat) (h : FontValued K len S st.1) :
    (forLoop 0 (K.FONT_WIDTH - 1)
      (fun k (st : List Int × Int × Nat) =>
        (writeAt st.1 (st.2.1 + k) (if st.2.2 &&& 0x800000 ≠ 0 then K.FONT_COLOR else 0),
          st.2.1, (st.2.2 <<< 1) % 2 ^ 32)) st).2.1 = st.2.1 ∧
      FontValued K len
        (fun idx => S idx ∨ ∃ k, 0 ≤ k ∧ k < K.FONT_WIDTH ∧ idx = st.2.1 + k)
        (forLoop 0 (K.FONT_WIDTH - 1)
          (fun k (st : List Int × Int × Nat) =>
            (writeAt st.1 (st.2.1 + k) (if st.2.2 &&& 0x800000 ≠ 0 then K.FONT_COLOR else 0),
              st.2.1, (st.2.2 <<< 1) % 2 ^ 32)) st).1 := by
  have key := forLoop_induction_max
    (fun p (t : List Int × Int × Nat) => t.2.1 = st.2.1 ∧
      FontValued K len (fun idx => S idx ∨ ∃ k, 0 ≤ k ∧ k < p ∧ idx = st.2.1 + k) t.1)
    0 (K.FONT_WIDTH - 1)
    (fun k (st : List Int × Int × Nat) =>
      (writeAt st.1 (st.2.1 + k) (if st.2.2 &&& 0x800000 ≠ 0 then K.FONT_COLOR else 0),
        st.2.1, (st.2.2 <<< 1) % 2 ^ 32)) st
    ⟨rfl, h.mono (fun idx hs => by
      rcases hs with hs | ⟨k, h1, h2, _⟩
      · exact hs
      · omega)⟩
    (by
      intro p t hp0 hp1 ⟨hidx, hfv⟩
      refine ⟨hidx, ?_⟩
      have hw := hfv.write (t.2.1 + p) (if t.2.2 &&& 0x800000 ≠ 0 then K.FONT_COLOR else 0)
        (by split <;> simp)
      refine hw.mono (fun idx hs => ?_)
      rcases hs with hs | ⟨k, h1, h2, h3⟩
      · exact Or.inl (Or.inl hs)
      · by_cases hk : k = p
        · subst hk; right; rw [hidx]; exact h3
        · exact Or.inl (Or.inr ⟨k, h1, by omega, h3⟩))
  refine ⟨key.1, key.2.mono (fun idx hs => ?_)⟩
  rcases hs with hs | ⟨k, h1, h2, h3⟩
  · exact Or.inl hs
  · exact Or.inr ⟨k, h1, by omega, h3⟩

/-- One glyph of `SetupFont`: the row loop stores font pixel values at
`index + IMAGE_BANK_WIDTH * j + k` for every row `j` and column `k` of the cell. -/
theorem SetupFont_glyph (K : Constants) (len : Nat) (S : Int → Prop)
    (d : List Int) (index : Int) (font : Nat) (h : FontValued K len S d) :
    FontValued K len
      (fun idx => S idx ∨ ∃ j k, 0 ≤ j ∧ j < K.FONT_HEIGHT ∧ 0 ≤ k ∧ k < K.FONT_WIDTH ∧
        idx = index + K.IMAGE_BANK_WIDTH * j + k)
      (forLoop 0 (K.FONT_HEIGHT - 1)
        (fun _ (st : List Int × Int × Nat) =>
          let st := forLoop 0 (K.FONT_WIDTH - 1)
            (fun k (st : List Int × Int × Nat) =>
              (writeAt st.1 (st.2.1 + k) (if st.2.2 &&& 0x800000 ≠ 0 then K.FONT_COLOR else 0),
                st.2.1, (st.2.2 <<< 1) % 2 ^ 32))
            st
          (st.1, st.2.1 + K.IMAGE_BANK_WIDTH, st.2.2))
        (d, index, font)).1 := by
  have key := forLoop_induction_max
    (fun m (t : List Int × Int × Nat) => t.2.1 = index + K.IMAGE_BANK_WIDTH * m ∧
      FontValued K len
        (fun idx => S idx ∨ ∃ j k, 0 ≤ j ∧ j < m ∧ 0 ≤ k ∧ k < K.FONT_WIDTH ∧
          idx = index + K.IMAGE_BANK_WIDTH * j + k) t.1)
    0 (K.FONT_HEIGHT - 1)
    (fun _ (st : List Int × Int × Nat) =>
      let st := forLoop 0 (K.FONT_WIDTH - 1)
        (fun k (st : List Int × Int × Nat) =>
          (writeAt st.1 (st.2.1 + k) (if st.2.2 &&& 0x800000 ≠ 0 then K.FONT_COLOR else 0),
            st.2.1, (st.2.2 <<< 1) % 2 ^ 32))
        st
      (st.1, st.2.1 + K.IMAGE_BANK_WIDTH, st.2.2))
    (d, index, font)
    ⟨by simp, h.mono (fun idx hs => by
      rcases hs with hs | ⟨j, k, h1, h2, _⟩
      · exact hs
      · omega)⟩
    (by
      intro m t hm0 hm1 ⟨hidx, hfv⟩
      have hrow := SetupFont_row K len _ t hfv
      refine ⟨?_, ?_⟩
      · show _ + K.IMAGE_BANK_WIDTH = _
        rw [hrow.1, hidx, mul_add, mul_one, add_assoc]
      · refine hrow.2.mono (fun idx hs => ?_)
        rcases hs with hs | ⟨j, k, h1, h2, h3, h4, h5⟩
        · exact Or.inl (Or.inl hs)
        · by_cases hj : j = m
          · subst hj; right; exact ⟨k, h3, h4, by rw [hidx]; exact h5⟩
          · exact Or.inl (Or.inr ⟨j, k, h1, by omega, h3, h4, h5⟩))
  refine key.2.mono (fun idx hs => ?_)
  rcases hs with hs | ⟨j, k, h1, h2, h3, h4, h5⟩
  · exact Or.inl hs
  · exact Or.inr ⟨j, k, h1, by omega, h3, h4, h5⟩

/-- After `SetupFont` every pixel of every glyph cell that lies inside the
buffer holds 0 or `FONT_COLOR`, whatever the buffer held before. -/
theorem SetupFontData_fontValued (K : Constants) (d0 : List Int) :
    FontValued K d0.length
      (fun idx => ∃ i j k, 0 ≤ i ∧ i < (K.FONT_DATA.length : Int) ∧ 0 ≤ j ∧ j < K.FONT_HEIGHT ∧
        0 ≤ k ∧ k < K.FONT_WIDTH ∧ idx = fontCellIndex K i j k)
      (SetupFontData K d0) := by
  have key := forLoop_induction_max
    (fun n (d : List Int) => FontValued K d0.length
      (fun idx => ∃ i j k, 0 ≤ i ∧ i < n ∧ 0 ≤ j ∧ j < K.FONT_HEIGHT ∧
        0 ≤ k ∧ k < K.FONT_WIDTH ∧ idx = fontCellIndex K i j k) d)
    0 ((K.FONT_DATA.length : Int) - 1)
    (fun i data =>
      (forLoop 0 (K.FONT_HEIGHT - 1)
        (fun _ (st : List Int × Int × Nat) =>
          let st := forLoop 0 (K.FONT_WIDTH - 1)
            (fun k (st : List Int × Int × Nat) =>
              (writeAt st.1 (st.2.1 + k) (if st.2.2 &&& 0x800000 ≠ 0 then K.FONT_COLOR else 0),
                st.2.1, (st.2.2 <<< 1) % 2 ^ 32))
            st
          (st.1, st.2.1 + K.IMAGE_BANK_WIDTH, st.2.2))
        (data, K.IMAGE_BANK_WIDTH * (K.FONT_HEIGHT * Int.tdiv i K.FONT_ROW_COUNT + K.FONT_Y) +
          K.FONT_WIDTH * Int.tmod i K.FONT_ROW_COUNT + K.FONT_X, K.FONT_DATA.getD i.toNat 0)).1)
    d0
    ⟨rfl, fun idx hs _ _ => by
      obtain ⟨i, j, k, h1, h2, _⟩ := hs
      omega⟩
    (by
      intro n d hn0 hn1 hfv
      refine (SetupFont_glyph K d0.length _ d _ _ hfv).mono (fun idx hs => ?_)
      obtain ⟨i, j, k, h1, h2, h3, h4, h5, h6, h7⟩ := hs
      by_cases hi : i = n
      · subst hi; right; exact ⟨j, k, h3, h4, h5, h6, h7⟩
      · exact Or.inl ⟨i, j, k, h1, by omega, h3, h4, h5, h6, h7⟩)
  refine FontValued.mono key (fun idx hs => ?_)
  obtain ⟨i, j, k, h1, h2, h3, h4, h5, h6, h7⟩ := hs
  exact ⟨i, j, k, h1, by omega, h3, h4, h5, h6, h7⟩

/-! ## `DrawText` draws in the resolved color -/

/-- A source pixel that `DrawText` reads for a supported character, inside an
atlas built by `SetupFont`, is 0 or `FONT_COLOR`. -/
theorem atlas_pixel_fontValued (K : Constants) (atlas : Image) (d0 : List Int)
    (hw : atlas.width = K.IMAGE_BANK_WIDTH) (hdata : atlas.data = SetupFontData K d0)
    (hlen : (d0.length : Int) = K.IMAGE_BANK_WIDTH * atlas.height)
    (code dx dy : Int) (hc0 : 0 ≤ code) (hc1 : code < (K.FONT_DATA.length : Int))
    (hdx0 : 0 ≤ dx) (hdx1 : dx < K.FONT_WIDTH) (hdy0 : 0 ≤ dy) (hdy1 : dy < K.FONT_HEIGHT)
    (hu0 : 0 ≤ K.FONT_X + Int.tmod code K.FONT_ROW_COUNT * K.FONT_WIDTH + dx)
    (hu1 : K.FONT_X + Int.tmod code K.FONT_ROW_COUNT * K.FONT_WIDTH + dx < atlas.width)
    (hv0 : 0 ≤ K.FONT_Y + Int.tdiv code K.FONT_ROW_COUNT * K.FONT_HEIGHT + dy)
    (hv1 : K.FONT_Y + Int.tdiv code K.FONT_ROW_COUNT * K.FONT_HEIGHT + dy < atlas.height) :
    atlas.pixel (K.FONT_X + Int.tmod code K.FONT_ROW_COUNT * K.FONT_WIDTH + dx)
        (K.FONT_Y + Int.tdiv code K.FONT_ROW_COUNT * K.FONT_HEIGHT + dy) = 0 ∨
      atlas.pixel (K.FONT_X + Int.tmod code K.FONT_ROW_COUNT * K.FONT_WIDTH + dx)
        (K.FONT_Y + Int.tdiv code K.FONT_ROW_COUNT * K.FONT_HEIGHT + dy) = K.FONT_COLOR := by
  have hfv := SetupFontData_fontValued K d0
  have hb := index_bounds atlas.width atlas.height _ _ hu0 hu1 hv0 hv1
  have e : atlas.width * (K.FONT_Y + Int.tdiv code K.FONT_ROW_COUNT * K.FONT_HEIGHT + dy) +
      (K.FONT_X + Int.tmod code K.FONT_ROW_COUNT * K.FONT_WIDTH + dx) =
      fontCellIndex K code dy dx := by
    unfold fontCellIndex
    rw [hw]; ring
  unfold Image.pixel
  rw [e, hdata]
  rw [e, hw, ← hlen] at hb
  exact hfv.2 _ ⟨code, dy, dx, hc0, hc1, hdy0, hdy1, hdx0, hdx1, rfl⟩ hb.1 hb.2

/-- The character loop of `DrawText` on a well-formed canvas whose system bank
was built by `SetupFont` and whose `FONT_COLOR` palette slot holds `col`: a
screen pixel takes `col` where some glyph has a foreground pixel inside the
clip rectangle, and is unchanged elsewhere. -/
theorem DrawTextLoop_pixel (K : Constants) (hcc : 0 < K.COLOR_COUNT)
    (hcodes : K.MAX_FONT_CODE - K.MIN_FONT_CODE < (K.FONT_DATA.length : Int))
    (atlas : Image) (d0 : List Int) (hw : atlas.width = K.IMAGE_BANK_WIDTH)
    (hdata : atlas.data = SetupFontData K d0)
    (hlen : (d0.length : Int) = K.IMAGE_BANK_WIDTH * atlas.height) (col left : Int)
    (text : List Int) (x y : Int) (s : Graphics) (hwf : WellFormed s)
    (hatlas : GetImageBank K s K.IMAGE_BANK_FOR_SYSTEM = atlas)
    (hcol : readAt s.palette_table K.FONT_COLOR = col) :
    ScreenOnly s (DrawTextLoop K left text x y s) ∧
      ∀ px py, OnScreen s px py →
        (DrawTextLoop K left text x y s).pixel px py =
          if TextInk K atlas left text x y px py = true ∧ s.clip_rect.Includes px py = true
          then col else s.pixel px py := by
  induction text generalizing x y s with
  | nil =>
    refine ⟨ScreenOnly.refl s, fun px py _ => ?_⟩
    simp [DrawTextLoop, TextInk]
  | cons ch rest ih =>
    unfold DrawTextLoop TextInk
    by_cases h10 : ch = 10
    · simp only [if_pos h10]; exact ih _ _ s hwf hatlas hcol
    · simp only [if_neg h10]
      by_cases h32 : ch = 32
      · simp only [if_pos h32]; exact ih _ _ s hwf hatlas hcol
      · simp only [if_neg h32]
        by_cases hout : ch < K.MIN_FONT_CODE ∨ ch > K.MAX_FONT_CODE
        · simp only [if_pos hout]; exact ih _ _ s hwf hatlas hcol
        · simp only [if_neg hout]
          have himg := DrawImage_pixel K s hwf x y K.IMAGE_BANK_FOR_SYSTEM
            (K.FONT_X + Int.tmod (ch - K.MIN_FONT_CODE) K.FONT_ROW_COUNT * K.FONT_WIDTH)
            (K.FONT_Y + Int.tdiv (ch - K.MIN_FONT_CODE) K.FONT_ROW_COUNT * K.FONT_HEIGHT)
            K.FONT_WIDTH K.FONT_HEIGHT 0
          generalize hs1 : DrawImage K s x y K.IMAGE_BANK_FOR_SYSTEM
            (K.FONT_X + Int.tmod (ch - K.MIN_FONT_CODE) K.FONT_ROW_COUNT * K.FONT_WIDTH)
            (K.FONT_Y + Int.tdiv (ch - K.MIN_FONT_CODE) K.FONT_ROW_COUNT * K.FONT_HEIGHT)
            K.FONT_WIDTH K.FONT_HEIGHT 0 = s1 at himg ⊢
          obtain ⟨hso, hpix⟩ := himg
          have hatlas1 : GetImageBank K s1 K.IMAGE_BANK_FOR_SYSTEM = atlas := by
            rw [← hatlas]; unfold GetImageBank; rw [hso.2.2.2.1]
          have hcol1 : readAt s1.palette_table K.FONT_COLOR = col := by
            rw [hso.2.2.2.2.2.2]; exact hcol
          have hrec := ih (x + K.FONT_WIDTH) y s1 (hso.wellFormed hwf) hatlas1 hcol1
          refine ⟨hso.trans hrec.1, fun px py hon => ?_⟩
          rw [hrec.2 px py ((hso.onScreen px py).2 hon), hso.2.2.2.2.2.1, hpix px py hon, hatlas]
          have hkey : effectiveColorKey K 0 = 0 := effectiveColorKey_valid K 0 (Or.inr ⟨le_refl 0, hcc⟩)
          rw [hkey]
          by_cases hinc : s.clip_rect.Includes px py = true
          · by_cases hrest : TextInk K atlas left rest (x + K.FONT_WIDTH) y px py = true
            · simp [hrest, hinc]
            · by_cases hgl : GlyphInk K atlas (ch - K.MIN_FONT_CODE) x y px py = true
              · have hg := hgl
                unfold GlyphInk at hg
                rw [decide_eq_true_iff] at hg
                obtain ⟨a1, a2, a3, a4, a5, a6, a7, a8, a9⟩ := hg
                have hbw : BlitWrites s atlas x y
                    (K.FONT_X + Int.tmod (ch - K.MIN_FONT_CODE) K.FONT_ROW_COUNT * K.FONT_WIDTH)
                    (K.FONT_Y + Int.tdiv (ch - K.MIN_FONT_CODE) K.FONT_ROW_COUNT * K.FONT_HEIGHT)
                    K.FONT_WIDTH K.FONT_HEIGHT 0 px py :=
                  ⟨a1, a2, a3, a4, a5, a6, a7, a8, hinc, fun h => a9 h.2⟩
                have hval := atlas_pixel_fontValued K atlas d0 hw hdata hlen
                  (ch - K.MIN_FONT_CODE) (px - x) (py - y) (by omega) (by omega) a1 a2 a3 a4
                  a5 a6 a7 a8
                have hfc : atlas.pixel
                    (K.FONT_X + Int.tmod (ch - K.MIN_FONT_CODE) K.FONT_ROW_COUNT * K.FONT_WIDTH +
                      (px - x))
                    (K.FONT_Y + Int.tdiv (ch - K.MIN_FONT_CODE) K.FONT_ROW_COUNT * K.FONT_HEIGHT +
                      (py - y)) = K.FONT_COLOR := by
                  rcases hval with h0 | h1
                  · exact absurd h0 a9
                  · exact h1
                simp [hrest, hgl, hinc, hbw, hfc, hcol]
              · have hbw : ¬ BlitWrites s atlas x y
                    (K.FONT_X + Int.tmod (ch - K.MIN_FONT_CODE) K.FONT_ROW_COUNT * K.FONT_WIDTH)
                    (K.FONT_Y + Int.tdiv (ch - K.MIN_FONT_CODE) K.FONT_ROW_COUNT * K.FONT_HEIGHT)
                    K.FONT_WIDTH K.FONT_HEIGHT 0 px py := by
                  intro hb
                  apply hgl
                  unfold GlyphInk
                  rw [decide_eq_true_iff]
                  obtain ⟨a1, a2, a3, a4, a5, a6, a7, a8, _, a10⟩ := hb
                  exact ⟨a1, a2, a3, a4, a5, a6, a7, a8, fun h => a10 ⟨by decide, h⟩⟩
                simp [hrest, hgl, hbw]
          · have hbw : ¬ BlitWrites s atlas x y
                (K.FONT_X + Int.tmod (ch - K.MIN_FONT_CODE) K.FONT_ROW_COUNT * K.FONT_WIDTH)
                (K.FONT_Y + Int.tdiv (ch - K.MIN_FONT_CODE) K.FONT_ROW_COUNT * K.FONT_HEIGHT)
                K.FONT_WIDTH K.FONT_HEIGHT 0 px py := fun hb => hinc hb.2.2.2.2.2.2.2.2.1
            simp [hinc, hbw]

/-- C10: `DrawText` draws in the resolved color.  On a well-formed canvas whose
system image bank was built by `SetupFont`, with `FONT_COLOR` a valid palette
slot and every supported character code having a glyph, a screen pixel after
`DrawText(x, y, text, c)` holds `palette_table[c]` (the palette as it was
before the call, resolved once) where some glyph of the text has a foreground
pixel inside the clip rectangle, and keeps its value everywhere else; so every
pixel whose value changed holds `palette_table[c]` and lies on a foreground
pixel: background pixels of the glyphs (atlas value 0) are never written. -/
theorem DrawText_resolved_color (K : Constants) (g : Graphics) (hwf : WellFormed g)
    (hcc : 0 < K.COLOR_COUNT)
    (hfc : 0 ≤ K.FONT_COLOR ∧ K.FONT_COLOR < (g.palette_table.length : Int))
    (hcodes : K.MAX_FONT_CODE - K.MIN_FONT_CODE < (K.FONT_DATA.length : Int))
    (d0 : List Int)
    (hw : (GetImageBank K g K.IMAGE_BANK_FOR_SYSTEM).width = K.IMAGE_BANK_WIDTH)
    (hdata : (GetImageBank K g K.IMAGE_BANK_FOR_SYSTEM).data = SetupFontData K d0)
    (hlen : (d0.length : Int) =
      K.IMAGE_BANK_WIDTH * (GetImageBank K g K.IMAGE_BANK_FOR_SYSTEM).height)
    (x y : Int) (text : List Int) (color px py : Int) (hon : OnScreen g px py) :
    (DrawText K g x y text color).pixel px py =
        (if TextInk K (GetImageBank K g K.IMAGE_BANK_FOR_SYSTEM) x text x y px py = true ∧
            g.clip_rect.Includes px py = true
          then readAt g.palette_table color else g.pixel px py) ∧
      ((DrawText K g x y text color).pixel px py ≠ g.pixel px py →
        (DrawText K g x y text color).pixel px py = readAt g.palette_table color ∧
          TextInk K (GetImageBank K g K.IMAGE_BANK_FOR_SYSTEM) x text x y px py = true) := by
  have hcol : readAt (writeAt g.palette_table K.FONT_COLOR (GetDrawColor g color))
      K.FONT_COLOR = GetDrawColor g color := by
    rw [readAt_writeAt, if_pos ⟨rfl, hfc.1, hfc.2⟩]
  have hloop := DrawTextLoop_pixel K hcc hcodes (GetImageBank K g K.IMAGE_BANK_FOR_SYSTEM) d0
    hw hdata hlen (GetDrawColor g color) x text x y
    ⟨g.screen_image, g.image_bank, g.tilemap_bank, g.clip_rect,
      writeAt g.palette_table K.FONT_COLOR (GetDrawColor g color)⟩ hwf rfl hcol
  have hpix : (DrawText K g x y text color).pixel px py =
      if TextInk K (GetImageBank K g K.IMAGE_BANK_FOR_SYSTEM) x text x y px py = true ∧
          g.clip_rect.Includes px py = true
        then readAt g.palette_table color else g.pixel px py := hloop.2 px py hon
  refine ⟨hpix, fun hne => ?_⟩
  rw [hpix] at hne ⊢
  by_cases hink : TextInk K (GetImageBank K g K.IMAGE_BANK_FOR_SYSTEM) x text x y px py = true ∧
      g.clip_rect.Includes px py = true
  · rw [if_pos hink]; exact ⟨rfl, hink.1⟩
  · rw [if_neg hink] at hne; exact absurd rfl hne

set_option maxRecDepth 100000 in
/-- Witness for C10: on the sample canvas with the font atlas built by
`SetupFont`, `DrawText(0, 0, "!", 5)` sets the foreground pixel (1,0) of the
glyph to 5 and leaves the background pixel (0,0) at 0. -/
theorem DrawText_resolved_color_witness :
    (DrawText sampleConstants (SetupFont sampleConstants sampleGraphics) 0 0 [33] 5).pixel 1 0 = 5 ∧
      (DrawText sampleConstants (SetupFont sampleConstants sampleGraphics) 0 0 [33] 5).pixel 0 0 = 0 :=
  ⟨(DrawText_resolved_color sampleConstants (SetupFont sampleConstants sampleGraphics)
      (by decide) (by decide) (by decide) (by decide) (List.replicate 256 0) (by decide) rfl
      (by decide) 0 0 [33] 5 1 0 (by decide)).1.trans (by decide),
    (DrawText_resolved_color sampleConstants (SetupFont sampleConstants sampleGraphics)
      (by decide) (by decide) (by decide) (by decide) (List.replicate 256 0) (by decide) rfl
      (by decide) 0 0 [33] 5 0 0 (by decide)).1.trans (by decide)⟩

/-! ## `DrawImage`: invalid color key -/

theorem effectiveColorKey_invalid (K : Constants) (color_key : Int)
    (hk : color_key ≠ -1 ∧ (color_key < 0 ∨ color_key ≥ K.COLOR_COUNT)) :
    effectiveColorKey K color_key = -1 := by
  unfold effectiveColorKey
  rw [if_pos hk]

/-- C13: an invalid color key falls back to no transparency: for every
`color_key` that is neither -1 nor in `[0, COLOR_COUNT)`,
`DrawImage(x, y, img, u, v, w, h, color_key)` gives exactly the canvas state of
`DrawImage(x, y, img, u, v, w, h, -1)`, for all other arguments and states. -/
theorem DrawImage_invalid_color_key (K : Constants) (g : Graphics)
    (x y image_index u v width height color_key : Int)
    (hne : color_key ≠ -1) (hinvalid : color_key < 0 ∨ K.COLOR_COUNT ≤ color_key) :
    DrawImage K g x y image_index u v width height color_key =
      DrawImage K g x y image_index u v width height (-1) := by
  have h1 : (if color_key ≠ -1 ∧ (color_key < 0 ∨ color_key ≥ K.COLOR_COUNT) then (-1 : Int)
      else color_key) = -1 := if_pos ⟨hne, hinvalid⟩
  have h2 : (if (-1 : Int) ≠ -1 ∧ ((-1 : Int) < 0 ∨ (-1 : Int) ≥ K.COLOR_COUNT) then (-1 : Int)
      else -1) = -1 := by simp
  unfold DrawImage
  simp only [h1, h2]

/-- Witness for C13: on the sample canvas the invalid key 16 (and the invalid
key -2) blit bank 0 exactly as the key -1 does. -/
theorem DrawImage_invalid_color_key_witness :
    DrawImage sampleConstants sampleGraphics 0 0 0 0 0 2 2 16 =
        DrawImage sampleConstants sampleGraphics 0 0 0 0 0 2 2 (-1) ∧
      (DrawImage sampleConstants sampleGraphics 0 0 0 0 0 2 2 16).pixel 0 0 = 1 :=
  ⟨DrawImage_invalid_color_key sampleConstants sampleGraphics 0 0 0 0 0 2 2 16
      (by decide) (by decide), by decide⟩

/-! ## Recorded `SetPixel` calls -/

theorem SetPixels_nil (g : Graphics) (color : Int) : SetPixels g [] color = g := rfl

theorem SetPixels_append (g : Graphics) (ps qs : List (Int × Int)) (color : Int) :
    SetPixels g (ps ++ qs) color = SetPixels (SetPixels g ps color) qs color := by
  unfold SetPixels
  rw [List.foldl_append]

/-- A loop that executes, per index, the calls recorded by `f` does what the
whole recorded list does. -/
theorem forLoop_SetPixels (lo hi : Int) (f : Int → List (Int × Int)) (color : Int)
    (g : Graphics) (ps0 : List (Int × Int)) :
    forLoop lo hi (fun i s => SetPixels s (f i) color) (SetPixels g ps0 color) =
      SetPixels g (forLoop lo hi (fun i ps => ps ++ f i) ps0) color := by
  unfold forLoop
  generalize List.range (hi + 1 - lo).toNat = ks
  induction ks generalizing ps0 with
  | nil => rfl
  | cons k ks ih =>
    rw [List.foldl_cons, List.foldl_cons]
    have e : (fun i s => SetPixels s (f i) color) (lo + (k : Int)) (SetPixels g ps0 color) =
        SetPixels g (ps0 ++ f (lo + (k : Int))) color := (SetPixels_append _ _ _ _).symm
    rw [e]
    exact ih _

/-- Membership in a list recorded by a loop. -/
theorem mem_forLoop_append {α : Type} (lo hi : Int) (f : Int → List α) (ps0 : List α) (a : α) :
    a ∈ forLoop lo hi (fun i ps => ps ++ f i) ps0 ↔
      a ∈ ps0 ∨ ∃ i, lo ≤ i ∧ i ≤ hi ∧ a ∈ f i := by
  have key := forLoop_induction_max
    (fun n (ps : List α) => a ∈ ps ↔ a ∈ ps0 ∨ ∃ i, lo ≤ i ∧ i < n ∧ a ∈ f i)
    lo hi (fun i ps => ps ++ f i) ps0
    (by
      constructor
      · exact Or.inl
      · rintro (h | ⟨i, h1, h2, _⟩)
        · exact h
        · omega)
    (by
      intro n ps hlo hhi hps
      rw [List.mem_append, hps]
      constructor
      · rintro ((h | ⟨i, h1, h2, h3⟩) | h)
        · exact Or.inl h
        · exact Or.inr ⟨i, h1, by omega, h3⟩
        · exact Or.inr ⟨n, hlo, by omega, h⟩
      · rintro (h | ⟨i, h1, h2, h3⟩)
        · exact Or.inl (Or.inl h)
        · by_cases hi : i = n
          · subst hi; exact Or.inr h3
          · exact Or.inl (Or.inr ⟨i, h1, by omega, h3⟩))
  have key' : a ∈ forLoop lo hi (fun i ps => ps ++ f i) ps0 ↔
      a ∈ ps0 ∨ ∃ i, lo ≤ i ∧ i < max lo (hi + 1) ∧ a ∈ f i := key
  rw [key']
  constructor
  · rintro (h | ⟨i, h1, h2, h3⟩)
    · exact Or.inl h
    · exact Or.inr ⟨i, h1, by omega, h3⟩
  · rintro (h | ⟨i, h1, h2, h3⟩)
    · exact Or.inl h
    · exact Or.inr ⟨i, h1, by omega, h3⟩

theorem SetPixels_screenOnly (g : Graphics) (ps : List (Int × Int)) (color : Int) :
    ScreenOnly g (SetPixels g ps color) := by
  induction ps generalizing g with
  | nil => exact ScreenOnly.refl g
  | cons p ps ih => exact (SetPixel_screenOnly g p.1 p.2 color).trans (ih _)

/-- The effect of a list of `SetPixel` calls with one color on a well-formed
canvas: a screen pixel takes the color if its position is in the list and
inside the clip rectangle, and is unchanged otherwise. -/
theorem SetPixels_pixel (g : Graphics) (hwf : WellFormed g) (ps : List (Int × Int))
    (color px py : Int) (hon : OnScreen g px py) :
    (SetPixels g ps color).pixel px py =
      if (px, py) ∈ ps ∧ g.clip_rect.Includes px py = true then color else g.pixel px py := by
  induction ps generalizing g with
  | nil => simp [SetPixels]
  | cons p ps ih =>
    have hso := SetPixel_screenOnly g p.1 p.2 color
    have h := ih (SetPixel g p.1 p.2 color) (hso.wellFormed hwf) ((hso.onScreen px py).2 hon)
    show (SetPixels (SetPixel g p.1 p.2 color) ps color).pixel px py = _
    rw [h, hso.2.2.2.2.2.1, pixel_SetPixel hwf _ _ _ _ _ hon]
    by_cases hinc : g.clip_rect.Includes px py = true
    · by_cases hps : (px, py) ∈ ps
      · simp [hps, hinc]
      · by_cases hp : px = p.1 ∧ py = p.2
        · obtain ⟨rfl, rfl⟩ := hp
          simp [hinc]
        · have hne : (px, py) ≠ p := by
            intro h; apply hp; rw [← h]; exact ⟨rfl, rfl⟩
          simp [hps, hinc, hp, hne]
    · have h1 : ¬ (g.clip_rect.Includes p.1 p.2 = true ∧ px = p.1 ∧ py = p.2) := by
        rintro ⟨h', rfl, rfl⟩; exact hinc h'
      simp [hinc, h1]

/-! ## `DrawRectangleBorder` -/

theorem SetPixel_of_not_includes (g : Graphics) (x y color : Int)
    (h : g.clip_rect.Includes x y = false) : SetPixel g x y color = g := by
  unfold SetPixel
  rw [h]; rfl

/-- The pixel-by-pixel border routine as one list of `SetPixel` calls. -/
theorem DrawRectangleBorderPixelByPixel_eq (g : Graphics) (x1 y1 x2 y2 color : Int) :
    DrawRectangleBorderPixelByPixel g x1 y1 x2 y2 color =
      SetPixels g
        (forLoop (min x1 x2) (max x1 x2) (fun i ps => ps ++ [(i, y1), (i, y2)]) [] ++
          forLoop (min y1 y2) (max y1 y2) (fun i ps => ps ++ [(x1, i), (x2, i)]) [])
        (GetDrawColor g color) := by
  have h1 := forLoop_SetPixels (min x1 x2) (max x1 x2) (fun i => [(i, y1), (i, y2)])
    (GetDrawColor g color) g []
  have h2 := forLoop_SetPixels (min y1 y2) (max y1 y2) (fun i => [(x1, i), (x2, i)])
    (GetDrawColor g color)
    (SetPixels g (forLoop (min x1 x2) (max x1 x2) (fun i ps => ps ++ [(i, y1), (i, y2)]) [])
      (GetDrawColor g color)) []
  rw [SetPixels_nil] at h1 h2
  rw [SetPixels_append, ← h2, ← h1]
  rfl

theorem mem_border_positions (x1 y1 x2 y2 px py : Int) :
    (px, py) ∈ forLoop (min x1 x2) (max x1 x2) (fun i ps => ps ++ [(i, y1), (i, y2)]) [] ++
        forLoop (min y1 y2) (max y1 y2) (fun i ps => ps ++ [(x1, i), (x2, i)]) [] ↔
      ((py = y1 ∨ py = y2) ∧ min x1 x2 ≤ px ∧ px ≤ max x1 x2) ∨
        ((px = x1 ∨ px = x2) ∧ min y1 y2 ≤ py ∧ py ≤ max y1 y2) := by
  rw [List.mem_append, mem_forLoop_append, mem_forLoop_append]
  simp only [List.not_mem_nil, false_or, List.mem_cons, Prod.mk.injEq, or_false]
  constructor
  · rintro (⟨i, h1, h2, (⟨rfl, rfl⟩ | ⟨rfl, rfl⟩)⟩ | ⟨i, h1, h2, (⟨rfl, rfl⟩ | ⟨rfl, rfl⟩)⟩)
    · exact Or.inl ⟨Or.inl rfl, h1, h2⟩
    · exact Or.inl ⟨Or.inr rfl, h1, h2⟩
    · exact Or.inr ⟨Or.inl rfl, h1, h2⟩
    · exact Or.inr ⟨Or.inr rfl, h1, h2⟩
  · rintro (⟨(rfl | rfl), h1, h2⟩ | ⟨(rfl | rfl), h1, h2⟩)
    · exact Or.inl ⟨px, h1, h2, Or.inl ⟨rfl, rfl⟩⟩
    · exact Or.inl ⟨px, h1, h2, Or.inr ⟨rfl, rfl⟩⟩
    · exact Or.inr ⟨py, h1, h2, Or.inl ⟨rfl, rfl⟩⟩
    · exact Or.inr ⟨py, h1, h2, Or.inr ⟨rfl, rfl⟩⟩

/-- A list of `SetPixel` calls none of which is inside the clip rectangle
leaves the canvas as it is. -/
theorem SetPixels_of_not_includes (g : Graphics) (ps : List (Int × Int)) (color : Int)
    (h : ∀ p ∈ ps, g.clip_rect.Includes p.1 p.2 = false) : SetPixels g ps color = g := by
  induction ps with
  | nil => rfl
  | cons p ps ih =>
    show SetPixels (SetPixel g p.1 p.2 color) ps color = g
    rw [SetPixel_of_not_includes g p.1 p.2 color (h p (List.mem_cons_self _ _))]
    exact ih (fun q hq => h q (List.mem_cons_of_mem _ hq))

/-- The intersection test of `DrawRectangleBorder` changes nothing: with or
without it the routine gives the same canvas. -/
theorem DrawRectangleBorder_eq_pixelByPixel (g : Graphics) (x1 y1 x2 y2 color : Int) :
    DrawRectangleBorder g x1 y1 x2 y2 color =
      DrawRectangleBorderPixelByPixel g x1 y1 x2 y2 color := by
  by_cases hemp : ((Rectangle.FromPos x1 y1 x2 y2).Intersect g.clip_rect).IsEmpty = true
  · have hl : DrawRectangleBorder g x1 y1 x2 y2 color = g := by
      unfold DrawRectangleBorder
      simp only [hemp, if_true]
    rw [hl, DrawRectangleBorderPixelByPixel_eq]
    symm
    apply SetPixels_of_not_includes
    intro p hp
    have hp' : (p.1, p.2) ∈ forLoop (min x1 x2) (max x1 x2)
        (fun i ps => ps ++ [(i, y1), (i, y2)]) [] ++
        forLoop (min y1 y2) (max y1 y2) (fun i ps => ps ++ [(x1, i), (x2, i)]) [] := hp
    rw [mem_border_positions] at hp'
    rw [Includes_eq_false_iff]
    rw [IsEmpty_iff] at hemp
    simp only [Rectangle.Intersect, Rectangle.FromPos] at hemp
    intro hin
    omega
  · unfold DrawRectangleBorder DrawRectangleBorderPixelByPixel
    simp only [hemp]
    rfl

/-- C12: the early exit of `DrawRectangleBorder` is a pure optimization.  For
all `x1, y1, x2, y2`, every color and every canvas state the routine gives the
same canvas as drawing every edge pixel one by one through the clip-checking
`SetPixel` without the intersection test; and on a well-formed canvas the
screen pixels on the perimeter of the normalized rectangle (rows `y1`, `y2` for
`min x1 x2 ≤ x ≤ max x1 x2`, columns `x1`, `x2` for `min y1 y2 ≤ y ≤ max y1 y2`)
that are inside the clip rectangle take `palette_table[color]`, and every other
screen pixel is unchanged. -/
theorem DrawRectangleBorder_early_exit (g : Graphics) (x1 y1 x2 y2 color : Int) :
    DrawRectangleBorder g x1 y1 x2 y2 color =
        DrawRectangleBorderPixelByPixel g x1 y1 x2 y2 color ∧
      (WellFormed g → ∀ px py, OnScreen g px py →
        (DrawRectangleBorder g x1 y1 x2 y2 color).pixel px py =
          if (((py = y1 ∨ py = y2) ∧ min x1 x2 ≤ px ∧ px ≤ max x1 x2) ∨
                ((px = x1 ∨ px = x2) ∧ min y1 y2 ≤ py ∧ py ≤ max y1 y2)) ∧
              g.clip_rect.Includes px py = true
          then readAt g.palette_table color else g.pixel px py) := by
  have heq := DrawRectangleBorder_eq_pixelByPixel g x1 y1 x2 y2 color
  refine ⟨heq, fun hwf px py hon => ?_⟩
  rw [heq, DrawRectangleBorderPixelByPixel_eq, SetPixels_pixel g hwf _ _ px py hon]
  simp only [mem_border_positions]
  rfl

/-- Witness for C12: a border that misses the clip rectangle (0,0,4,4) of the
sample canvas changes nothing in either routine, and a border that meets it
paints the clipped corner (2,2) but not the interior pixel (3,3). -/
theorem DrawRectangleBorder_early_exit_witness :
    DrawRectangleBorderPixelByPixel (SetClippingArea sampleGraphics 0 0 4 4) 6 6 8 8 3 =
        DrawRectangleBorder (SetClippingArea sampleGraphics 0 0 4 4) 6 6 8 8 3 ∧
      (DrawRectangleBorder (SetClippingArea sampleGraphics 0 0 4 4) 2 2 7 7 3).pixel 2 2 = 3 ∧
      (DrawRectangleBorder (SetClippingArea sampleGraphics 0 0 4 4) 2 2 7 7 3).pixel 3 3 = 0 :=
  ⟨(DrawRectangleBorder_early_exit (SetClippingArea sampleGraphics 0 0 4 4) 6 6 8 8 3).1.symm,
    ((DrawRectangleBorder_early_exit (SetClippingArea sampleGraphics 0 0 4 4) 2 2 7 7 3).2
      (by decide) 2 2 (by decide)).trans (by decide),
    ((DrawRectangleBorder_early_exit (SetClippingArea sampleGraphics 0 0 4 4) 2 2 7 7 3).2
      (by decide) 3 3 (by decide)).trans (by decide)⟩

/-! ## `DrawCircleBorder` -/

theorem forLoop_congr {σ : Type} (lo hi : Int) (body body' : Int → σ → σ) (s : σ)
    (h : ∀ i s, lo ≤ i → i ≤ hi → body i s = body' i s) :
    forLoop lo hi body s = forLoop lo hi body' s := by
  have key := forLoop_induction_max
    (fun n t => t = forLoop lo (n - 1) body' s) lo hi body s
    (by
      show s = forLoop lo (lo - 1) body' s
      rw [forLoop_of_lt _ _ _ _ (by omega)])
    (by
      intro i t hlo hhi ht
      have e : i + 1 - 1 = (i - 1) + 1 := by omega
      rw [e, forLoop_succ _ _ _ _ (by omega), ← ht, h i t hlo hhi]
      congr 1; omega)
  by_cases hle : lo ≤ hi + 1
  · rw [max_eq_right hle] at key
    have e : hi + 1 - 1 = hi := by omega
    rw [key, e]
  · rw [forLoop_of_lt _ _ _ _ (by omega), forLoop_of_lt _ _ _ _ (by omega)]

/-- The eight positions `DrawCircleBorder` passes to `SetPixel` for one `dx`. -/
theorem DrawCircleBorder_eq_SetPixels (g : Graphics) (x y radius color : Int) :
    DrawCircleBorder g x y radius color =
      SetPixels g (DrawCircleBorderPositions x y radius) (GetDrawColor g color) := by
  unfold DrawCircleBorder DrawCircleBorderPositions
  by_cases hr : radius = 0
  · simp only [hr, if_true]; rfl
  · simp only [hr, if_false]
    have h := forLoop_SetPixels 0 radius
      (fun dx => if dx > sqrtRound (radius * radius - dx * dx) then []
        else [(x - dx, y - sqrtRound (radius * radius - dx * dx)),
          (x + dx, y - sqrtRound (radius * radius - dx * dx)),
          (x - dx, y + sqrtRound (radius * radius - dx * dx)),
          (x + dx, y + sqrtRound (radius * radius - dx * dx)),
          (x - sqrtRound (radius * radius - dx * dx), y - dx),
          (x + sqrtRound (radius * radius - dx * dx), y - dx),
          (x - sqrtRound (radius * radius - dx * dx), y + dx),
          (x + sqrtRound (radius * radius - dx * dx), y + dx)])
      (GetDrawColor g color) g []
    rw [SetPixels_nil] at h
    refine (forLoop_congr _ _ _ _ _ ?_).trans (h.trans ?_)
    · intro dx s _ _
      by_cases hd : dx > sqrtRound (radius * radius - dx * dx)
      · simp only [hd, if_true]; rfl
      · simp only [hd, if_false]; rfl
    · congr 1
      apply forLoop_congr
      intro dx ps _ _
      by_cases hd : dx > sqrtRound (radius * radius - dx * dx)
      · simp only [hd, if_true, List.append_nil]
      · simp only [hd, if_false]

theorem mem_DrawCircleBorderPositions (x y radius px py : Int) :
    (px, py) ∈ DrawCircleBorderPositions x y radius ↔
      (radius = 0 ∧ px = x ∧ py = y) ∨
        (radius ≠ 0 ∧ ∃ dx, 0 ≤ dx ∧ dx ≤ radius ∧
          dx ≤ sqrtRound (radius * radius - dx * dx) ∧
          (((px = x - dx ∨ px = x + dx) ∧
              (py = y - sqrtRound (radius * radius - dx * dx) ∨
                py = y + sqrtRound (radius * radius - dx * dx))) ∨
            ((px = x - sqrtRound (radius * radius - dx * dx) ∨
                px = x + sqrtRound (radius * radius - dx * dx)) ∧
              (py = y - dx ∨ py = y + dx)))) := by
  unfold DrawCircleBorderPositions
  by_cases hr : radius = 0
  · simp [hr]
  · simp only [hr, if_false, false_and, false_or, ne_eq, not_false_eq_true, true_and]
    have e : forLoop 0 radius
        (fun dx ps =>
          if dx > sqrtRound (radius * radius - dx * dx) then ps
          else ps ++ [(x - dx, y - sqrtRound (radius * radius - dx * dx)),
            (x + dx, y - sqrtRound (radius * radius - dx * dx)),
            (x - dx, y + sqrtRound (radius * radius - dx * dx)),
            (x + dx, y + sqrtRound (radius * radius - dx * dx)),
            (x - sqrtRound (radius * radius - dx * dx), y - dx),
            (x + sqrtRound (radius * radius - dx * dx), y - dx),
            (x - sqrtRound (radius * radius - dx * dx), y + dx),
            (x + sqrtRound (radius * radius - dx * dx), y + dx)]) [] =
        forLoop 0 radius
          (fun dx ps => ps ++
            (if dx > sqrtRound (radius * radius - dx * dx) then []
            else [(x - dx, y - sqrtRound (radius * radius - dx * dx)),
              (x + dx, y - sqrtRound (radius * radius - dx * dx)),
              (x - dx, y + sqrtRound (radius * radius - dx * dx)),
              (x + dx, y + sqrtRound (radius * radius - dx * dx)),
              (x - sqrtRound (radius * radius - dx * dx), y - dx),
              (x + sqrtRound (radius * radius - dx * dx), y - dx),
              (x - sqrtRound (radius * radius - dx * dx), y + dx),
              (x + sqrtRound (radius * radius - dx * dx), y + dx)])) [] := by
      apply forLoop_congr
      intro dx ps _ _
      by_cases hd : dx > sqrtRound (radius * radius - dx * dx)
      · simp only [hd, if_true, List.append_nil]
      · simp only [hd, if_false]
    rw [e, mem_forLoop_append]
    simp only [List.not_mem_nil, false_or]
    constructor
    · rintro ⟨dx, h0, h1, hm⟩
      by_cases hd : dx > sqrtRound (radius * radius - dx * dx)
      · simp [hd] at hm
      · simp only [hd, if_false, List.mem_cons, Prod.mk.injEq, List.not_mem_nil, or_false] at hm
        refine ⟨dx, h0, h1, by omega, ?_⟩
        generalize sqrtRound (radius * radius - dx * dx) = dy at hm ⊢
        rcases hm with h | h | h | h | h | h | h | h <;> simp [h.1, h.2]
    · rintro ⟨dx, h0, h1, hd, hm⟩
      refine ⟨dx, h0, h1, ?_⟩
      have hd' : ¬ dx > sqrtRound (radius * radius - dx * dx) := by omega
      simp only [hd', if_false, List.mem_cons, Prod.mk.injEq, List.not_mem_nil, or_false]
      generalize sqrtRound (radius * radius - dx * dx) = dy at hm ⊢
      rcases hm with ⟨h1 | h1, h2 | h2⟩ | ⟨h1 | h1, h2 | h2⟩ <;> simp [h1, h2]

/-- C11: `DrawCircleBorder` is eightfold symmetric.  The routine is the list
`DrawCircleBorderPositions x y r` of `SetPixel` calls (with
`dy = trunc(sqrt(r*r - dx*dx) + 0.5)`), and for every center and radius the set
of these positions is closed under the reflections through the center and
under swapping the offsets: if `(x+a, y+b)` is passed to `SetPixel` then so are
`(x-a, y+b)`, `(x+a, y-b)` and `(x+b, y+a)`. -/
theorem DrawCircleBorder_symmetric (g : Graphics) (x y radius color : Int) :
    DrawCircleBorder g x y radius color =
        SetPixels g (DrawCircleBorderPositions x y radius) (GetDrawColor g color) ∧
      ∀ a b, (x + a, y + b) ∈ DrawCircleBorderPositions x y radius →
        (x - a, y + b) ∈ DrawCircleBorderPositions x y radius ∧
          (x + a, y - b) ∈ DrawCircleBorderPositions x y radius ∧
          (x + b, y + a) ∈ DrawCircleBorderPositions x y radius := by
  refine ⟨DrawCircleBorder_eq_SetPixels g x y radius color, fun a b hab => ?_⟩
  rw [mem_DrawCircleBorderPositions] at hab
  simp only [mem_DrawCircleBorderPositions]
  rcases hab with ⟨hr, ha, hb⟩ | ⟨hr, dx, h0, h1, hd, hm⟩
  · have ha0 : a = 0 := by omega
    have hb0 : b = 0 := by omega
    subst ha0 hb0
    simp [hr]
  · generalize hdy : sqrtRound (radius * radius - dx * dx) = dy at hd hm
    have key : ∀ a' b', ((a' = -dx ∨ a' = dx) ∧ (b' = -dy ∨ b' = dy)) ∨
        ((a' = -dy ∨ a' = dy) ∧ (b' = -dx ∨ b' = dx)) →
        (radius = 0 ∧ x + a' = x ∧ y + b' = y) ∨
          (radius ≠ 0 ∧ ∃ dx, 0 ≤ dx ∧ dx ≤ radius ∧
            dx ≤ sqrtRound (radius * radius - dx * dx) ∧
            (((x + a' = x - dx ∨ x + a' = x + dx) ∧
                (y + b' = y - sqrtRound (radius * radius - dx * dx) ∨
                  y + b' = y + sqrtRound (radius * radius - dx * dx))) ∨
              ((x + a' = x - sqrtRound (radius * radius - dx * dx) ∨
                  x + a' = x + sqrtRound (radius * radius - dx * dx)) ∧
                (y + b' = y - dx ∨ y + b' = y + dx)))) := by
      intro a' b' h
      refine Or.inr ⟨hr, dx, h0, h1, by rw [hdy]; exact hd, ?_⟩
      rw [hdy]
      rcases h with ⟨h1 | h1, h2 | h2⟩ | ⟨h1 | h1, h2 | h2⟩ <;> subst h1 <;> subst h2 <;> simp <;>
        omega
    have hoff : ((a = -dx ∨ a = dx) ∧ (b = -dy ∨ b = dy)) ∨
        ((a = -dy ∨ a = dy) ∧ (b = -dx ∨ b = dx)) := by
      rcases hm with ⟨h1 | h1, h2 | h2⟩ | ⟨h1 | h1, h2 | h2⟩
      all_goals first
        | exact Or.inl ⟨Or.inl (by omega), Or.inl (by omega)⟩
        | exact Or.inl ⟨Or.inl (by omega), Or.inr (by omega)⟩
        | exact Or.inl ⟨Or.inr (by omega), Or.inl (by omega)⟩
        | exact Or.inl ⟨Or.inr (by omega), Or.inr (by omega)⟩
        | exact Or.inr ⟨Or.inl (by omega), Or.inl (by omega)⟩
        | exact Or.inr ⟨Or.inl (by omega), Or.inr (by omega)⟩
        | exact Or.inr ⟨Or.inr (by omega), Or.inl (by omega)⟩
        | exact Or.inr ⟨Or.inr (by omega), Or.inr (by omega)⟩
    have e1 : x - a = x + -a := by omega
    have e2 : y - b = y + -b := by omega
    rw [e1, e2]
    refine ⟨key (-a) b ?_, key a (-b) ?_, key b a ?_⟩
    · rcases hoff with ⟨h1 | h1, h2⟩ | ⟨h1 | h1, h2⟩
      · exact Or.inl ⟨Or.inr (by omega), h2⟩
      · exact Or.inl ⟨Or.inl (by omega), h2⟩
      · exact Or.inr ⟨Or.inr (by omega), h2⟩
      · exact Or.inr ⟨Or.inl (by omega), h2⟩
    · rcases hoff with ⟨h1, h2 | h2⟩ | ⟨h1, h2 | h2⟩
      · exact Or.inl ⟨h1, Or.inr (by omega)⟩
      · exact Or.inl ⟨h1, Or.inl (by omega)⟩
      · exact Or.inr ⟨h1, Or.inr (by omega)⟩
      · exact Or.inr ⟨h1, Or.inl (by omega)⟩
    · rcases hoff with ⟨h1, h2⟩ | ⟨h1, h2⟩
      · exact Or.inr ⟨h2, h1⟩
      · exact Or.inl ⟨h2, h1⟩

/-- Witness for C11: for the circle of radius 2 around (5,5) the position
(6,7) is passed to `SetPixel`, and so are its mirror images (4,7), (6,3) and
(7,6). -/
theorem DrawCircleBorder_symmetric_witness :
    (5 + 1, 5 + 2) ∈ DrawCircleBorderPositions 5 5 2 ∧
      (5 - 1, 5 + 2) ∈ DrawCircleBorderPositions 5 5 2 ∧
      (5 + 1, 5 - 2) ∈ DrawCircleBorderPositions 5 5 2 ∧
      (5 + 2, 5 + 1) ∈ DrawCircleBorderPositions 5 5 2 :=
  ⟨by decide!, (DrawCircleBorder_symmetric sampleGraphics 5 5 2 3).2 1 2 (by decide!)⟩

/-! ## `DrawCircle` -/

theorem forLoop_append_init {α : Type} (lo hi : Int) (f : Int → List α) (ps0 : List α) :
    forLoop lo hi (fun i ps => ps ++ f i) ps0 =
      ps0 ++ forLoop lo hi (fun i ps => ps ++ f i) [] := by
  unfold forLoop
  generalize List.range (hi + 1 - lo).toNat = ks
  induction ks using List.reverseRecOn with
  | nil => simp
  | append_singleton ks k ih =>
    rw [List.foldl_append, List.foldl_append, List.foldl_cons, List.foldl_cons, List.foldl_nil,
      List.foldl_nil, ih]
    exact List.append_assoc _ _ _

theorem DrawCircle_eq_SetPixels (g : Graphics) (x y radius color : Int) :
    DrawCircle g x y radius color =
      SetPixels g (DrawCirclePositions x y radius) (GetDrawColor g color) := by
  unfold DrawCircle DrawCirclePositions
  by_cases hr : radius = 0
  · simp only [hr, if_true]; rfl
  · simp only [hr, if_false]
    have h := forLoop_SetPixels 0 radius
      (fun dx => if dx > sqrtRound (radius * radius - dx * dx) then []
        else forLoop (-sqrtRound (radius * radius - dx * dx))
          (sqrtRound (radius * radius - dx * dx))
          (fun i ps => ps ++ [(x - dx, y + i), (x + dx, y + i), (x + i, y - dx), (x + i, y + dx)])
          [])
      (GetDrawColor g color) g []
    rw [SetPixels_nil] at h
    refine (forLoop_congr _ _ _ _ _ ?_).trans (h.trans ?_)
    · intro dx s _ _
      by_cases hd : dx > sqrtRound (radius * radius - dx * dx)
      · simp only [hd, if_true]; rfl
      · simp only [hd, if_false]
        have h2 := forLoop_SetPixels (-sqrtRound (radius * radius - dx * dx))
          (sqrtRound (radius * radius - dx * dx))
          (fun i => [(x - dx, y + i), (x + dx, y + i), (x + i, y - dx), (x + i, y + dx)])
          (GetDrawColor g color) s []
        rw [SetPixels_nil] at h2
        rw [← h2]
        rfl
    · congr 1
      apply forLoop_congr
      intro dx ps _ _
      by_cases hd : dx > sqrtRound (radius * radius - dx * dx)
      · simp only [hd, if_true, List.append_nil]
      · simp only [hd, if_false]
        exact (forLoop_append_init _ _ _ _).symm

theorem mem_DrawCirclePositions (x y radius px py : Int) :
    (px, py) ∈ DrawCirclePositions x y radius ↔
      (radius = 0 ∧ px = x ∧ py = y) ∨
        (radius ≠ 0 ∧ ∃ dx, 0 ≤ dx ∧ dx ≤ radius ∧
          dx ≤ sqrtRound (radius * radius - dx * dx) ∧
          ∃ i, -sqrtRound (radius * radius - dx * dx) ≤ i ∧
            i ≤ sqrtRound (radius * radius - dx * dx) ∧
            (((px = x - dx ∨ px = x + dx) ∧ py = y + i) ∨
              (px = x + i ∧ (py = y - dx ∨ py = y + dx)))) := by
  unfold DrawCirclePositions
  by_cases hr : radius = 0
  · simp [hr]
  · simp only [hr, if_false, false_and, false_or, ne_eq, not_false_eq_true, true_and]
    have e : forLoop 0 radius
        (fun dx ps =>
          if dx > sqrtRound (radius * radius - dx * dx) then ps
          else forLoop (-sqrtRound (radius * radius - dx * dx))
            (sqrtRound (radius * radius - dx * dx))
            (fun i ps => ps ++ [(x - dx, y + i), (x + dx, y + i), (x + i, y - dx),
              (x + i, y + dx)]) ps) [] =
        forLoop 0 radius
          (fun dx ps => ps ++
            (if dx > sqrtRound (radius * radius - dx * dx) then []
            else forLoop (-sqrtRound (radius * radius - dx * dx))
              (sqrtRound (radius * radius - dx * dx))
              (fun i ps => ps ++ [(x - dx, y + i), (x + dx, y + i), (x + i, y - dx),
                (x + i, y + dx)]) [])) [] := by
      apply forLoop_congr
      intro dx ps _ _
      by_cases hd : dx > sqrtRound (radius * radius - dx * dx)
      · simp only [hd, if_true, List.append_nil]
      · simp only [hd, if_false]
        exact forLoop_append_init _ _ _ _
    rw [e, mem_forLoop_append]
    simp only [List.not_mem_nil, false_or]
    constructor
    · rintro ⟨dx, h0, h1, hm⟩
      by_cases hd : dx > sqrtRound (radius * radius - dx * dx)
      · simp [hd] at hm
      · simp only [hd, if_false, mem_forLoop_append, List.not_mem_nil, false_or, List.mem_cons,
          Prod.mk.injEq, or_false] at hm
        obtain ⟨i, hi0, hi1, hm⟩ := hm
        refine ⟨dx, h0, h1, by omega, i, hi0, hi1, ?_⟩
        rcases hm with h | h | h | h <;> simp [h.1, h.2]
    · rintro ⟨dx, h0, h1, hd, i, hi0, hi1, hm⟩
      refine ⟨dx, h0, h1, ?_⟩
      have hd' : ¬ dx > sqrtRound (radius * radius - dx * dx) := by omega
      simp only [hd', if_false, mem_forLoop_append, List.not_mem_nil, false_or, List.mem_cons,
        Prod.mk.injEq, or_false]
      refine ⟨i, hi0, hi1, ?_⟩
      rcases hm with ⟨h1 | h1, h2⟩ | ⟨h1, h2 | h2⟩ <;> simp [h1, h2]

/-- The rounded square root is at least every integer whose square fits. -/
theorem le_sqrtRound (n m : Int) (hm : 0 ≤ m) (h : m * m ≤ n) : m ≤ sqrtRound n := by
  have hn : 0 ≤ n := le_trans (mul_nonneg hm hm) h
  have h1 : m.toNat * m.toNat ≤ n.toNat := by
    have : ((m.toNat * m.toNat : Nat) : Int) ≤ (n.toNat : Int) := by
      push_cast
      rw [Int.toNat_of_nonneg hm, Int.toNat_of_nonneg hn]
      exact h
    exact_mod_cast this
  have h2 : m.toNat ≤ Nat.sqrt n.toNat := Nat.le_sqrt.2 h1
  have h3 : m ≤ (Nat.sqrt n.toNat : Int) := by
    have : (m.toNat : Int) ≤ (Nat.sqrt n.toNat : Int) := by exact_mod_cast h2
    rw [Int.toNat_of_nonneg hm] at this
    exact this
  unfold sqrtRound
  simp only
  split <;> omega

theorem abs_le_of_mul_self_le (a r : Int) (hr : 0 ≤ r) (h : a * a ≤ r * r) : |a| ≤ r := by
  by_contra hlt
  push_neg at hlt
  have h1 : r * r < |a| * |a| := mul_self_lt_mul_self hr hlt
  rw [abs_mul_abs_self] at h1
  omega

/-- Every point of the disc of radius `r ≥ 0` around `(x, y)` is among the
positions `DrawCircle` passes to `SetPixel`. -/
theorem disc_subset_DrawCirclePositions (x y radius px py : Int) (hr : 0 ≤ radius)
    (hdisc : (px - x) * (px - x) + (py - y) * (py - y) ≤ radius * radius) :
    (px, py) ∈ DrawCirclePositions x y radius := by
  rw [mem_DrawCirclePositions]
  have ha2 : 0 ≤ (px - x) * (px - x) := mul_self_nonneg _
  have hb2 : 0 ≤ (py - y) * (py - y) := mul_self_nonneg _
  by_cases hr0 : radius = 0
  · left
    subst hr0
    have h1 : (px - x) * (px - x) = 0 := by omega
    have h2 : (py - y) * (py - y) = 0 := by omega
    have h3 : px - x = 0 := mul_self_eq_zero.mp h1
    have h4 : py - y = 0 := mul_self_eq_zero.mp h2
    exact ⟨rfl, by omega, by omega⟩
  · right
    refine ⟨hr0, ?_⟩
    rcases le_total |px - x| |py - y| with hab | hab
    · -- column `dx = |px - x|`, row offset `i = py - y`
      have hdx : |px - x| ≤ radius := abs_le_of_mul_self_le _ _ hr (by omega)
      have hsq : |py - y| * |py - y| ≤ radius * radius - |px - x| * |px - x| := by
        rw [abs_mul_abs_self, abs_mul_abs_self]; omega
      have hdy := le_sqrtRound _ _ (abs_nonneg (py - y)) hsq
      have hb := abs_le.mp (le_refl |py - y|)
      refine ⟨|px - x|, abs_nonneg _, hdx, le_trans hab hdy, py - y, by omega, by omega, ?_⟩
      left
      refine ⟨?_, by omega⟩
      rcases abs_cases (px - x) with ⟨h, _⟩ | ⟨h, _⟩ <;> omega
    · have hdx : |py - y| ≤ radius := abs_le_of_mul_self_le _ _ hr (by omega)
      have hsq : |px - x| * |px - x| ≤ radius * radius - |py - y| * |py - y| := by
        rw [abs_mul_abs_self, abs_mul_abs_self]; omega
      have hdy := le_sqrtRound _ _ (abs_nonneg (px - x)) hsq
      have ha := abs_le.mp (le_refl |px - x|)
      refine ⟨|py - y|, abs_nonneg _, hdx, le_trans hab hdy, px - x, by omega, by omega, ?_⟩
      right
      refine ⟨by omega, ?_⟩
      rcases abs_cases (py - y) with ⟨h, _⟩ | ⟨h, _⟩ <;> omega

/-- C14: `DrawCircle` fills the full disc.  On a well-formed canvas, for every
center `(x, y)`, radius `r ≥ 0` and color, every pixel `(px, py)` with
`(px-x)^2 + (py-y)^2 ≤ r^2` that lies inside the clip rectangle holds
`palette_table[color]` after `DrawCircle(x, y, r, color)`; skipping the columns
with `dx > dy` leaves no gap (`dy = trunc(sqrt(r*r - dx*dx) + 0.5)`). -/
theorem DrawCircle_fills_disc (g : Graphics) (hwf : WellFormed g) (x y radius color : Int)
    (hr : 0 ≤ radius) (px py : Int) (hin : g.clip_rect.Includes px py = true)
    (hdisc : (px - x) ^ 2 + (py - y) ^ 2 ≤ radius ^ 2) :
    (DrawCircle g x y radius color).pixel px py = readAt g.palette_table color := by
  rw [DrawCircle_eq_SetPixels, SetPixels_pixel g hwf _ _ px py (onScreen_of_includes hwf hin)]
  have hmem := disc_subset_DrawCirclePositions x y radius px py hr
    (by rw [← pow_two, ← pow_two, ← pow_two]; exact hdisc)
  rw [if_pos ⟨hmem, hin⟩]
  rfl

/-- Witness for C14: on the sample canvas the disc of radius 3 around (5,5)
contains (7,7) (since 4 + 4 ≤ 9), which holds the color after `DrawCircle`. -/
theorem DrawCircle_fills_disc_witness :
    (DrawCircle sampleGraphics 5 5 3 3).pixel 7 7 = 3 :=
  DrawCircle_fills_disc sampleGraphics (by decide) 5 5 3 3 (by decide) 7 7 (by decide)
    (by decide)

/-! ## `DrawTilemap` -/

/-- A loop that executes, per index, the steps recorded by `f` does what the
fold over the whole recorded list does. -/
theorem forLoop_foldl {σ α : Type} (step : σ → α → σ) (lo hi : Int) (f : Int → List α)
    (s0 : σ) (l0 : List α) :
    forLoop lo hi (fun i s => (f i).foldl step s) (l0.foldl step s0) =
      (forLoop lo hi (fun i l => l ++ f i) l0).foldl step s0 := by
  unfold forLoop
  generalize List.range (hi + 1 - lo).toNat = ks
  induction ks generalizing l0 with
  | nil => rfl
  | cons k ks ih =>
    rw [List.foldl_cons, List.foldl_cons]
    have e : (fun i s => (f i).foldl step s) (lo + (k : Int)) (l0.foldl step s0) =
        (l0 ++ f (lo + (k : Int))).foldl step s0 := (List.foldl_append _ _ _ _).symm
    rw [e]
    exact ih _

/-- `DrawTilemap` is the sequence of its recorded `DrawImage` calls. -/
theorem DrawTilemap_eq_RunTileCalls (K : Constants) (g : Graphics)
    (x y tilemap_index u v width height color_key : Int) :
    DrawTilemap K g x y tilemap_index u v width height color_key =
      RunTileCalls K g (GetTilemapBank K g tilemap_index).image_index color_key
        (DrawTilemapCalls K (GetTilemapBank K g tilemap_index) x y u v width height) := by
  unfold DrawTilemap DrawTilemapCalls RunTileCalls
  simp only
  generalize (Rectangle.FromPos (-32768) (-32768) 32767 32767).GetCopyArea x y
    (GetTilemapBank K g tilemap_index).Rectangle (Rectangle.FromSize u v width height) = ca
  generalize GetTilemapBank K g tilemap_index = tm
  have hinner : ∀ i (s : Graphics),
      forLoop 0 (ca.width - 1)
        (fun j g' => DrawImage K g' (x + j * K.TILEMAP_CHIP_WIDTH) (y + i * K.TILEMAP_CHIP_HEIGHT)
          tm.image_index
          (Int.tmod (readAt tm.data (tm.width * (ca.src_y + i) + ca.src_x + j))
            (Int.tdiv K.IMAGE_BANK_WIDTH K.TILEMAP_CHIP_WIDTH) * K.TILEMAP_CHIP_WIDTH)
          (Int.tdiv (readAt tm.data (tm.width * (ca.src_y + i) + ca.src_x + j))
            (Int.tdiv K.IMAGE_BANK_HEIGHT K.TILEMAP_CHIP_HEIGHT) * K.TILEMAP_CHIP_HEIGHT)
          K.TILEMAP_CHIP_WIDTH K.TILEMAP_CHIP_HEIGHT color_key) s =
      (forLoop 0 (ca.width - 1)
        (fun j calls => calls ++ [(⟨ca.src_x + j, ca.src_y + i,
          readAt tm.data (tm.width * (ca.src_y + i) + ca.src_x + j),
          x + j * K.TILEMAP_CHIP_WIDTH, y + i * K.TILEMAP_CHIP_HEIGHT⟩ : TileCall)]) []).foldl
        (fun g c => DrawImage K g c.dst_x c.dst_y tm.image_index (TileU K c.value)
          (TileV K c.value) K.TILEMAP_CHIP_WIDTH K.TILEMAP_CHIP_HEIGHT color_key) s := by
    intro i s
    exact forLoop_foldl
      (fun g (c : TileCall) => DrawImage K g c.dst_x c.dst_y tm.image_index (TileU K c.value)
        (TileV K c.value) K.TILEMAP_CHIP_WIDTH K.TILEMAP_CHIP_HEIGHT color_key)
      0 (ca.width - 1)
      (fun j => [(⟨ca.src_x + j, ca.src_y + i,
        readAt tm.data (tm.width * (ca.src_y + i) + ca.src_x + j),
        x + j * K.TILEMAP_CHIP_WIDTH, y + i * K.TILEMAP_CHIP_HEIGHT⟩ : TileCall)]) s []
  have houter := forLoop_foldl
    (fun g (c : TileCall) => DrawImage K g c.dst_x c.dst_y tm.image_index (TileU K c.value)
      (TileV K c.value) K.TILEMAP_CHIP_WIDTH K.TILEMAP_CHIP_HEIGHT color_key)
    0 (ca.height - 1)
    (fun i => forLoop 0 (ca.width - 1)
      (fun j calls => calls ++ [(⟨ca.src_x + j, ca.src_y + i,
        readAt tm.data (tm.width * (ca.src_y + i) + ca.src_x + j),
        x + j * K.TILEMAP_CHIP_WIDTH, y + i * K.TILEMAP_CHIP_HEIGHT⟩ : TileCall)]) [])
    g []
  refine (forLoop_congr _ _ _ _ _ (fun i s _ _ => hinner i s)).trans (houter.trans ?_)
  congr 1
  apply forLoop_congr
  intro i calls _ _
  exact (forLoop_append_init _ _ _ _).symm

/-- What the tile decode of `DrawTilemap` does for every choice of the
constants: `DrawTilemap` hands to `DrawImage`, for a tile value
`t ≥ 0`, the chip window with `u = chip_col * TILEMAP_CHIP_WIDTH` and
`v = chip_row * TILEMAP_CHIP_HEIGHT`, where `chip_col = t mod chips_per_row`
(so `0 ≤ chip_col < chips_per_row`) and `chip_row = t div chips_per_column`,
with `chips_per_row = IMAGE_BANK_WIDTH / TILEMAP_CHIP_WIDTH > 0` and
`chips_per_column = IMAGE_BANK_HEIGHT / TILEMAP_CHIP_HEIGHT`.  When the two
counts are equal this is the row-major decode,
`t = chip_row * chips_per_row + chip_col`, and distinct tile values select
distinct chips. -/
theorem DrawTilemap_tile_decode (K : Constants)
    (hrow : 0 < Int.tdiv K.IMAGE_BANK_WIDTH K.TILEMAP_CHIP_WIDTH) :
    (∀ g x y tilemap_index u v width height color_key,
      DrawTilemap K g x y tilemap_index u v width height color_key =
        RunTileCalls K g (GetTilemapBank K g tilemap_index).image_index color_key
          (DrawTilemapCalls K (GetTilemapBank K g tilemap_index) x y u v width height)) ∧
      (∀ t, 0 ≤ t →
        TileU K t = Int.tmod t (Int.tdiv K.IMAGE_BANK_WIDTH K.TILEMAP_CHIP_WIDTH) *
            K.TILEMAP_CHIP_WIDTH ∧
          TileV K t = Int.tdiv t (Int.tdiv K.IMAGE_BANK_HEIGHT K.TILEMAP_CHIP_HEIGHT) *
            K.TILEMAP_CHIP_HEIGHT ∧
          0 ≤ Int.tmod t (Int.tdiv K.IMAGE_BANK_WIDTH K.TILEMAP_CHIP_WIDTH) ∧
          Int.tmod t (Int.tdiv K.IMAGE_BANK_WIDTH K.TILEMAP_CHIP_WIDTH) <
            Int.tdiv K.IMAGE_BANK_WIDTH K.TILEMAP_CHIP_WIDTH) ∧
      (Int.tdiv K.IMAGE_BANK_HEIGHT K.TILEMAP_CHIP_HEIGHT =
          Int.tdiv K.IMAGE_BANK_WIDTH K.TILEMAP_CHIP_WIDTH →
        (∀ t, 0 ≤ t →
          ∃ chip_col chip_row : Int,
            TileU K t = chip_col * K.TILEMAP_CHIP_WIDTH ∧
              TileV K t = chip_row * K.TILEMAP_CHIP_HEIGHT ∧
              0 ≤ chip_col ∧ chip_col < Int.tdiv K.IMAGE_BANK_WIDTH K.TILEMAP_CHIP_WIDTH ∧
              t = chip_row * Int.tdiv K.IMAGE_BANK_WIDTH K.TILEMAP_CHIP_WIDTH + chip_col) ∧
          (∀ t t', 0 ≤ t → 0 ≤ t' → TileU K t = TileU K t' → TileV K t = TileV K t' →
            t = t')) := by
  refine ⟨fun g x y tilemap_index u v width height color_key =>
      DrawTilemap_eq_RunTileCalls K g x y tilemap_index u v width height color_key,
    fun t ht => ⟨rfl, rfl, Int.tmod_nonneg _ ht, Int.tmod_lt_of_pos _ hrow⟩,
    fun hsq => ⟨fun t ht => ?_, fun t t' ht ht' hu hv => ?_⟩⟩
  · refine ⟨Int.tmod t (Int.tdiv K.IMAGE_BANK_WIDTH K.TILEMAP_CHIP_WIDTH),
      Int.tdiv t (Int.tdiv K.IMAGE_BANK_WIDTH K.TILEMAP_CHIP_WIDTH), rfl, ?_,
      Int.tmod_nonneg _ ht, Int.tmod_lt_of_pos _ hrow, ?_⟩
    · unfold TileV; rw [hsq]
    · have := Int.tdiv_add_tmod t (Int.tdiv K.IMAGE_BANK_WIDTH K.TILEMAP_CHIP_WIDTH)
      rw [mul_comm]; exact this.symm
  · have hcw : K.TILEMAP_CHIP_WIDTH ≠ 0 := by
      intro h0
      rw [h0, Int.tdiv_zero] at hrow
      exact lt_irrefl _ hrow
    have hch : K.TILEMAP_CHIP_HEIGHT ≠ 0 := by
      intro h0
      rw [← hsq, h0, Int.tdiv_zero] at hrow
      exact lt_irrefl _ hrow
    unfold TileU at hu
    unfold TileV at hv
    rw [hsq] at hv
    have h1 := mul_right_cancel₀ hcw hu
    have h2 := mul_right_cancel₀ hch hv
    have e := Int.tdiv_add_tmod t (Int.tdiv K.IMAGE_BANK_WIDTH K.TILEMAP_CHIP_WIDTH)
    have e' := Int.tdiv_add_tmod t' (Int.tdiv K.IMAGE_BANK_WIDTH K.TILEMAP_CHIP_WIDTH)
    rw [← e, ← e', h1, h2]

/-- The tile decode on a square chip grid: with the sample constants (16x16 bank, 8x8
chips, two chips per row and per column) the tile value 3 is decoded to the
chip in column 1 of row 1, `(u, v) = (8, 8)`. -/
theorem DrawTilemap_tile_decode_square_sample :
    TileU sampleConstants 3 = 8 ∧ TileV sampleConstants 3 = 8 ∧
      ∃ chip_col chip_row : Int,
        TileU sampleConstants 3 = chip_col * sampleConstants.TILEMAP_CHIP_WIDTH ∧
          TileV sampleConstants 3 = chip_row * sampleConstants.TILEMAP_CHIP_HEIGHT ∧
          0 ≤ chip_col ∧
          chip_col < Int.tdiv sampleConstants.IMAGE_BANK_WIDTH sampleConstants.TILEMAP_CHIP_WIDTH ∧
          3 = chip_row *
            Int.tdiv sampleConstants.IMAGE_BANK_WIDTH sampleConstants.TILEMAP_CHIP_WIDTH +
            chip_col :=
  ⟨by decide, by decide,
    ((DrawTilemap_tile_decode sampleConstants (by decide)).2.2 (by decide)).1 3 (by decide)⟩

/-- The recorded calls of `DrawTilemap`: one per cell `(src_x + j, src_y + i)`
of the copy area, with destination `(x + j * TILEMAP_CHIP_WIDTH,
y + i * TILEMAP_CHIP_HEIGHT)` counted from the start of the clipped copy area,
not from the requested window. -/
theorem mem_DrawTilemapCalls (K : Constants) (tilemap : Tilemap) (x y u v width height : Int)
    (c : TileCall) :
    c ∈ DrawTilemapCalls K tilemap x y u v width height ↔
      ∃ i j, 0 ≤ i ∧
        i ≤ ((Rectangle.FromPos (-32768) (-32768) 32767 32767).GetCopyArea x y
          tilemap.Rectangle (Rectangle.FromSize u v width height)).height - 1 ∧
        0 ≤ j ∧
        j ≤ ((Rectangle.FromPos (-32768) (-32768) 32767 32767).GetCopyArea x y
          tilemap.Rectangle (Rectangle.FromSize u v width height)).width - 1 ∧
        c = ⟨((Rectangle.FromPos (-32768) (-32768) 32767 32767).GetCopyArea x y
              tilemap.Rectangle (Rectangle.FromSize u v width height)).src_x + j,
            ((Rectangle.FromPos (-32768) (-32768) 32767 32767).GetCopyArea x y
              tilemap.Rectangle (Rectangle.FromSize u v width height)).src_y + i,
            readAt tilemap.data
              (tilemap.width *
                  (((Rectangle.FromPos (-32768) (-32768) 32767 32767).GetCopyArea x y
                    tilemap.Rectangle (Rectangle.FromSize u v width height)).src_y + i) +
                ((Rectangle.FromPos (-32768) (-32768) 32767 32767).GetCopyArea x y
                  tilemap.Rectangle (Rectangle.FromSize u v width height)).src_x + j),
            x + j * K.TILEMAP_CHIP_WIDTH, y + i * K.TILEMAP_CHIP_HEIGHT⟩ := by
  unfold DrawTilemapCalls
  simp only
  generalize (Rectangle.FromPos (-32768) (-32768) 32767 32767).GetCopyArea x y
    tilemap.Rectangle (Rectangle.FromSize u v width height) = ca
  have e : forLoop 0 (ca.height - 1)
      (fun i calls => forLoop 0 (ca.width - 1)
        (fun j calls => calls ++ [(⟨ca.src_x + j, ca.src_y + i,
          readAt tilemap.data (tilemap.width * (ca.src_y + i) + ca.src_x + j),
          x + j * K.TILEMAP_CHIP_WIDTH, y + i * K.TILEMAP_CHIP_HEIGHT⟩ : TileCall)]) calls) [] =
      forLoop 0 (ca.height - 1)
        (fun i calls => calls ++ forLoop 0 (ca.width - 1)
          (fun j calls => calls ++ [(⟨ca.src_x + j, ca.src_y + i,
            readAt tilemap.data (tilemap.width * (ca.src_y + i) + ca.src_x + j),
            x + j * K.TILEMAP_CHIP_WIDTH, y + i * K.TILEMAP_CHIP_HEIGHT⟩ : TileCall)]) []) [] := by
    apply forLoop_congr
    intro i calls _ _
    exact forLoop_append_init _ _ _ _
  rw [e, mem_forLoop_append]
  simp only [List.not_mem_nil, false_or, mem_forLoop_append, List.mem_singleton]
  constructor
  · rintro ⟨i, h1, h2, j, h3, h4, h5⟩
    exact ⟨i, j, h1, h2, h3, h4, h5⟩
  · rintro ⟨i, j, h1, h2, h3, h4, h5⟩
    exact ⟨i, h1, h2, j, h3, h4, h5⟩

/-- For a window that starts at a non-negative cell (and a destination not
below `INT16_MIN`) the copy area cuts nothing on the left and top, and every
recorded call has its destination aligned with the requested window:
`(x + (tu - u) * TILEMAP_CHIP_WIDTH, y + (tv - v) * TILEMAP_CHIP_HEIGHT)`. -/
theorem DrawTilemapCalls_aligned_of_nonneg (K : Constants) (tilemap : Tilemap)
    (x y u v width height : Int) (hu : 0 ≤ u) (hv : 0 ≤ v) (hx : -32768 ≤ x) (hy : -32768 ≤ y)
    (c : TileCall) (hc : c ∈ DrawTilemapCalls K tilemap x y u v width height) :
    c.dst_x = x + (c.tile_u - u) * K.TILEMAP_CHIP_WIDTH ∧
      c.dst_y = y + (c.tile_v - v) * K.TILEMAP_CHIP_HEIGHT := by
  rw [mem_DrawTilemapCalls] at hc
  obtain ⟨i, j, _, _, _, _, rfl⟩ := hc
  simp only [Rectangle.GetCopyArea, Rectangle.FromSize, Rectangle.FromPos, Tilemap.Rectangle]
  have e1 : max (0 : Int) (max (0 - u) (min (-32768) 32767 - x)) = 0 := by omega
  have e2 : max (0 : Int) (max (0 - v) (min (-32768) 32767 - y)) = 0 := by omega
  rw [e1, e2]
  constructor <;> ring

set_option maxRecDepth 100000 in
/-- C16 fails on the code for a window that starts at a negative column:
`DrawTilemap(0, 0, 0, -1, 0, 2, 1, -1)` on the sample canvas requests the cells
(-1,0) and (0,0); only (0,0) lies in the tilemap, and C16 places its chip at
`x + (0 - (-1)) * TILEMAP_CHIP_WIDTH = 8`.  The routine makes one `DrawImage`
call, for the cell (0,0), with destination (0,0): pixel (0,0) takes the chip's
first pixel (1) and pixel (8,0) stays 0. -/
theorem DrawTilemap_negative_window_misaligned :
    DrawTilemapCalls sampleConstants (GetTilemapBank sampleConstants sampleGraphics 0)
        0 0 (-1) 0 2 1 = [⟨0, 0, 0, 0, 0⟩] ∧
      sampleGraphics.pixel 0 0 = 0 ∧
      (DrawTilemap sampleConstants sampleGraphics 0 0 0 (-1) 0 2 1 (-1)).pixel 0 0 = 1 ∧
      (DrawTilemap sampleConstants sampleGraphics 0 0 0 (-1) 0 2 1 (-1)).pixel 8 0 = 0 := by
  refine ⟨by decide, by decide, by decide, by decide⟩

/-! ## `DrawText`: skipped characters -/

theorem DrawTextLoop_removeSkipped (K : Constants) (left : Int) (text : List Int) (x y : Int)
    (g : Graphics) :
    DrawTextLoop K left (removeSkipped K text) x y g = DrawTextLoop K left text x y g := by
  induction text generalizing x y g with
  | nil => rfl
  | cons ch rest ih =>
    unfold removeSkipped at ih ⊢
    by_cases hskip : ch ≠ 10 ∧ ch ≠ 32 ∧ (ch < K.MIN_FONT_CODE ∨ ch > K.MAX_FONT_CODE)
    · rw [List.filter_cons_of_neg (by rw [decide_eq_true_iff]; exact not_not.mpr hskip), ih]
      conv_rhs => unfold DrawTextLoop
      rw [if_neg hskip.1, if_neg hskip.2.1, if_pos hskip.2.2]
    · rw [List.filter_cons_of_pos (by rw [decide_eq_true_iff]; exact hskip)]
      unfold DrawTextLoop
      simp only [ih]

/-- The characters `DrawText` skips are invisible, for every choice of the
font range.  `DrawText(x, y, text, c)` gives the same canvas state as
`DrawText` of `text` with every character removed that is not a newline (10),
not a space (32), and whose code is below `MIN_FONT_CODE` or above
`MAX_FONT_CODE`; when the space is a supported code
(`MIN_FONT_CODE ≤ 32 ≤ MAX_FONT_CODE`) the exemption of the space is empty and
the same holds for `removeUnsupported`. -/
theorem DrawText_skipped_invisible (K : Constants) (g : Graphics) (x y : Int)
    (text : List Int) (color : Int) :
    DrawText K g x y (removeSkipped K text) color = DrawText K g x y text color ∧
      (K.MIN_FONT_CODE ≤ 32 ∧ 32 ≤ K.MAX_FONT_CODE →
        DrawText K g x y (removeUnsupported K text) color = DrawText K g x y text color) := by
  have h : DrawText K g x y (removeSkipped K text) color = DrawText K g x y text color := by
    unfold DrawText
    simp only [DrawTextLoop_removeSkipped]
  refine ⟨h, fun hsp => ?_⟩
  have e : removeUnsupported K text = removeSkipped K text := by
    unfold removeUnsupported removeSkipped
    apply List.filter_congr
    intro ch _
    congr 1
    apply propext
    constructor
    · intro h1 h2; exact h1 ⟨h2.1, h2.2.2⟩
    · intro h1 h2
      apply h1
      refine ⟨h2.1, ?_, h2.2⟩
      rintro rfl
      omega
  rw [e, h]

/-! ## `DrawLine` as a list of `SetPixel` calls -/

theorem DrawLine_eq_SetPixels (g : Graphics) (x1 y1 x2 y2 color : Int) :
    DrawLine g x1 y1 x2 y2 color =
      SetPixels g (DrawLinePositions x1 y1 x2 y2) (GetDrawColor g color) := by
  have hx : ∀ sx sy ex ey : Int, DrawLineXMajor g sx sy ex ey (GetDrawColor g color) =
      SetPixels g (forLoop 0 (ex - sx + 1 - 1)
        (fun i ps => ps ++ [(sx + i, truncToInt (f32Add (f32Add (f32OfInt sy)
          (f32Mul (f32Div (f32OfInt (ey - sy)) (f32OfInt (ex - sx))) (f32OfInt i))) (1 / 2)))]) [])
        (GetDrawColor g color) := by
    intro sx sy ex ey
    have h := forLoop_SetPixels 0 (ex - sx + 1 - 1)
      (fun i => [(sx + i, truncToInt (f32Add (f32Add (f32OfInt sy)
          (f32Mul (f32Div (f32OfInt (ey - sy)) (f32OfInt (ex - sx))) (f32OfInt i))) (1 / 2)))])
      (GetDrawColor g color) g []
    rw [SetPixels_nil] at h
    rw [← h]
    rfl
  have hy : ∀ sx sy ex ey : Int, DrawLineYMajor g sx sy ex ey (GetDrawColor g color) =
      SetPixels g (forLoop 0 (ey - sy + 1 - 1)
        (fun i ps => ps ++ [(truncToInt (f32Add (f32Add (f32OfInt sx)
          (f32Mul (f32Div (f32OfInt (ex - sx)) (f32OfInt (ey - sy))) (f32OfInt i))) (1 / 2)), sy + i)]) [])
        (GetDrawColor g color) := by
    intro sx sy ex ey
    have h := forLoop_SetPixels 0 (ey - sy + 1 - 1)
      (fun i => [(truncToInt (f32Add (f32Add (f32OfInt sx)
          (f32Mul (f32Div (f32OfInt (ex - sx)) (f32OfInt (ey - sy))) (f32OfInt i))) (1 / 2)), sy + i)])
      (GetDrawColor g color) g []
    rw [SetPixels_nil] at h
    rw [← h]
    rfl
  unfold DrawLine DrawLinePositions
  simp only
  by_cases heq : x1 = x2 ∧ y1 = y2
  · rw [if_pos heq, if_pos heq]; rfl
  · rw [if_neg heq, if_neg heq]
    by_cases hmajor : |x1 - x2| > |y1 - y2|
    · rw [if_pos hmajor, if_pos hmajor]
      by_cases hlt : x1 < x2
      · simp only [hlt, if_true]; exact hx x1 y1 x2 y2
      · simp only [hlt, if_false]; exact hx x2 y2 x1 y1
    · rw [if_neg hmajor, if_neg hmajor]
      by_cases hlt : y1 < y2
      · simp only [hlt, if_true]; exact hy x1 y1 x2 y2
      · simp only [hlt, if_false]; exact hy x2 y2 x1 y1

/-! ## The clip rectangle stays inside the screen -/

theorem SameShape.ss_refl (g : Graphics) : SameShape g g := ⟨rfl, rfl, rfl⟩

theorem SameShape.ss_trans {g1 g2 g3 : Graphics} (h12 : SameShape g1 g2)
    (h23 : SameShape g2 g3) : SameShape g1 g3 :=
  ⟨h23.1.trans h12.1, h23.2.1.trans h12.2.1, h23.2.2.trans h12.2.2⟩

theorem SameShape.ss_of_screenOnly {g g' : Graphics} (h : ScreenOnly g g') : SameShape g g' :=
  ⟨h.1, h.2.1, h.2.2.2.2.2.1⟩

theorem SameShape.clipInScreen {g g' : Graphics} (h : SameShape g g') (hc : ClipInScreen g) :
    ClipInScreen g' := by
  unfold ClipInScreen at *
  rw [h.1, h.2.1, h.2.2]
  exact hc

theorem DrawRectangle_sameShape (g : Graphics) (x1 y1 x2 y2 color : Int) :
    SameShape g (DrawRectangle g x1 y1 x2 y2 color) := by
  unfold DrawRectangle
  simp only
  split
  · exact SameShape.ss_refl g
  · exact ⟨rfl, rfl, rfl⟩

theorem DrawImage_sameShape (K : Constants) (g : Graphics)
    (x y image_index u v width height color_key : Int) :
    SameShape g (DrawImage K g x y image_index u v width height color_key) := by
  unfold DrawImage
  simp only
  repeat' split
  all_goals exact ⟨rfl, rfl, rfl⟩

theorem RunTileCalls_sameShape (K : Constants) (g : Graphics) (image_index color_key : Int)
    (calls : List TileCall) : SameShape g (RunTileCalls K g image_index color_key calls) := by
  induction calls generalizing g with
  | nil => exact SameShape.ss_refl g
  | cons c cs ih => exact (DrawImage_sameShape K g _ _ _ _ _ _ _ _).ss_trans (ih _)

theorem DrawTextLoop_sameShape (K : Constants) (left : Int) (text : List Int) (x y : Int)
    (g : Graphics) : SameShape g (DrawTextLoop K left text x y g) := by
  induction text generalizing x y g with
  | nil => exact SameShape.ss_refl g
  | cons ch rest ih =>
    unfold DrawTextLoop
    split
    · exact ih _ _ _
    · split
      · exact ih _ _ _
      · split
        · exact ih _ _ _
        · exact (DrawImage_sameShape K g _ _ _ _ _ _ _ _).ss_trans (ih _ _ _)

theorem DrawText_sameShape (K : Constants) (g : Graphics) (x y : Int) (text : List Int)
    (color : Int) : SameShape g (DrawText K g x y text color) := by
  have h := DrawTextLoop_sameShape K x text x y
    ⟨g.screen_image, g.image_bank, g.tilemap_bank, g.clip_rect,
      writeAt g.palette_table K.FONT_COLOR (GetDrawColor g color)⟩
  exact ⟨h.1, h.2.1, h.2.2⟩

theorem SetPalette_sameShape (K : Constants) (g : Graphics) (src_color dst_color : Int) :
    SameShape g (SetPalette K g src_color dst_color) := by
  unfold SetPalette
  repeat' split
  all_goals exact ⟨rfl, rfl, rfl⟩

theorem SetClippingArea_clipInScreen (g : Graphics) (x1 y1 x2 y2 : Int) :
    ClipInScreen (SetClippingArea g x1 y1 x2 y2) := by
  right
  simp only [SetClippingArea, Rectangle.Intersect, Rectangle.FromPos, Image.Rectangle,
    Rectangle.FromSize]
  omega

theorem ResetClippingArea_clipInScreen (g : Graphics) : ClipInScreen (ResetClippingArea g) := by
  right
  simp only [ResetClippingArea, Image.Rectangle, Rectangle.FromSize]
  omega

/-- Every reachable canvas state has its clip rectangle empty or inside the
screen rectangle. -/
theorem Reachable_clipInScreen (K : Constants) (width height : Int) (g : Graphics)
    (hr : Reachable K width height g) : ClipInScreen g := by
  induction hr with
  | init =>
    have h : SameShape (ResetClippingArea (SetupFont K (SetupMouseCursor K
        ⟨Image.new width height,
          List.replicate K.IMAGE_BANK_COUNT.toNat
            (Image.new K.IMAGE_BANK_WIDTH K.IMAGE_BANK_HEIGHT),
          List.replicate K.TILEMAP_BANK_COUNT.toNat
            (Tilemap.new K.TILEMAP_BANK_WIDTH K.TILEMAP_BANK_HEIGHT),
          ⟨0, 0, 0, 0⟩, List.replicate K.COLOR_COUNT.toNat 0⟩)))
        (Graphics.new K width height) := ⟨rfl, rfl, rfl⟩
    exact h.clipInScreen (ResetClippingArea_clipInScreen _)
  | setClippingArea x1 y1 x2 y2 _ _ => exact SetClippingArea_clipInScreen _ x1 y1 x2 y2
  | resetClippingArea _ _ => exact ResetClippingArea_clipInScreen _
  | setPalette s d _ ih => exact (SetPalette_sameShape K _ s d).clipInScreen ih
  | resetPalette _ ih => exact SameShape.clipInScreen ⟨rfl, rfl, rfl⟩ ih
  | clear c _ ih => exact SameShape.clipInScreen ⟨rfl, rfl, rfl⟩ ih
  | drawPoint x y c _ ih =>
    exact (SameShape.ss_of_screenOnly (SetPixel_screenOnly _ x y _)).clipInScreen ih
  | drawLine x1 y1 x2 y2 c _ ih =>
    rw [DrawLine_eq_SetPixels]
    exact (SameShape.ss_of_screenOnly (SetPixels_screenOnly _ _ _)).clipInScreen ih
  | drawRectangle x1 y1 x2 y2 c _ ih =>
    exact (DrawRectangle_sameShape _ x1 y1 x2 y2 c).clipInScreen ih
  | drawRectangleBorder x1 y1 x2 y2 c _ ih =>
    rw [DrawRectangleBorder_eq_pixelByPixel, DrawRectangleBorderPixelByPixel_eq]
    exact (SameShape.ss_of_screenOnly (SetPixels_screenOnly _ _ _)).clipInScreen ih
  | drawCircle x y r c _ ih =>
    rw [DrawCircle_eq_SetPixels]
    exact (SameShape.ss_of_screenOnly (SetPixels_screenOnly _ _ _)).clipInScreen ih
  | drawCircleBorder x y r c _ ih =>
    rw [DrawCircleBorder_eq_SetPixels]
    exact (SameShape.ss_of_screenOnly (SetPixels_screenOnly _ _ _)).clipInScreen ih
  | drawImage x y i u v w h k _ ih =>
    exact (DrawImage_sameShape K _ x y i u v w h k).clipInScreen ih
  | drawTilemap x y i u v w h k _ ih =>
    rw [DrawTilemap_eq_RunTileCalls]
    exact (RunTileCalls_sameShape K _ _ _ _).clipInScreen ih
  | drawText x y text c _ ih => exact (DrawText_sameShape K _ x y text c).clipInScreen ih

theorem Clear_length (g : Graphics) (color : Int) :
    (Clear g color).screen_image.data.length = g.screen_image.data.length := by
  unfold Clear
  simp only [withScreenData_data]
  exact forLoop_invariant (fun (d : List Int) => d.length = g.screen_image.data.length) _ _ _ _ rfl
    (fun i d _ _ hd => by
      show (writeAt _ _ _).length = _
      rw [length_writeAt]; exact hd)

theorem Clear_wellFormed (g : Graphics) (color : Int) (hwf : WellFormed g) :
    WellFormed (Clear g color) := by
  obtain ⟨h1, h2, h3, h4⟩ := hwf
  refine ⟨h1, h2, ?_, h4⟩
  rw [Clear_length]
  exact h3

theorem Graphics_new_wellFormed (K : Constants) (width height : Int) (hw : 0 ≤ width)
    (hh : 0 ≤ height) : WellFormed (Graphics.new K width height) := by
  refine ⟨hw, hh, ?_, Reachable_clipInScreen K width height _ Reachable.init⟩
  have hlen : (Graphics.new K width height).screen_image.data.length =
      (width * height).toNat := by
    unfold Graphics.new
    simp only
    rw [Clear_length]
    simp [ResetPalette, ResetClippingArea, SetupFont, SetupMouseCursor, Image.new]
  rw [hlen]
  have : 0 ≤ width * height := mul_nonneg hw hh
  show ((width * height).toNat : Int) = width * height
  omega

/-- On a canvas of non-negative dimensions every reachable state is
well-formed. -/
theorem Reachable_wellFormed (K : Constants) (width height : Int) (hw : 0 ≤ width)
    (hh : 0 ≤ height) (g : Graphics) (hr : Reachable K width height g) : WellFormed g := by
  induction hr with
  | init => exact Graphics_new_wellFormed K width height hw hh
  | setClippingArea x1 y1 x2 y2 _ ih =>
    exact ⟨ih.1, ih.2.1, ih.2.2.1, SetClippingArea_clipInScreen _ x1 y1 x2 y2⟩
  | resetClippingArea _ ih =>
    exact ⟨ih.1, ih.2.1, ih.2.2.1, ResetClippingArea_clipInScreen _⟩
  | setPalette s d _ ih =>
    unfold SetPalette
    repeat' split
    all_goals exact ih
  | resetPalette _ ih => exact ih
  | clear c _ ih => exact Clear_wellFormed _ c ih
  | drawPoint x y c _ ih => exact (SetPixel_framed ih x y _).fr_wellFormed ih
  | drawLine x1 y1 x2 y2 c _ ih => exact (DrawLine_framed ih x1 y1 x2 y2 c).fr_wellFormed ih
  | drawRectangle x1 y1 x2 y2 c _ ih =>
    exact (DrawRectangle_framed ih x1 y1 x2 y2 c).fr_wellFormed ih
  | drawRectangleBorder x1 y1 x2 y2 c _ ih =>
    exact (DrawRectangleBorder_framed ih x1 y1 x2 y2 c).fr_wellFormed ih
  | drawCircle x y r c _ ih => exact (DrawCircle_framed ih x y r c).fr_wellFormed ih
  | drawCircleBorder x y r c _ ih => exact (DrawCircleBorder_framed ih x y r c).fr_wellFormed ih
  | drawImage x y i u v w h k _ ih =>
    exact (DrawImage_framed K ih x y i u v w h k).fr_wellFormed ih
  | drawTilemap x y i u v w h k _ ih =>
    exact (DrawTilemap_framed K ih x y i u v w h k).fr_wellFormed ih
  | drawText x y text c _ ih => exact (DrawText_framed K ih x y text c).fr_wellFormed ih

/-- C18: the clip rectangle never leaves the screen.  In every state reachable
from the constructor by `SetClippingArea`, `ResetClippingArea`, the palette
calls and the draw calls, the clip rectangle is empty or contained in the
screen rectangle `[0, width-1] x [0, height-1]`; hence every index
`width * row + col` that `DrawRectangle` writes (rows and columns of the
clipped rectangle) lies in `[0, width * height)`; and for a canvas built with
non-negative dimensions the state is well-formed, so `width * height` is the
size of the screen buffer. -/
theorem clip_rect_never_leaves_screen (K : Constants) (width height : Int) (g : Graphics)
    (hr : Reachable K width height g) :
    ClipInScreen g ∧
      (∀ x1 y1 x2 y2 row col,
        ((Rectangle.FromPos x1 y1 x2 y2).Intersect g.clip_rect).IsEmpty = false →
        ((Rectangle.FromPos x1 y1 x2 y2).Intersect g.clip_rect).top ≤ row →
        row ≤ ((Rectangle.FromPos x1 y1 x2 y2).Intersect g.clip_rect).bottom →
        ((Rectangle.FromPos x1 y1 x2 y2).Intersect g.clip_rect).left ≤ col →
        col ≤ ((Rectangle.FromPos x1 y1 x2 y2).Intersect g.clip_rect).right →
        0 ≤ g.screen_image.width * row + col ∧
          g.screen_image.width * row + col < g.screen_image.width * g.screen_image.height) ∧
      (0 ≤ width → 0 ≤ height → WellFormed g) := by
  have hclip := Reachable_clipInScreen K width height g hr
  refine ⟨hclip, fun x1 y1 x2 y2 row col hne h1 h2 h3 h4 => ?_,
    fun hw hh => Reachable_wellFormed K width height hw hh g hr⟩
  simp only [Rectangle.Intersect, Rectangle.FromPos] at h1 h2 h3 h4
  have hin : 0 ≤ g.clip_rect.left ∧ g.clip_rect.right ≤ g.screen_image.width - 1 ∧
      0 ≤ g.clip_rect.top ∧ g.clip_rect.bottom ≤ g.screen_image.height - 1 := by
    rcases hclip with he | hin
    · rw [IsEmpty_iff] at he; omega
    · exact hin
  exact index_bounds _ _ col row (by omega) (by omega) (by omega) (by omega)

/-- Witness for C18: after the constructor for a 10x10 canvas,
`SetClippingArea(-3, -3, 4, 4)` and a `DrawPoint`, the clip rectangle is
(0,0,4,4), inside the screen, and the canvas is well-formed. -/
theorem clip_rect_never_leaves_screen_witness :
    ClipInScreen (DrawPoint (SetClippingArea (Graphics.new sampleConstants 10 10)
        (-3) (-3) 4 4) 1 1 3) ∧
      (DrawPoint (SetClippingArea (Graphics.new sampleConstants 10 10)
        (-3) (-3) 4 4) 1 1 3).clip_rect = ⟨0, 0, 4, 4⟩ ∧
      WellFormed (DrawPoint (SetClippingArea (Graphics.new sampleConstants 10 10)
        (-3) (-3) 4 4) 1 1 3) :=
  ⟨(clip_rect_never_leaves_screen sampleConstants 10 10 _
      (Reachable.drawPoint 1 1 3 (Reachable.setClippingArea (-3) (-3) 4 4 Reachable.init))).1,
    by decide,
    (clip_rect_never_leaves_screen sampleConstants 10 10 _
      (Reachable.drawPoint 1 1 3 (Reachable.setClippingArea (-3) (-3) 4 4 Reachable.init))).2.2
      (by decide) (by decide)⟩

/-! ## Truncation toward zero over the rationals -/

theorem truncToInt_of_nonneg (q : ℚ) (h : 0 ≤ q) : truncToInt q = ⌊q⌋ := by
  unfold truncToInt
  rw [Int.tdiv_eq_ediv (Rat.num_nonneg.mpr h) (by positivity), Rat.floor_def]

theorem truncToInt_of_neg (q : ℚ) (h : q < 0) : truncToInt q = ⌈q⌉ := by
  have h' : truncToInt (-q) = ⌊-q⌋ := truncToInt_of_nonneg (-q) (by linarith)
  have e : truncToInt q = - truncToInt (-q) := by
    unfold truncToInt
    rw [Rat.num_neg_eq_neg_num, Rat.den_neg_eq_den, Int.neg_tdiv, neg_neg]
  rw [e, h', Int.floor_neg, neg_neg]

theorem truncToInt_mono (q r : ℚ) (h : q ≤ r) : truncToInt q ≤ truncToInt r := by
  by_cases hq : 0 ≤ q
  · rw [truncToInt_of_nonneg q hq, truncToInt_of_nonneg r (le_trans hq h)]
    exact Int.floor_mono h
  · push_neg at hq
    by_cases hr : 0 ≤ r
    · rw [truncToInt_of_neg q hq, truncToInt_of_nonneg r hr]
      have h1 : ⌈q⌉ ≤ 0 := Int.ceil_le.mpr (by exact_mod_cast hq.le)
      have h2 : 0 ≤ ⌊r⌋ := Int.floor_nonneg.mpr hr
      omega
    · push_neg at hr
      rw [truncToInt_of_neg q hq, truncToInt_of_neg r hr]
      exact Int.ceil_mono h

theorem truncToInt_add_one_le (q : ℚ) : truncToInt (q + 1) ≤ truncToInt q + 1 := by
  by_cases hq : 0 ≤ q
  · rw [truncToInt_of_nonneg q hq, truncToInt_of_nonneg (q + 1) (by linarith), Int.floor_add_one]
  · push_neg at hq
    by_cases hr : 0 ≤ q + 1
    · rw [truncToInt_of_neg q hq, truncToInt_of_nonneg (q + 1) hr]
      have h1 : ⌊q + 1⌋ ≤ 0 := by
        have : ⌊q + 1⌋ < 1 := Int.floor_lt.mpr (by push_cast; linarith)
        omega
      have h2 : -1 ≤ ⌈q⌉ := by
        have : ((-1 : Int) : ℚ) ≤ q := by push_cast; linarith
        exact Int.le_ceil_iff.mpr (by push_cast; linarith)
      omega
    · push_neg at hr
      rw [truncToInt_of_neg q hq, truncToInt_of_neg (q + 1) hr, Int.ceil_add_one]

/-- Two values at most one apart truncate to integers at most one apart. -/
theorem truncToInt_close (q r : ℚ) (h1 : q - 1 ≤ r) (h2 : r ≤ q + 1) :
    |truncToInt r - truncToInt q| ≤ 1 := by
  rw [abs_le]
  by_cases h : q ≤ r
  · have a := truncToInt_mono q r h
    have b := truncToInt_mono r (q + 1) h2
    have c := truncToInt_add_one_le q
    constructor <;> omega
  · push_neg at h
    have a := truncToInt_mono r q h.le
    have b := truncToInt_mono q (r + 1) (by linarith)
    have c := truncToInt_add_one_le r
    constructor <;> omega

/-! ## Recorded loops of single positions -/

theorem forLoop_singletons {α : Type} (lo hi : Int) (f : Int → α) :
    forLoop lo hi (fun i ps => ps ++ [f i]) [] =
      (List.range (hi + 1 - lo).toNat).map (fun (k : Nat) => f (lo + (k : Int))) := by
  unfold forLoop
  generalize List.range (hi + 1 - lo).toNat = ks
  have key : ∀ (init : List α), ks.foldl (fun s (k : Nat) => s ++ [f (lo + (k : Int))]) init =
      init ++ ks.map (fun (k : Nat) => f (lo + (k : Int))) := by
    induction ks with
    | nil => intro init; simp
    | cons k ks ih => intro init; rw [List.foldl_cons, ih]; simp
  simpa using key []

/-! ## `DrawLine`: the positions of one branch -/

/-- The shape of the position list of `DrawLine` for distinct endpoints: with
`(s, t)` the major and minor coordinate of the start point and `(e, u)` those
of the end point after ordering, the list is the `e - s + 1` positions of
major coordinate `s, s+1, .., e`. -/
theorem DrawLinePositions_shape (x1 y1 x2 y2 : Int) (hne : ¬ (x1 = x2 ∧ y1 = y2)) :
    (|x1 - x2| > |y1 - y2| ∧ ∃ s t e u : Int,
        ((s = x1 ∧ t = y1 ∧ e = x2 ∧ u = y2) ∨ (s = x2 ∧ t = y2 ∧ e = x1 ∧ u = y1)) ∧
        s < e ∧ |u - t| ≤ e - s ∧ e - s = max |x1 - x2| |y1 - y2| ∧ s = min x1 x2 ∧
        DrawLinePositions x1 y1 x2 y2 = (List.range (e - s + 1).toNat).map
          (fun (k : Nat) => (s + (k : Int), truncToInt (f32Add (f32Add (f32OfInt t)
          (f32Mul (f32Div (f32OfInt (u - t)) (f32OfInt (e - s))) (f32OfInt (k : Int)))) (1 / 2))))) ∨
    (¬ |x1 - x2| > |y1 - y2| ∧ ∃ s t e u : Int,
        ((s = y1 ∧ t = x1 ∧ e = y2 ∧ u = x2) ∨ (s = y2 ∧ t = x2 ∧ e = y1 ∧ u = x1)) ∧
        s < e ∧ |u - t| ≤ e - s ∧ e - s = max |x1 - x2| |y1 - y2| ∧ s = min y1 y2 ∧
        DrawLinePositions x1 y1 x2 y2 = (List.range (e - s + 1).toNat).map
          (fun (k : Nat) => (truncToInt (f32Add (f32Add (f32OfInt t)
          (f32Mul (f32Div (f32OfInt (u - t)) (f32OfInt (e - s))) (f32OfInt (k : Int)))) (1 / 2)),
            s + (k : Int)))) := by
  have hform : ∀ (s e : Int) (f : Int → Int × Int),
      forLoop 0 (e - s + 1 - 1) (fun i ps => ps ++ [f i]) [] =
        (List.range (e - s + 1).toNat).map (fun (k : Nat) => f (k : Int)) := by
    intro s e f
    rw [forLoop_singletons]
    have h1 : e - s + 1 - 1 + 1 - 0 = e - s + 1 := by ring
    rw [h1]
    simp only [zero_add]
  by_cases hmaj : |x1 - x2| > |y1 - y2|
  · left
    refine ⟨hmaj, ?_⟩
    by_cases hlt : x1 < x2
    · refine ⟨x1, y1, x2, y2, Or.inl ⟨rfl, rfl, rfl, rfl⟩, hlt, ?_, ?_, ?_, ?_⟩
      · simp only [abs_eq_max_neg] at *; omega
      · simp only [abs_eq_max_neg] at *; omega
      · omega
      · unfold DrawLinePositions
        simp only [if_neg hne, if_pos hmaj, if_pos hlt]
        exact hform x1 x2 _
    · refine ⟨x2, y2, x1, y1, Or.inr ⟨rfl, rfl, rfl, rfl⟩, ?_, ?_, ?_, ?_, ?_⟩
      · simp only [abs_eq_max_neg] at *; omega
      · simp only [abs_eq_max_neg] at *; omega
      · simp only [abs_eq_max_neg] at *; omega
      · omega
      · unfold DrawLinePositions
        simp only [if_neg hne, if_pos hmaj, if_neg hlt]
        exact hform x2 x1 _
  · right
    refine ⟨hmaj, ?_⟩
    by_cases hlt : y1 < y2
    · refine ⟨y1, x1, y2, x2, Or.inl ⟨rfl, rfl, rfl, rfl⟩, hlt, ?_, ?_, ?_, ?_⟩
      · simp only [abs_eq_max_neg] at *; omega
      · simp only [abs_eq_max_neg] at *; omega
      · omega
      · unfold DrawLinePositions
        simp only [if_neg hne, if_neg hmaj, if_pos hlt]
        exact hform y1 y2 _
    · refine ⟨y2, x2, y1, x1, Or.inr ⟨rfl, rfl, rfl, rfl⟩, ?_, ?_, ?_, ?_, ?_⟩
      · simp only [abs_eq_max_neg] at *; omega
      · simp only [abs_eq_max_neg] at *; omega
      · simp only [abs_eq_max_neg] at *; omega
      · omega
      · unfold DrawLinePositions
        simp only [if_neg hne, if_neg hmaj, if_neg hlt]
        exact hform y2 y1 _

theorem getElem?_map_range {α : Type} (n : Nat) (F : Nat → α) (i : Nat) (p : α)
    (h : ((List.range n).map F)[i]? = some p) : i < n ∧ p = F i := by
  rw [List.getElem?_map] at h
  by_cases hi : i < n
  · rw [List.getElem?_range hi] at h
    simp at h
    exact ⟨hi, h.symm⟩
  · rw [List.getElem?_eq_none (by simpa using hi)] at h
    simp at h

/-! ## The glyph word of `SetupFont` -/

theorem and_bit23_ne_zero (y : Nat) : (y &&& 0x800000 ≠ 0) ↔ y.testBit 23 = true := by
  have h : (0x800000 : Nat) = 2 ^ 23 := by norm_num
  rw [h]
  constructor
  · intro hne
    by_contra hb
    apply hne
    apply Nat.eq_of_testBit_eq
    intro i
    rw [Nat.testBit_and, Nat.testBit_two_pow, Nat.zero_testBit]
    by_cases hi : 23 = i
    · subst hi; simp at hb; simp [hb]
    · simp [hi]
  · intro hb hz
    have := congrArg (fun z => Nat.testBit z 23) hz
    simp only [Nat.testBit_and, Nat.testBit_two_pow, Nat.zero_testBit, hb] at this
    simp at this

theorem font_shift_step (font p : Nat) :
    (((font <<< p) % 2 ^ 32) <<< 1) % 2 ^ 32 = (font <<< (p + 1)) % 2 ^ 32 := by
  rw [Nat.shiftLeft_eq, Nat.shiftLeft_eq, Nat.shiftLeft_eq]
  have e : font * 2 ^ (p + 1) = font * 2 ^ p * 2 := by rw [Nat.pow_succ, Nat.mul_assoc]
  rw [e]
  generalize font * 2 ^ p = x
  norm_num

/-- The test `font & 0x800000` after `n` shifts reads bit `23 - n` of the
original glyph word (no bit once 24 pixels have been produced). -/
theorem font_shift_bit (font n : Nat) :
    (((font <<< n) % 2 ^ 32) &&& 0x800000 ≠ 0) ↔ (n ≤ 23 ∧ font.testBit (23 - n) = true) := by
  rw [and_bit23_ne_zero, Nat.testBit_mod_two_pow, Nat.testBit_shiftLeft]
  simp

/-- The value `SetupFont` stores when the running glyph word agrees, modulo
`2^32`, with the original word shifted `n` times. -/
theorem font_test_glyphBit (K : Constants) (font w n : Nat)
    (hw : w % 2 ^ 32 = (font <<< n) % 2 ^ 32) :
    (if w &&& 0x800000 ≠ 0 then K.FONT_COLOR else 0) = glyphBit K font (n : Int) := by
  have h1 : (w &&& 0x800000 ≠ 0) ↔ (n ≤ 23 ∧ font.testBit (23 - n) = true) := by
    rw [← font_shift_bit, and_bit23_ne_zero, and_bit23_ne_zero, ← hw, Nat.testBit_mod_two_pow]
    simp
  unfold glyphBit
  have h2 : ((n : Int) ≤ 23 ∧ font.testBit (23 - (n : Int)).toNat = true) ↔
      (n ≤ 23 ∧ font.testBit (23 - n) = true) := by
    have e : (23 - (n : Int)).toNat = 23 - n := by omega
    rw [e]
    constructor
    · rintro ⟨a, b⟩; exact ⟨by omega, b⟩
    · rintro ⟨a, b⟩; exact ⟨by omega, b⟩
  by_cases h : n ≤ 23 ∧ font.testBit (23 - n) = true
  · rw [if_pos (h1.mpr h), if_pos (h2.mpr h)]
  · rw [if_neg (fun c => h (h1.mp c)), if_neg (fun c => h (h2.mp c))]

theorem font_word_step (font w n : Nat) (hw : w % 2 ^ 32 = (font <<< n) % 2 ^ 32) :
    ((w <<< 1) % 2 ^ 32) % 2 ^ 32 = (font <<< (n + 1)) % 2 ^ 32 := by
  rw [← font_shift_step font n, ← hw]
  rw [Nat.shiftLeft_eq, Nat.shiftLeft_eq]
  norm_num

/-- One row of one glyph of `SetupFont`, exactly: the column loop stores the
pixel values `n, n+1, ..` of the glyph at `index, index+1, ..` and leaves every
other entry as it was. -/
theorem SetupFont_row_exact (K : Constants) (hFW : 0 ≤ K.FONT_WIDTH) (font n : Nat)
    (st : List Int × Int × Nat) (hw : st.2.2 % 2 ^ 32 = (font <<< n) % 2 ^ 32) :
    (forLoop 0 (K.FONT_WIDTH - 1)
      (fun k (st : List Int × Int × Nat) =>
        (writeAt st.1 (st.2.1 + k) (if st.2.2 &&& 0x800000 ≠ 0 then K.FONT_COLOR else 0),
          st.2.1, (st.2.2 <<< 1) % 2 ^ 32)) st).2.1 = st.2.1 ∧
    (forLoop 0 (K.FONT_WIDTH - 1)
      (fun k (st : List Int × Int × Nat) =>
        (writeAt st.1 (st.2.1 + k) (if st.2.2 &&& 0x800000 ≠ 0 then K.FONT_COLOR else 0),
          st.2.1, (st.2.2 <<< 1) % 2 ^ 32)) st).2.2 % 2 ^ 32 =
        (font <<< (n + K.FONT_WIDTH.toNat)) % 2 ^ 32 ∧
    (forLoop 0 (K.FONT_WIDTH - 1)
      (fun k (st : List Int × Int × Nat) =>
        (writeAt st.1 (st.2.1 + k) (if st.2.2 &&& 0x800000 ≠ 0 then K.FONT_COLOR else 0),
          st.2.1, (st.2.2 <<< 1) % 2 ^ 32)) st).1.length = st.1.length ∧
    (∀ k, 0 ≤ k → k < K.FONT_WIDTH → 0 ≤ st.2.1 + k → st.2.1 + k < (st.1.length : Int) →
      readAt (forLoop 0 (K.FONT_WIDTH - 1)
        (fun k (st : List Int × Int × Nat) =>
          (writeAt st.1 (st.2.1 + k) (if st.2.2 &&& 0x800000 ≠ 0 then K.FONT_COLOR else 0),
            st.2.1, (st.2.2 <<< 1) % 2 ^ 32)) st).1 (st.2.1 + k) =
        glyphBit K font ((n : Int) + k)) ∧
    (∀ idx, (∀ k, 0 ≤ k → k < K.FONT_WIDTH → idx ≠ st.2.1 + k) →
      readAt (forLoop 0 (K.FONT_WIDTH - 1)
        (fun k (st : List Int × Int × Nat) =>
          (writeAt st.1 (st.2.1 + k) (if st.2.2 &&& 0x800000 ≠ 0 then K.FONT_COLOR else 0),
            st.2.1, (st.2.2 <<< 1) % 2 ^ 32)) st).1 idx = readAt st.1 idx) := by
  have key := forLoop_induction
    (fun p (t : List Int × Int × Nat) => t.2.1 = st.2.1 ∧
      t.2.2 % 2 ^ 32 = (font <<< (n + p.toNat)) % 2 ^ 32 ∧
      t.1.length = st.1.length ∧
      (∀ k, 0 ≤ k → k < p → 0 ≤ st.2.1 + k → st.2.1 + k < (st.1.length : Int) →
        readAt t.1 (st.2.1 + k) = glyphBit K font ((n : Int) + k)) ∧
      (∀ idx, (∀ k, 0 ≤ k → k < p → idx ≠ st.2.1 + k) → readAt t.1 idx = readAt st.1 idx))
    0 (K.FONT_WIDTH - 1)
    (fun k (st : List Int × Int × Nat) =>
      (writeAt st.1 (st.2.1 + k) (if st.2.2 &&& 0x800000 ≠ 0 then K.FONT_COLOR else 0),
        st.2.1, (st.2.2 <<< 1) % 2 ^ 32)) st (by omega)
    ⟨rfl, by simpa using hw, rfl, fun k h0 h1 => by omega, fun idx _ => rfl⟩
    (by
      intro p t hp0 hp1 ⟨hidx, hword, hlen, hA, hB⟩
      refine ⟨hidx, ?_, ?_, ?_, ?_⟩
      · show ((t.2.2 <<< 1) % 2 ^ 32) % 2 ^ 32 = _
        have e : n + (p + 1).toNat = n + p.toNat + 1 := by omega
        rw [e]
        exact font_word_step font t.2.2 (n + p.toNat) hword
      · show (writeAt _ _ _).length = _
        rw [length_writeAt]; exact hlen
      · intro k h0 h1 h2 h3
        show readAt (writeAt _ _ _) _ = _
        by_cases hk : k = p
        · subst hk
          rw [readAt_writeAt, hidx, if_pos ⟨rfl, h2, by rw [hlen]; exact h3⟩]
          have hv := font_test_glyphBit K font t.2.2 (n + k.toNat) hword
          rw [hv]
          congr 1
          push_cast
          omega
        · rw [readAt_writeAt_ne _ _ _ _ (by rw [hidx]; omega)]
          exact hA k h0 (by omega) h2 h3
      · intro idx hne
        show readAt (writeAt _ _ _) _ = _
        rw [readAt_writeAt_ne _ _ _ _ (by rw [hidx]; exact fun h => hne p hp0 (by omega) h.symm)]
        exact hB idx (fun k h0 h1 => hne k h0 (by omega)))
  have e : K.FONT_WIDTH - 1 + 1 = K.FONT_WIDTH := by omega
  rw [e] at key
  exact key

/-- One glyph of `SetupFont`, exactly: the row loop stores pixel number
`j * FONT_WIDTH + k` of the glyph word at `index + IMAGE_BANK_WIDTH * j + k`
and leaves every other entry as it was. -/
theorem SetupFont_glyph_exact (K : Constants) (hFW : 0 ≤ K.FONT_WIDTH) (hFH : 0 ≤ K.FONT_HEIGHT)
    (hW : K.FONT_WIDTH ≤ K.IMAGE_BANK_WIDTH) (d : List Int) (index : Int) (font : Nat) :
    (forLoop 0 (K.FONT_HEIGHT - 1)
      (fun _ (st : List Int × Int × Nat) =>
        let st := forLoop 0 (K.FONT_WIDTH - 1)
          (fun k (st : List Int × Int × Nat) =>
            (writeAt st.1 (st.2.1 + k) (if st.2.2 &&& 0x800000 ≠ 0 then K.FONT_COLOR else 0),
              st.2.1, (st.2.2 <<< 1) % 2 ^ 32))
          st
        (st.1, st.2.1 + K.IMAGE_BANK_WIDTH, st.2.2))
      (d, index, font)).1.length = d.length ∧
    (∀ j k, 0 ≤ j → j < K.FONT_HEIGHT → 0 ≤ k → k < K.FONT_WIDTH →
      0 ≤ index + K.IMAGE_BANK_WIDTH * j + k →
      index + K.IMAGE_BANK_WIDTH * j + k < (d.length : Int) →
      readAt (forLoop 0 (K.FONT_HEIGHT - 1)
        (fun _ (st : List Int × Int × Nat) =>
          let st := forLoop 0 (K.FONT_WIDTH - 1)
            (fun k (st : List Int × Int × Nat) =>
              (writeAt st.1 (st.2.1 + k) (if st.2.2 &&& 0x800000 ≠ 0 then K.FONT_COLOR else 0),
                st.2.1, (st.2.2 <<< 1) % 2 ^ 32))
            st
          (st.1, st.2.1 + K.IMAGE_BANK_WIDTH, st.2.2))
        (d, index, font)).1 (index + K.IMAGE_BANK_WIDTH * j + k) =
        glyphBit K font (j * K.FONT_WIDTH + k)) ∧
    (∀ idx, (∀ j k, 0 ≤ j → j < K.FONT_HEIGHT → 0 ≤ k → k < K.FONT_WIDTH →
        idx ≠ index + K.IMAGE_BANK_WIDTH * j + k) →
      readAt (forLoop 0 (K.FONT_HEIGHT - 1)
        (fun _ (st : List Int × Int × Nat) =>
          let st := forLoop 0 (K.FONT_WIDTH - 1)
            (fun k (st : List Int × Int × Nat) =>
              (writeAt st.1 (st.2.1 + k) (if st.2.2 &&& 0x800000 ≠ 0 then K.FONT_COLOR else 0),
                st.2.1, (st.2.2 <<< 1) % 2 ^ 32))
            st
          (st.1, st.2.1 + K.IMAGE_BANK_WIDTH, st.2.2))
        (d, index, font)).1 idx = readAt d idx) := by
  have key := forLoop_induction
    (fun m (t : List Int × Int × Nat) => t.2.1 = index + K.IMAGE_BANK_WIDTH * m ∧
      t.2.2 % 2 ^ 32 = (font <<< (m * K.FONT_WIDTH).toNat) % 2 ^ 32 ∧
      t.1.length = d.length ∧
      (∀ j k, 0 ≤ j → j < m → 0 ≤ k → k < K.FONT_WIDTH →
        0 ≤ index + K.IMAGE_BANK_WIDTH * j + k →
        index + K.IMAGE_BANK_WIDTH * j + k < (d.length : Int) →
        readAt t.1 (index + K.IMAGE_BANK_WIDTH * j + k) =
          glyphBit K font (j * K.FONT_WIDTH + k)) ∧
      (∀ idx, (∀ j k, 0 ≤ j → j < m → 0 ≤ k → k < K.FONT_WIDTH →
          idx ≠ index + K.IMAGE_BANK_WIDTH * j + k) → readAt t.1 idx = readAt d idx))
    0 (K.FONT_HEIGHT - 1)
    (fun _ (st : List Int × Int × Nat) =>
      let st := forLoop 0 (K.FONT_WIDTH - 1)
        (fun k (st : List Int × Int × Nat) =>
          (writeAt st.1 (st.2.1 + k) (if st.2.2 &&& 0x800000 ≠ 0 then K.FONT_COLOR else 0),
            st.2.1, (st.2.2 <<< 1) % 2 ^ 32))
        st
      (st.1, st.2.1 + K.IMAGE_BANK_WIDTH, st.2.2))
    (d, index, font) (by omega)
    ⟨by simp, by simp, rfl, fun j k h0 h1 => by omega, fun idx _ => rfl⟩
    (by
      intro m t hm0 hm1 ⟨hidx, hword, hlen, hA, hB⟩
      have hmF : 0 ≤ m * K.FONT_WIDTH := mul_nonneg hm0 hFW
      obtain ⟨r1, r2, r3, r4, r5⟩ :=
        SetupFont_row_exact K hFW font (m * K.FONT_WIDTH).toNat t hword
      refine ⟨?_, ?_, ?_, ?_, ?_⟩
      · show _ + K.IMAGE_BANK_WIDTH = _
        rw [r1, hidx, mul_add, mul_one, add_assoc]
      · show _ % 2 ^ 32 = _
        rw [r2]
        have e : ((m + 1) * K.FONT_WIDTH).toNat =
            (m * K.FONT_WIDTH).toNat + K.FONT_WIDTH.toNat := by
          have : (m + 1) * K.FONT_WIDTH = m * K.FONT_WIDTH + K.FONT_WIDTH := by ring
          rw [this]
          omega
        rw [e]
      · show _ = d.length
        rw [r3, hlen]
      · intro j k hj0 hj1 hk0 hk1 hb0 hb1
        show readAt _ _ = _
        by_cases hj : j = m
        · subst hj
          have h := r4 k hk0 hk1 (by rw [hidx]; exact hb0) (by rw [hidx, hlen]; exact hb1)
          rw [hidx] at h
          rw [h]
          congr 1
          omega
        · rw [r5 _ (fun k' hk0' hk1' heq => by
            rw [hidx] at heq
            have := index_inj K.IMAGE_BANK_WIDTH k j k' m hk0 (by omega) hk0' (by omega)
              (by omega)
            exact hj this.2)]
          exact hA j k hj0 (by omega) hk0 hk1 hb0 hb1
      · intro idx hne
        show readAt _ _ = _
        rw [r5 idx (fun k hk0 hk1 => by rw [hidx]; exact hne m k hm0 (by omega) hk0 hk1)]
        exact hB idx (fun j k h0 h1 h2 h3 => hne j k h0 (by omega) h2 h3))
  have e : K.FONT_HEIGHT - 1 + 1 = K.FONT_HEIGHT := by omega
  rw [e] at key
  exact ⟨key.2.2.1, key.2.2.2.1, key.2.2.2.2⟩

/-! ## The cells of the font atlas -/

theorem fontCellIndex_coords (K : Constants) (i j k : Int) :
    fontCellIndex K i j k =
      K.IMAGE_BANK_WIDTH * (K.FONT_Y + K.FONT_HEIGHT * Int.tdiv i K.FONT_ROW_COUNT + j) +
        (K.FONT_X + K.FONT_WIDTH * Int.tmod i K.FONT_ROW_COUNT + k) := by
  unfold fontCellIndex
  ring

/-- Every pixel of every glyph cell lies inside the system bank raster. -/
theorem fontCell_bounds (K : Constants) (hfit : FontAtlasFits K) (i j k : Int)
    (hi0 : 0 ≤ i) (hi1 : i < (K.FONT_DATA.length : Int)) (hj0 : 0 ≤ j) (hj1 : j < K.FONT_HEIGHT)
    (hk0 : 0 ≤ k) (hk1 : k < K.FONT_WIDTH) :
    (0 ≤ K.FONT_X + K.FONT_WIDTH * Int.tmod i K.FONT_ROW_COUNT + k ∧
      K.FONT_X + K.FONT_WIDTH * Int.tmod i K.FONT_ROW_COUNT + k < K.IMAGE_BANK_WIDTH) ∧
    (0 ≤ K.FONT_Y + K.FONT_HEIGHT * Int.tdiv i K.FONT_ROW_COUNT + j ∧
      K.FONT_Y + K.FONT_HEIGHT * Int.tdiv i K.FONT_ROW_COUNT + j < K.IMAGE_BANK_HEIGHT) := by
  obtain ⟨_, _, hFW, hFH, hR, hX, hXW, hY, hrows⟩ := hfit
  have hc0 : 0 ≤ Int.tmod i K.FONT_ROW_COUNT := Int.tmod_nonneg _ hi0
  have hc1 : Int.tmod i K.FONT_ROW_COUNT < K.FONT_ROW_COUNT := Int.tmod_lt_of_pos _ hR
  have hr0 : 0 ≤ Int.tdiv i K.FONT_ROW_COUNT := Int.tdiv_nonneg hi0 hR.le
  have h1 : 0 ≤ K.FONT_WIDTH * Int.tmod i K.FONT_ROW_COUNT := mul_nonneg hFW.le hc0
  have h2 : K.FONT_WIDTH * (Int.tmod i K.FONT_ROW_COUNT + 1) ≤ K.FONT_WIDTH * K.FONT_ROW_COUNT :=
    mul_le_mul_of_nonneg_left (by omega) hFW.le
  have h3 : 0 ≤ K.FONT_HEIGHT * Int.tdiv i K.FONT_ROW_COUNT := mul_nonneg hFH.le hr0
  have h4 := hrows i hi0 hi1
  rw [mul_add, mul_one] at h2 h4
  refine ⟨⟨by omega, by omega⟩, ⟨by omega, by omega⟩⟩

/-- Distinct pixels of the glyph cells have distinct places in the buffer: no
glyph overwrites another. -/
theorem fontCell_inj (K : Constants) (hfit : FontAtlasFits K) (i j k i' j' k' : Int)
    (hi0 : 0 ≤ i) (hi1 : i < (K.FONT_DATA.length : Int)) (hj0 : 0 ≤ j) (hj1 : j < K.FONT_HEIGHT)
    (hk0 : 0 ≤ k) (hk1 : k < K.FONT_WIDTH)
    (hi0' : 0 ≤ i') (hi1' : i' < (K.FONT_DATA.length : Int)) (hj0' : 0 ≤ j')
    (hj1' : j' < K.FONT_HEIGHT) (hk0' : 0 ≤ k') (hk1' : k' < K.FONT_WIDTH)
    (h : fontCellIndex K i j k = fontCellIndex K i' j' k') : i = i' ∧ j = j' ∧ k = k' := by
  have hb := fontCell_bounds K hfit i j k hi0 hi1 hj0 hj1 hk0 hk1
  have hb' := fontCell_bounds K hfit i' j' k' hi0' hi1' hj0' hj1' hk0' hk1'
  rw [fontCellIndex_coords, fontCellIndex_coords] at h
  have hxy := index_inj K.IMAGE_BANK_WIDTH _ _ _ _ hb.1.1 hb.1.2 hb'.1.1 hb'.1.2 h
  have hx := index_inj K.FONT_WIDTH k (Int.tmod i K.FONT_ROW_COUNT) k'
    (Int.tmod i' K.FONT_ROW_COUNT) hk0 hk1 hk0' hk1' (by omega)
  have hy := index_inj K.FONT_HEIGHT j (Int.tdiv i K.FONT_ROW_COUNT) j'
    (Int.tdiv i' K.FONT_ROW_COUNT) hj0 hj1 hj0' hj1' (by omega)
  have e := Int.tmod_add_tdiv i K.FONT_ROW_COUNT
  have e' := Int.tmod_add_tdiv i' K.FONT_ROW_COUNT
  rw [hx.2, hy.2] at e
  exact ⟨e.symm.trans e', hy.1, hx.1⟩

/-- The buffer after `SetupFont`, exactly: the pixel in row `j` and column `k`
of the cell of glyph `i` holds pixel number `j * FONT_WIDTH + k` of
`FONT_DATA[i]`. -/
theorem SetupFontData_exact (K : Constants) (hfit : FontAtlasFits K) (d0 : List Int)
    (hlen : (d0.length : Int) = K.IMAGE_BANK_WIDTH * K.IMAGE_BANK_HEIGHT) :
    (SetupFontData K d0).length = d0.length ∧
      ∀ i j k, 0 ≤ i → i < (K.FONT_DATA.length : Int) → 0 ≤ j → j < K.FONT_HEIGHT →
        0 ≤ k → k < K.FONT_WIDTH →
        readAt (SetupFontData K d0) (fontCellIndex K i j k) =
          glyphBit K (K.FONT_DATA.getD i.toNat 0) (j * K.FONT_WIDTH + k) := by
  have hfit' := hfit
  obtain ⟨_, _, hFW, hFH, hR, hX, hXW, hY, hrows⟩ := hfit'
  have hWle : K.FONT_WIDTH ≤ K.IMAGE_BANK_WIDTH := by
    have : K.FONT_WIDTH * 1 ≤ K.FONT_WIDTH * K.FONT_ROW_COUNT :=
      mul_le_mul_of_nonneg_left (by omega) hFW.le
    omega
  have key := forLoop_induction_max
    (fun n (d : List Int) => d.length = d0.length ∧
      ∀ i j k, 0 ≤ i → i < n → i < (K.FONT_DATA.length : Int) → 0 ≤ j → j < K.FONT_HEIGHT →
        0 ≤ k → k < K.FONT_WIDTH →
        readAt d (fontCellIndex K i j k) =
          glyphBit K (K.FONT_DATA.getD i.toNat 0) (j * K.FONT_WIDTH + k))
    0 ((K.FONT_DATA.length : Int) - 1)
    (fun i data =>
      (forLoop 0 (K.FONT_HEIGHT - 1)
        (fun _ (st : List Int × Int × Nat) =>
          let st := forLoop 0 (K.FONT_WIDTH - 1)
            (fun k (st : List Int × Int × Nat) =>
              (writeAt st.1 (st.2.1 + k) (if st.2.2 &&& 0x800000 ≠ 0 then K.FONT_COLOR else 0),
                st.2.1, (st.2.2 <<< 1) % 2 ^ 32))
            st
          (st.1, st.2.1 + K.IMAGE_BANK_WIDTH, st.2.2))
        (data, K.IMAGE_BANK_WIDTH * (K.FONT_HEIGHT * Int.tdiv i K.FONT_ROW_COUNT + K.FONT_Y) +
          K.FONT_WIDTH * Int.tmod i K.FONT_ROW_COUNT + K.FONT_X, K.FONT_DATA.getD i.toNat 0)).1)
    d0
    ⟨rfl, fun i j k h0 h1 => by omega⟩
    (by
      intro n d hn0 hn1 ⟨hdlen, hA⟩
      obtain ⟨g1, g2, g3⟩ := SetupFont_glyph_exact K hFW.le hFH.le hWle d
        (K.IMAGE_BANK_WIDTH * (K.FONT_HEIGHT * Int.tdiv n K.FONT_ROW_COUNT + K.FONT_Y) +
          K.FONT_WIDTH * Int.tmod n K.FONT_ROW_COUNT + K.FONT_X) (K.FONT_DATA.getD n.toNat 0)
      refine ⟨by rw [g1, hdlen], ?_⟩
      intro i j k hi0 hi1 hi2 hj0 hj1 hk0 hk1
      by_cases hi : i = n
      · subst hi
        have hb := fontCell_bounds K hfit i j k hi0 hi2 hj0 hj1 hk0 hk1
        have hib := index_bounds K.IMAGE_BANK_WIDTH K.IMAGE_BANK_HEIGHT _ _
          hb.1.1 hb.1.2 hb.2.1 hb.2.2
        rw [← fontCellIndex_coords] at hib
        exact g2 j k hj0 hj1 hk0 hk1 hib.1 (by rw [hdlen, hlen]; exact hib.2)
      · have hne : ∀ j' k', 0 ≤ j' → j' < K.FONT_HEIGHT → 0 ≤ k' → k' < K.FONT_WIDTH →
            fontCellIndex K i j k ≠ fontCellIndex K n j' k' := by
          intro j' k' a b c e heq
          exact hi (fontCell_inj K hfit i j k n j' k' hi0 hi2 hj0 hj1 hk0 hk1 hn0 (by omega)
            a b c e heq).1
        rw [g3 _ hne]
        exact hA i j k hi0 (by omega) hi2 hj0 hj1 hk0 hk1)
  refine ⟨key.1, fun i j k hi0 hi1 hj0 hj1 hk0 hk1 => ?_⟩
  exact key.2 i j k hi0 (by omega) hi1 hj0 hj1 hk0 hk1

/-! ## The system bank after construction -/

theorem SetData_shape (img : Image) (x y : Int) (data : List (List Int)) (height : Int) :
    (img.SetData x y data height).width = img.width ∧
      (img.SetData x y data height).height = img.height ∧
      (img.SetData x y data height).data.length = img.data.length := by
  refine ⟨rfl, rfl, ?_⟩
  unfold Image.SetData
  simp only
  exact forLoop_invariant (fun (d : List Int) => d.length = img.data.length) _ _ _ _ rfl
    (fun i d _ _ hd =>
      forLoop_invariant (fun (d : List Int) => d.length = img.data.length) _ _ _ _ hd
        (fun j d _ _ hd => by
          show (writeAt _ _ _).length = _
          rw [length_writeAt]; exact hd))

/-- The system image bank of a freshly constructed `Graphics`: the
`IMAGE_BANK_WIDTH` x `IMAGE_BANK_HEIGHT` raster holding the mouse cursor with
the font atlas written over it. -/
theorem Graphics_new_system_bank (K : Constants) (width height : Int)
    (h0 : 0 ≤ K.IMAGE_BANK_FOR_SYSTEM) (h1 : K.IMAGE_BANK_FOR_SYSTEM < K.IMAGE_BANK_COUNT) :
    GetImageBank K (Graphics.new K width height) K.IMAGE_BANK_FOR_SYSTEM =
      ⟨K.IMAGE_BANK_WIDTH, K.IMAGE_BANK_HEIGHT,
        SetupFontData K ((Image.new K.IMAGE_BANK_WIDTH K.IMAGE_BANK_HEIGHT).SetData
          K.MOUSE_CURSOR_X K.MOUSE_CURSOR_Y K.MOUSE_CURSOR_DATA K.MOUSE_CURSOR_HEIGHT).data⟩ := by
  have hlt : K.IMAGE_BANK_FOR_SYSTEM.toNat < K.IMAGE_BANK_COUNT.toNat := by omega
  unfold GetImageBank
  rw [if_pos ⟨h0, h1⟩]
  show ((List.replicate _ _).set _ _ |>.set _ _).getD _ _ = _
  simp [List.getD_eq_getElem?_getD, List.getElem?_set, hlt, Image.SetData, Image.new,
    SetupMouseCursor]

/-- C20: the font atlas built by `SetupFont` is the one `DrawText` reads.
When the atlas fits in the system image bank, after construction, for every
glyph index `i` below the font count and every `0 <= j < FONT_HEIGHT`,
`0 <= k < FONT_WIDTH`, the system bank pixel at
`(FONT_X + FONT_WIDTH * (i mod FONT_ROW_COUNT) + k,
  FONT_Y + FONT_HEIGHT * (i div FONT_ROW_COUNT) + j)` is `FONT_COLOR` if bit
`23 - (j * FONT_WIDTH + k)` of `FONT_DATA[i]` is set and 0 otherwise (no glyph
overwrites another); and the origin of this cell, with the size
`FONT_WIDTH` x `FONT_HEIGHT`, is the window `DrawText` passes to `DrawImage`
for the drawn character with code `MIN_FONT_CODE + i`. -/
theorem SetupFont_atlas_matches_DrawText (K : Constants) (hfit : FontAtlasFits K)
    (width height : Int) :
    (∀ i j k, 0 ≤ i → i < (K.FONT_DATA.length : Int) → 0 ≤ j → j < K.FONT_HEIGHT →
      0 ≤ k → k < K.FONT_WIDTH →
      (GetImageBank K (Graphics.new K width height) K.IMAGE_BANK_FOR_SYSTEM).pixel
          (K.FONT_X + K.FONT_WIDTH * Int.tmod i K.FONT_ROW_COUNT + k)
          (K.FONT_Y + K.FONT_HEIGHT * Int.tdiv i K.FONT_ROW_COUNT + j) =
        glyphBit K (K.FONT_DATA.getD i.toNat 0) (j * K.FONT_WIDTH + k)) ∧
      (∀ (left i : Int) (rest : List Int) (x y : Int) (g : Graphics),
        0 ≤ i → K.MIN_FONT_CODE + i ≤ K.MAX_FONT_CODE →
        K.MIN_FONT_CODE + i ≠ 10 → K.MIN_FONT_CODE + i ≠ 32 →
        DrawTextLoop K left ((K.MIN_FONT_CODE + i) :: rest) x y g =
          DrawTextLoop K left rest (x + K.FONT_WIDTH) y
            (DrawImage K g x y K.IMAGE_BANK_FOR_SYSTEM
              (K.FONT_X + K.FONT_WIDTH * Int.tmod i K.FONT_ROW_COUNT)
              (K.FONT_Y + K.FONT_HEIGHT * Int.tdiv i K.FONT_ROW_COUNT)
              K.FONT_WIDTH K.FONT_HEIGHT 0)) := by
  refine ⟨fun i j k hi0 hi1 hj0 hj1 hk0 hk1 => ?_, fun left i rest x y g hi0 hmax h10 h32 => ?_⟩
  · have hb := fontCell_bounds K hfit i j k hi0 hi1 hj0 hj1 hk0 hk1
    have hW : 0 ≤ K.IMAGE_BANK_WIDTH := by omega
    have hH : 0 ≤ K.IMAGE_BANK_HEIGHT := by omega
    rw [Graphics_new_system_bank K width height hfit.1 hfit.2.1]
    have hs := SetData_shape (Image.new K.IMAGE_BANK_WIDTH K.IMAGE_BANK_HEIGHT)
      K.MOUSE_CURSOR_X K.MOUSE_CURSOR_Y K.MOUSE_CURSOR_DATA K.MOUSE_CURSOR_HEIGHT
    have hlen : ((((Image.new K.IMAGE_BANK_WIDTH K.IMAGE_BANK_HEIGHT).SetData
        K.MOUSE_CURSOR_X K.MOUSE_CURSOR_Y K.MOUSE_CURSOR_DATA
        K.MOUSE_CURSOR_HEIGHT).data.length : Nat) : Int) =
        K.IMAGE_BANK_WIDTH * K.IMAGE_BANK_HEIGHT := by
      rw [hs.2.2]
      have : 0 ≤ K.IMAGE_BANK_WIDTH * K.IMAGE_BANK_HEIGHT := mul_nonneg hW hH
      simp only [Image.new, List.length_replicate]
      omega
    have h := (SetupFontData_exact K hfit _ hlen).2 i j k hi0 hi1 hj0 hj1 hk0 hk1
    rw [fontCellIndex_coords] at h
    exact h
  · have hguard : ¬ (K.MIN_FONT_CODE + i < K.MIN_FONT_CODE ∨
        K.MIN_FONT_CODE + i > K.MAX_FONT_CODE) := by omega
    have hcode : K.MIN_FONT_CODE + i - K.MIN_FONT_CODE = i := by omega
    rw [DrawTextLoop, if_neg h10, if_neg h32, if_neg hguard]
    simp only [hcode]
    rw [mul_comm (Int.tmod i K.FONT_ROW_COUNT), mul_comm (Int.tdiv i K.FONT_ROW_COUNT)]

/-- Witness for C20: with the sample constants (8 glyphs of 4x6 in rows of 4,
atlas at (0,4) of the 16x16 system bank) the atlas fits; glyph 1 (`0x444040`)
has its cell at column 4, and its pixel in row 0, column 1 (bit 22, set) is
`FONT_COLOR` = 7. -/
theorem SetupFont_atlas_matches_DrawText_witness :
    FontAtlasFits sampleConstants ∧
      (GetImageBank sampleConstants (Graphics.new sampleConstants 10 10) 1).pixel 5 4 = 7 := by
  have hfit : FontAtlasFits sampleConstants := by
    refine ⟨by decide, by decide, by decide, by decide, by decide, by decide, by decide,
      by decide, fun i h0 h1 => ?_⟩
    have h1' : i < 8 := h1
    interval_cases i <;> decide
  exact ⟨hfit, (SetupFont_atlas_matches_DrawText sampleConstants hfit 10 10).1 1 0 1
    (by decide) (by decide) (by decide) (by decide) (by decide) (by decide)⟩

/-- The position list of `DrawLine` in the x-major branch when the second
endpoint is the left one. -/
theorem DrawLinePositions_xmajor_swapped (x1 y1 x2 y2 : Int) (hmaj : |x1 - x2| > |y1 - y2|)
    (hlt : x2 < x1) :
    DrawLinePositions x1 y1 x2 y2 = (List.range (x1 - x2 + 1).toNat).map
      (fun (k : Nat) => (x2 + (k : Int), truncToInt (f32Add (f32Add (f32OfInt y2)
        (f32Mul (f32Div (f32OfInt (y1 - y2)) (f32OfInt (x1 - x2))) (f32OfInt (k : Int))))
        (1 / 2)))) := by
  have hne : ¬ (x1 = x2 ∧ y1 = y2) := fun h => by omega
  rcases DrawLinePositions_shape x1 y1 x2 y2 hne with
    ⟨_, s, t, e, u, hor, hse, _, _, _, hps⟩ | ⟨h, _⟩
  · rcases hor with ⟨rfl, rfl, rfl, rfl⟩ | ⟨rfl, rfl, rfl, rfl⟩
    · omega
    · exact hps
  · exact absurd hmaj h

/-- For every pair of distinct endpoints `DrawLine` passes exactly
`max(|x1-x2|, |y1-y2|) + 1` positions to `SetPixel`, the `i`-th with major
coordinate `start + i`. -/
theorem DrawLinePositions_count (x1 y1 x2 y2 : Int) (hne : ¬ (x1 = x2 ∧ y1 = y2)) :
    ((DrawLinePositions x1 y1 x2 y2).length : Int) = max |x1 - x2| |y1 - y2| + 1 ∧
      (∀ (i : Nat) (p : Int × Int), (DrawLinePositions x1 y1 x2 y2)[i]? = some p →
        if |x1 - x2| > |y1 - y2| then p.1 = min x1 x2 + i else p.2 = min y1 y2 + i) := by
  rcases DrawLinePositions_shape x1 y1 x2 y2 hne with
    ⟨hmaj, s, t, e, u, hor, hlt, hslope, hlen, hmin, hps⟩ |
    ⟨hmaj, s, t, e, u, hor, hlt, hslope, hlen, hmin, hps⟩
  · refine ⟨?_, fun i p hp => ?_⟩
    · rw [hps, List.length_map, List.length_range, ← hlen]
      omega
    · rw [if_pos hmaj]
      rw [hps] at hp
      obtain ⟨_, rfl⟩ := getElem?_map_range _ _ _ _ hp
      rw [← hmin]
  · refine ⟨?_, fun i p hp => ?_⟩
    · rw [hps, List.length_map, List.length_range, ← hlen]
      omega
    · rw [if_neg hmaj]
      rw [hps] at hp
      obtain ⟨_, rfl⟩ := getElem?_map_range _ _ _ _ hp
      rw [← hmin]

/-- The slope 13/22 is not a binary32 value: in `DrawLine(0, 0, 22, 13)` the
product `alpha * 11` is rounded to just below 6.5, so the position of column 11
is on row 6 (the exact value 6.5 + 0.5 would give row 7). -/
theorem DrawLine_binary32_midpoint :
    (DrawLinePositions 0 0 22 13)[11]? = some (11, 6) ∧
      (DrawLinePositions 0 0 22 13)[22]? = some (22, 13) := by
  refine ⟨by decide!, by decide!⟩

theorem getElem?_map_range_of_lt {α : Type} (n : Nat) (F : Nat → α) (i : Nat) (h : i < n) :
    ((List.range n).map F)[i]? = some (F i) := by
  rw [List.getElem?_map, List.getElem?_range h]
  rfl

/-- C19 fails on the code for a long line: in `DrawLine(3, 3, -18999997,
-14999997, 2)` on the sample canvas the endpoint (3,3) lies inside the clip
rectangle, but the binary32 slope and products lose the low bits of the
19000000-step run, the last position is (3,4), and the pixel (3,3) keeps its
old value 0 while (3,4) gets the color 2; the second and third positions,
`(-18999996, -14999996)` and `(-18999995, -14999994)`, differ by 2 on the minor
axis. -/
theorem DrawLine_long_line_misses_endpoint :
    WellFormed sampleGraphics ∧ sampleGraphics.clip_rect.Includes 3 3 = true ∧
      sampleGraphics.pixel 3 3 = 0 ∧ readAt sampleGraphics.palette_table 2 = 2 ∧
      (3, 3) ∉ DrawLinePositions 3 3 (-18999997) (-14999997) ∧
      (DrawLine sampleGraphics 3 3 (-18999997) (-14999997) 2).pixel 3 3 = 0 ∧
      (DrawLine sampleGraphics 3 3 (-18999997) (-14999997) 2).pixel 3 4 = 2 ∧
      (DrawLinePositions 3 3 (-18999997) (-14999997))[1]? = some (-18999996, -14999996) ∧
      (DrawLinePositions 3 3 (-18999997) (-14999997))[2]? = some (-18999995, -14999994) := by
  have hwf : WellFormed sampleGraphics := by decide
  have hps := DrawLinePositions_xmajor_swapped 3 3 (-18999997) (-14999997)
    (by norm_num) (by norm_num)
  have hn : (3 - (-18999997) + 1 : Int).toNat = 19000001 := by decide
  rw [hn] at hps
  have hnot : (3, 3) ∉ DrawLinePositions 3 3 (-18999997) (-14999997) := by
    rw [hps, List.mem_map]
    rintro ⟨k, _, hk⟩
    rw [Prod.mk.injEq] at hk
    have hk1 : k = 19000000 := by omega
    subst hk1
    exact absurd hk.2 (by decide!)
  have hlast : (3, 4) ∈ DrawLinePositions 3 3 (-18999997) (-14999997) := by
    rw [hps, List.mem_map]
    exact ⟨19000000, List.mem_range.mpr (by norm_num), by decide!⟩
  have heq := DrawLine_eq_SetPixels sampleGraphics 3 3 (-18999997) (-14999997) 2
  refine ⟨hwf, by decide, by decide, by decide, hnot, ?_, ?_, ?_, ?_⟩
  · rw [heq, SetPixels_pixel sampleGraphics hwf _ _ 3 3 (by decide), if_neg (fun h => hnot h.1)]
    decide
  · rw [heq, SetPixels_pixel sampleGraphics hwf _ _ 3 4 (by decide),
      if_pos ⟨hlast, by decide⟩]
    decide
  · rw [hps, getElem?_map_range_of_lt _ _ 1 (by norm_num)]
    exact congrArg some (by decide!)
  · rw [hps, getElem?_map_range_of_lt _ _ 2 (by norm_num)]
    exact congrArg some (by decide!)

/-- C15: `DrawTilemap` decodes a tile value as a row-major index into the chip
grid of the image bank.  For an image bank whose chip grid has as many chips
per column as per row (`IMAGE_BANK_HEIGHT / TILEMAP_CHIP_HEIGHT =
IMAGE_BANK_WIDTH / TILEMAP_CHIP_WIDTH`, at least one): `DrawTilemap` is the
sequence of `DrawImage` calls with the chip windows `(TileU value, TileV value,
TILEMAP_CHIP_WIDTH, TILEMAP_CHIP_HEIGHT)`; for every tile value `t ≥ 0` the
window has `u = chip_col * TILEMAP_CHIP_WIDTH` and
`v = chip_row * TILEMAP_CHIP_HEIGHT` with `0 ≤ chip_col < chips_per_row` and
`t = chip_row * chips_per_row + chip_col`, where
`chips_per_row = IMAGE_BANK_WIDTH / TILEMAP_CHIP_WIDTH`; and distinct tile
values select distinct chips. -/
theorem DrawTilemap_row_major_decode (K : Constants)
    (hrow : 0 < Int.tdiv K.IMAGE_BANK_WIDTH K.TILEMAP_CHIP_WIDTH)
    (hsq : Int.tdiv K.IMAGE_BANK_HEIGHT K.TILEMAP_CHIP_HEIGHT =
      Int.tdiv K.IMAGE_BANK_WIDTH K.TILEMAP_CHIP_WIDTH) :
    (∀ g x y tilemap_index u v width height color_key,
      DrawTilemap K g x y tilemap_index u v width height color_key =
        RunTileCalls K g (GetTilemapBank K g tilemap_index).image_index color_key
          (DrawTilemapCalls K (GetTilemapBank K g tilemap_index) x y u v width height)) ∧
      (∀ t, 0 ≤ t →
        ∃ chip_col chip_row : Int,
          TileU K t = chip_col * K.TILEMAP_CHIP_WIDTH ∧
            TileV K t = chip_row * K.TILEMAP_CHIP_HEIGHT ∧
            0 ≤ chip_col ∧ chip_col < Int.tdiv K.IMAGE_BANK_WIDTH K.TILEMAP_CHIP_WIDTH ∧
            t = chip_row * Int.tdiv K.IMAGE_BANK_WIDTH K.TILEMAP_CHIP_WIDTH + chip_col) ∧
      (∀ t t', 0 ≤ t → 0 ≤ t' → TileU K t = TileU K t' → TileV K t = TileV K t' → t = t') := by
  have h := DrawTilemap_tile_decode K hrow
  exact ⟨h.1, (h.2.2 hsq).1, (h.2.2 hsq).2⟩

/-- Witness for C15: with the sample constants (16x16 bank, 8x8 chips, two
chips per row and per column) the tile values 1 and 2 are decoded to the chips
`(u, v) = (8, 0)` and `(0, 8)`, and the tile value 3 has a row-major
decomposition. -/
theorem DrawTilemap_row_major_decode_witness :
    TileU sampleConstants 1 = 8 ∧ TileV sampleConstants 1 = 0 ∧
      TileU sampleConstants 2 = 0 ∧ TileV sampleConstants 2 = 8 ∧
      ∃ chip_col chip_row : Int,
        TileU sampleConstants 3 = chip_col * sampleConstants.TILEMAP_CHIP_WIDTH ∧
          TileV sampleConstants 3 = chip_row * sampleConstants.TILEMAP_CHIP_HEIGHT ∧
          0 ≤ chip_col ∧
          chip_col < Int.tdiv sampleConstants.IMAGE_BANK_WIDTH sampleConstants.TILEMAP_CHIP_WIDTH ∧
          3 = chip_row *
            Int.tdiv sampleConstants.IMAGE_BANK_WIDTH sampleConstants.TILEMAP_CHIP_WIDTH +
            chip_col :=
  ⟨by decide, by decide, by decide, by decide,
    (DrawTilemap_row_major_decode sampleConstants (by decide) (by decide)).2.1 3 (by decide)⟩

/-- C17: unsupported characters are invisible to `DrawText`.  When the space
(32) is a supported code, for every text, position and color
`DrawText(x, y, text, c)` gives the same canvas state as
`DrawText(x, y, text', c)`, where `text'` is `text` with every character
removed that is not a newline (10) and whose code is below `MIN_FONT_CODE` or
above `MAX_FONT_CODE`; such a character neither draws nor moves the cursor:
the character loop continues with the same cursor and canvas. -/
theorem DrawText_unsupported_invisible (K : Constants)
    (hsp : K.MIN_FONT_CODE ≤ 32 ∧ 32 ≤ K.MAX_FONT_CODE) (g : Graphics) (x y : Int)
    (text : List Int) (color : Int) :
    DrawText K g x y (removeUnsupported K text) color = DrawText K g x y text color ∧
      (∀ (left ch : Int) (rest : List Int) (cx cy : Int) (s : Graphics),
        ch ≠ 10 → (ch < K.MIN_FONT_CODE ∨ ch > K.MAX_FONT_CODE) →
        DrawTextLoop K left (ch :: rest) cx cy s = DrawTextLoop K left rest cx cy s) := by
  refine ⟨(DrawText_skipped_invisible K g x y text color).2 hsp,
    fun left ch rest cx cy s h10 hout => ?_⟩
  have h32 : ch ≠ 32 := by omega
  rw [DrawTextLoop, if_neg h10, if_neg h32, if_pos hout]

set_option maxRecDepth 100000 in
/-- Witness for C17: on the constructed 10x10 canvas with the sample constants
(codes 32..39 supported) the text `[33, 200, 34, 1, 10, 35]` loses the
characters 200 and 1; both texts give the same canvas state, on which the
glyph pixel (1,0) of `!` holds the color 5 and the glyph of 34 starts at
column 4 (pixel (4,0) holds 5). -/
theorem DrawText_unsupported_invisible_witness :
    removeUnsupported sampleConstants [33, 200, 34, 1, 10, 35] = [33, 34, 10, 35] ∧
      DrawText sampleConstants (Graphics.new sampleConstants 10 10) 0 0
          (removeUnsupported sampleConstants [33, 200, 34, 1, 10, 35]) 5 =
        DrawText sampleConstants (Graphics.new sampleConstants 10 10) 0 0
          [33, 200, 34, 1, 10, 35] 5 ∧
      (DrawText sampleConstants (Graphics.new sampleConstants 10 10) 0 0
          [33, 200, 34, 1, 10, 35] 5).pixel 1 0 = 5 ∧
      (DrawText sampleConstants (Graphics.new sampleConstants 10 10) 0 0
          [33, 200, 34, 1, 10, 35] 5).pixel 4 0 = 5 :=
  ⟨by decide,
    (DrawText_unsupported_invisible sampleConstants (by decide)
      (Graphics.new sampleConstants 10 10) 0 0 [33, 200, 34, 1, 10, 35] 5).1,
    by decide!, by decide!⟩

/-! ## Binary32 rounding: error bounds -/

theorem roundHalfEven_err (q : ℚ) : |((roundHalfEven q : Int) : ℚ) - q| ≤ 1 / 2 := by
  have h1 := Int.floor_le q
  have h2 := Int.lt_floor_add_one q
  unfold roundHalfEven
  rw [abs_le]
  split
  · constructor <;> linarith
  · split
    · push_cast; constructor <;> linarith
    · split
      · constructor <;> linarith
      · push_cast; constructor <;> linarith

/-- The rounding moves a value by at most half a unit in the last place. -/
theorem roundF32_err (q : ℚ) :
    |roundF32 q - q| ≤ (2 : ℚ) ^ (max (floorLog2 q) (-126) - 23) / 2 := by
  have hpos : (0 : ℚ) < (2 : ℚ) ^ (max (floorLog2 q) (-126) - 23) := by positivity
  have h := roundHalfEven_err (q / (2 : ℚ) ^ (max (floorLog2 q) (-126) - 23))
  have e : roundF32 q - q =
      (((roundHalfEven (q / (2 : ℚ) ^ (max (floorLog2 q) (-126) - 23)) : Int) : ℚ) -
        q / (2 : ℚ) ^ (max (floorLog2 q) (-126) - 23)) *
        (2 : ℚ) ^ (max (floorLog2 q) (-126) - 23) := by
    unfold roundF32
    rw [sub_mul, div_mul_cancel₀ _ hpos.ne']
  rw [e, abs_mul, abs_of_pos hpos]
  calc _ ≤ 1 / 2 * (2 : ℚ) ^ (max (floorLog2 q) (-126) - 23) :=
        mul_le_mul_of_nonneg_right h hpos.le
    _ = _ := by ring

/-- The relative error of the rounding is at most `2^-24`, up to the subnormal
spacing. -/
theorem roundF32_rel_err (q : ℚ) :
    |roundF32 q - q| ≤ |q| * (2 : ℚ) ^ (-24 : Int) + (2 : ℚ) ^ (-150 : Int) := by
  by_cases hq : q = 0
  · subst hq
    rw [roundF32_zero]
    simp
    positivity
  · have h := roundF32_err q
    have hlog := two_zpow_floorLog2_le q hq
    have habs : (0 : ℚ) ≤ |q| := abs_nonneg q
    rcases le_total (floorLog2 q) (-126) with hle | hle
    · rw [max_eq_right hle] at h
      have e : (2 : ℚ) ^ ((-126 : Int) - 23) / 2 = (2 : ℚ) ^ (-150 : Int) := by
        norm_num [zpow_neg]
      rw [e] at h
      have : (0 : ℚ) ≤ |q| * (2 : ℚ) ^ (-24 : Int) := by positivity
      linarith
    · rw [max_eq_left hle] at h
      have e : (2 : ℚ) ^ (floorLog2 q - 23) / 2 = (2 : ℚ) ^ floorLog2 q * (2 : ℚ) ^ (-24 : Int) := by
        rw [zpow_sub₀ (by norm_num)]
        norm_num [zpow_neg]
        ring
      rw [e] at h
      have h2 : (2 : ℚ) ^ floorLog2 q * (2 : ℚ) ^ (-24 : Int) ≤ |q| * (2 : ℚ) ^ (-24 : Int) :=
        mul_le_mul_of_nonneg_right hlog (by positivity)
      have h3 : (0 : ℚ) < (2 : ℚ) ^ (-150 : Int) := by positivity
      linarith

/-- Rounding error of a value bounded by `M`. -/
theorem roundF32_err_le (x M : ℚ) (h : |x| ≤ M) : |roundF32 x - x| ≤ (M + 1) / 16777216 := by
  have h1 := roundF32_rel_err x
  have e1 : (2 : ℚ) ^ (-24 : Int) = 1 / 16777216 := by norm_num [zpow_neg]
  have e2 : (2 : ℚ) ^ (-150 : Int) ≤ 1 / 16777216 := by
    rw [← e1]
    exact zpow_le_zpow_right₀ (by norm_num) (by norm_num)
  rw [e1] at h1
  have : |x| * (1 / 16777216) ≤ M * (1 / 16777216) :=
    mul_le_mul_of_nonneg_right h (by norm_num)
  linarith

/-! ## `DrawLine` on short lines -/

/-- The `float` value `start + alpha * k + 0.5f` of `DrawLine` for a run of at
most 1024 steps from a coordinate of magnitude at most 512: the slope is within
`2 * 2^-24` of `d / D` and the value within `4106 * 2^-24` of
`t + alpha * k + 1/2`. -/
theorem lineValue_approx (t d D k : Int) (hD0 : 1 ≤ D) (hD1 : D ≤ 1024) (hd : |d| ≤ D)
    (ht : |t| ≤ 512) (hk0 : 0 ≤ k) (hk1 : k ≤ D) :
    |f32Div (f32OfInt d) (f32OfInt D) - (d : ℚ) / (D : ℚ)| ≤ 2 / 16777216 ∧
      |f32Add (f32Add (f32OfInt t) (f32Mul (f32Div (f32OfInt d) (f32OfInt D)) (f32OfInt k)))
          (1 / 2) -
        ((t : ℚ) + 1 / 2 + f32Div (f32OfInt d) (f32OfInt D) * (k : ℚ))| ≤ 4106 / 16777216 := by
  rw [abs_le] at hd ht
  have hd' : |d| < 2 ^ 24 := by rw [abs_lt]; constructor <;> omega
  have hD' : |D| < 2 ^ 24 := by rw [abs_lt]; constructor <;> omega
  have ht' : |t| < 2 ^ 24 := by rw [abs_lt]; constructor <;> omega
  have hk' : |k| < 2 ^ 24 := by rw [abs_lt]; constructor <;> omega
  rw [f32OfInt_exact d hd', f32OfInt_exact D hD', f32OfInt_exact t ht', f32OfInt_exact k hk']
  have hDq : (0 : ℚ) < (D : ℚ) := by exact_mod_cast (show (0 : Int) < D by omega)
  have hq : |(d : ℚ) / (D : ℚ)| ≤ 1 := by
    rw [abs_div, abs_of_pos hDq, div_le_one hDq, abs_le]
    constructor
    · have : ((-D : Int) : ℚ) ≤ (d : ℚ) := by exact_mod_cast hd.1
      push_cast at this; exact this
    · exact_mod_cast hd.2
  have hA := roundF32_err_le ((d : ℚ) / (D : ℚ)) 1 hq
  have hA' : |f32Div (d : ℚ) (D : ℚ) - (d : ℚ) / (D : ℚ)| ≤ 2 / 16777216 := by
    unfold f32Div
    norm_num at hA ⊢
    exact hA
  refine ⟨hA', ?_⟩
  generalize f32Div (d : ℚ) (D : ℚ) = A at hA' ⊢
  have hAabs : |A| ≤ 1 + 2 / 16777216 := by
    rw [abs_le] at hA' hq ⊢
    constructor <;> linarith [hA'.1, hA'.2, hq.1, hq.2]
  have hkq0 : (0 : ℚ) ≤ (k : ℚ) := by exact_mod_cast hk0
  have hkq1 : (k : ℚ) ≤ 1024 := by exact_mod_cast (show k ≤ 1024 by omega)
  have hAk : |A * (k : ℚ)| ≤ 1025 := by
    rw [abs_mul, abs_of_nonneg hkq0]
    calc |A| * (k : ℚ) ≤ (1 + 2 / 16777216) * 1024 :=
          mul_le_mul hAabs hkq1 hkq0 (by norm_num)
      _ ≤ 1025 := by norm_num
  have hP := roundF32_err_le (A * (k : ℚ)) 1025 hAk
  unfold f32Mul f32Add
  generalize roundF32 (A * (k : ℚ)) = P at hP ⊢
  have htq0 : (-512 : ℚ) ≤ (t : ℚ) := by exact_mod_cast ht.1
  have htq1 : (t : ℚ) ≤ 512 := by exact_mod_cast ht.2
  have hPabs : |P| ≤ 1026 := by
    rw [abs_le] at hP hAk ⊢
    constructor <;> norm_num at hP ⊢ <;> linarith [hP.1, hP.2, hAk.1, hAk.2]
  have htP : |(t : ℚ) + P| ≤ 1538 := by
    rw [abs_le] at hPabs ⊢
    constructor <;> linarith [hPabs.1, hPabs.2]
  have hS := roundF32_err_le ((t : ℚ) + P) 1538 htP
  generalize roundF32 ((t : ℚ) + P) = S at hS ⊢
  have hSabs : |S + 1 / 2| ≤ 1540 := by
    rw [abs_le] at hS htP ⊢
    constructor <;> norm_num at hS ⊢ <;> linarith [hS.1, hS.2, htP.1, htP.2]
  have hW := roundF32_err_le (S + 1 / 2) 1540 hSabs
  generalize roundF32 (S + 1 / 2) = W at hW ⊢
  rw [abs_le] at hP hS hW ⊢
  norm_num at hP hS hW ⊢
  constructor <;> linarith [hP.1, hP.2, hS.1, hS.2, hW.1, hW.2]

theorem lineMinor_start_short (t : Int) (A : ℚ) (ht : |t| < 2 ^ 22) (ht0 : 0 ≤ t) :
    truncToInt (f32Add (f32Add (f32OfInt t) (f32Mul A (f32OfInt 0))) (1 / 2)) = t := by
  have ht24 : |t| < 2 ^ 24 := lt_trans ht (by norm_num)
  have h0 : f32OfInt 0 = 0 := by rw [f32OfInt_exact 0 (by norm_num)]; simp
  rw [h0, f32OfInt_exact t ht24]
  unfold f32Mul f32Add
  rw [mul_zero, roundF32_zero, add_zero, roundF32_intCast t ht24, roundF32_add_half t ht,
    truncToInt_add_half, if_pos ht0]

theorem lineMinor_end_short (t d D : Int) (hD0 : 1 ≤ D) (hD1 : D ≤ 1024) (hd : |d| ≤ D)
    (ht : |t| ≤ 512) (hu : 0 ≤ t + d) :
    truncToInt (f32Add (f32Add (f32OfInt t)
      (f32Mul (f32Div (f32OfInt d) (f32OfInt D)) (f32OfInt D))) (1 / 2)) = t + d := by
  obtain ⟨hA, hW⟩ := lineValue_approx t d D D hD0 hD1 hd ht (by omega) le_rfl
  generalize f32Add (f32Add (f32OfInt t)
    (f32Mul (f32Div (f32OfInt d) (f32OfInt D)) (f32OfInt D))) (1 / 2) = W at hW ⊢
  generalize f32Div (f32OfInt d) (f32OfInt D) = A at hA hW
  have hDq : (0 : ℚ) < (D : ℚ) := by exact_mod_cast (show (0 : Int) < D by omega)
  have hDq1 : (D : ℚ) ≤ 1024 := by exact_mod_cast hD1
  have hAD : |A * (D : ℚ) - (d : ℚ)| ≤ 2048 / 16777216 := by
    have e : A * (D : ℚ) - (d : ℚ) = (A - (d : ℚ) / (D : ℚ)) * (D : ℚ) := by
      field_simp
    rw [e, abs_mul, abs_of_pos hDq]
    calc |A - (d : ℚ) / (D : ℚ)| * (D : ℚ) ≤ 2 / 16777216 * 1024 :=
          mul_le_mul hA hDq1 hDq.le (by norm_num)
      _ = 2048 / 16777216 := by norm_num
  have huq : (0 : ℚ) ≤ ((t + d : Int) : ℚ) := by exact_mod_cast hu
  rw [abs_le] at hW hAD
  have hWlo : ((t + d : Int) : ℚ) ≤ W := by
    push_cast; linarith [hW.1, hAD.1]
  have hWhi : W < ((t + d : Int) : ℚ) + 1 := by
    push_cast; linarith [hW.2, hAD.2]
  rw [truncToInt_of_nonneg W (le_trans huq hWlo), Int.floor_eq_iff]
  exact ⟨hWlo, hWhi⟩

theorem lineMinor_step_slope_lt (t d D k : Int) (hD0 : 1 ≤ D) (hD1 : D ≤ 1024) (hd : |d| < D)
    (ht : |t| ≤ 512) (hk0 : 0 ≤ k) (hk1 : k + 1 ≤ D) :
    |truncToInt (f32Add (f32Add (f32OfInt t)
        (f32Mul (f32Div (f32OfInt d) (f32OfInt D)) (f32OfInt (k + 1)))) (1 / 2)) -
      truncToInt (f32Add (f32Add (f32OfInt t)
        (f32Mul (f32Div (f32OfInt d) (f32OfInt D)) (f32OfInt k))) (1 / 2))| ≤ 1 := by
  obtain ⟨hA, hW⟩ := lineValue_approx t d D k hD0 hD1 hd.le ht hk0 (by omega)
  obtain ⟨_, hW'⟩ := lineValue_approx t d D (k + 1) hD0 hD1 hd.le ht (by omega) hk1
  generalize f32Add (f32Add (f32OfInt t)
    (f32Mul (f32Div (f32OfInt d) (f32OfInt D)) (f32OfInt k))) (1 / 2) = W at hW ⊢
  generalize f32Add (f32Add (f32OfInt t)
    (f32Mul (f32Div (f32OfInt d) (f32OfInt D)) (f32OfInt (k + 1)))) (1 / 2) = W' at hW' ⊢
  generalize f32Div (f32OfInt d) (f32OfInt D) = A at hA hW hW'
  have hDq : (0 : ℚ) < (D : ℚ) := by exact_mod_cast (show (0 : Int) < D by omega)
  have hDq1 : (D : ℚ) ≤ 1024 := by exact_mod_cast hD1
  have hinv : 1 / 1024 ≤ 1 / (D : ℚ) := one_div_le_one_div_of_le hDq hDq1
  rw [abs_lt] at hd
  have hq : |(d : ℚ) / (D : ℚ)| ≤ 1 - 1 / (D : ℚ) := by
    have e : 1 - 1 / (D : ℚ) = ((D : ℚ) - 1) / (D : ℚ) := by field_simp
    rw [e, abs_div, abs_of_pos hDq, div_le_div_iff_of_pos_right hDq, abs_le]
    constructor
    · have : ((-(D - 1) : Int) : ℚ) ≤ (d : ℚ) := by exact_mod_cast (show -(D - 1) ≤ d by omega)
      push_cast at this; linarith
    · have : (d : ℚ) ≤ ((D - 1 : Int) : ℚ) := by exact_mod_cast (show d ≤ D - 1 by omega)
      push_cast at this; exact this
  rw [abs_le] at hA hW hW' hq
  push_cast at hW'
  apply truncToInt_close
  · linarith [hA.1, hA.2, hW.1, hW.2, hW'.1, hW'.2, hq.1, hq.2]
  · linarith [hA.1, hA.2, hW.1, hW.2, hW'.1, hW'.2, hq.1, hq.2]

/-- On a diagonal run (`|d| = D`) every `float` operation of the line value is
exact. -/
theorem lineValue_diag (t D k s : Int) (hs : s = 1 ∨ s = -1) (hD0 : 1 ≤ D) (hD1 : D ≤ 1024)
    (ht : |t| ≤ 512) (hk0 : 0 ≤ k) (hk1 : k ≤ D) :
    f32Add (f32Add (f32OfInt t)
      (f32Mul (f32Div (f32OfInt (s * D)) (f32OfInt D)) (f32OfInt k))) (1 / 2) =
      ((t + s * k : Int) : ℚ) + 1 / 2 := by
  rw [abs_le] at ht
  have hsD : |s * D| < 2 ^ 24 := by
    rw [abs_lt]; rcases hs with rfl | rfl <;> constructor <;> omega
  have hD' : |D| < 2 ^ 24 := by rw [abs_lt]; constructor <;> omega
  have ht' : |t| < 2 ^ 24 := by rw [abs_lt]; constructor <;> omega
  have hk' : |k| < 2 ^ 24 := by rw [abs_lt]; constructor <;> omega
  have hs' : |s| < 2 ^ 24 := by rw [abs_lt]; rcases hs with rfl | rfl <;> constructor <;> omega
  have hsk : |s * k| < 2 ^ 24 := by
    rw [abs_lt]; rcases hs with rfl | rfl <;> constructor <;> omega
  have htsk24 : |t + s * k| < 2 ^ 24 := by
    rw [abs_lt]; rcases hs with rfl | rfl <;> constructor <;> omega
  have htsk : |t + s * k| < 2 ^ 22 := by
    rw [abs_lt]; rcases hs with rfl | rfl <;> constructor <;> omega
  have hDq : (D : ℚ) ≠ 0 := by exact_mod_cast (show D ≠ 0 by omega)
  rw [f32OfInt_exact _ hsD, f32OfInt_exact D hD', f32OfInt_exact t ht', f32OfInt_exact k hk']
  have e1 : f32Div ((s * D : Int) : ℚ) (D : ℚ) = (s : ℚ) := by
    unfold f32Div
    have : ((s * D : Int) : ℚ) / (D : ℚ) = (s : ℚ) := by
      push_cast; field_simp
    rw [this, roundF32_intCast s hs']
  have e2 : f32Mul (s : ℚ) (k : ℚ) = ((s * k : Int) : ℚ) := by
    unfold f32Mul
    have : (s : ℚ) * (k : ℚ) = ((s * k : Int) : ℚ) := by push_cast; ring
    rw [this, roundF32_intCast _ hsk]
  have e3 : f32Add (t : ℚ) ((s * k : Int) : ℚ) = ((t + s * k : Int) : ℚ) := by
    unfold f32Add
    have : (t : ℚ) + ((s * k : Int) : ℚ) = ((t + s * k : Int) : ℚ) := by push_cast; ring
    rw [this, roundF32_intCast _ htsk24]
  rw [e1, e2, e3]
  unfold f32Add
  exact roundF32_add_half _ htsk

theorem lineMinor_step_diag (t d D k : Int) (hD0 : 1 ≤ D) (hD1 : D ≤ 1024) (hd : |d| = D)
    (ht : |t| ≤ 512) (hk0 : 0 ≤ k) (hk1 : k + 1 ≤ D) :
    |truncToInt (f32Add (f32Add (f32OfInt t)
        (f32Mul (f32Div (f32OfInt d) (f32OfInt D)) (f32OfInt (k + 1)))) (1 / 2)) -
      truncToInt (f32Add (f32Add (f32OfInt t)
        (f32Mul (f32Div (f32OfInt d) (f32OfInt D)) (f32OfInt k))) (1 / 2))| ≤ 1 := by
  obtain ⟨s, hs, rfl⟩ : ∃ s : Int, (s = 1 ∨ s = -1) ∧ d = s * D := by
    rcases abs_eq (by omega : (0 : Int) ≤ D) |>.mp hd with h | h
    · exact ⟨1, Or.inl rfl, by omega⟩
    · exact ⟨-1, Or.inr rfl, by omega⟩
  rw [lineValue_diag t D k s hs hD0 hD1 ht hk0 (by omega),
    lineValue_diag t D (k + 1) s hs hD0 hD1 ht (by omega) hk1]
  apply truncToInt_close
  · rcases hs with rfl | rfl <;> push_cast <;> linarith
  · rcases hs with rfl | rfl <;> push_cast <;> linarith

/-- On a run of at most 1024 steps from a coordinate of magnitude at most 512
consecutive positions of `DrawLine` differ by at most 1 on the minor axis. -/
theorem lineMinor_step_short (t d D k : Int) (hD0 : 1 ≤ D) (hD1 : D ≤ 1024) (hd : |d| ≤ D)
    (ht : |t| ≤ 512) (hk0 : 0 ≤ k) (hk1 : k + 1 ≤ D) :
    |truncToInt (f32Add (f32Add (f32OfInt t)
        (f32Mul (f32Div (f32OfInt d) (f32OfInt D)) (f32OfInt (k + 1)))) (1 / 2)) -
      truncToInt (f32Add (f32Add (f32OfInt t)
        (f32Mul (f32Div (f32OfInt d) (f32OfInt D)) (f32OfInt k))) (1 / 2))| ≤ 1 := by
  rcases lt_or_eq_of_le hd with h | h
  · exact lineMinor_step_slope_lt t d D k hD0 hD1 h ht hk0 hk1
  · exact lineMinor_step_diag t d D k hD0 hD1 h ht hk0 hk1

/-- On short lines `DrawLine` reaches both endpoints.  For distinct endpoints
with all four coordinates in `[-512, 512]`, on a well-formed canvas, in the
binary32 arithmetic of the code: each endpoint inside the clip rectangle holds
`palette_table[c]` after `DrawLine(x1, y1, x2, y2, c)`, and consecutive
positions passed to `SetPixel` differ by at most 1 on the minor axis. -/
theorem DrawLine_short_line (g : Graphics) (hwf : WellFormed g)
    (x1 y1 x2 y2 color : Int) (hne : ¬ (x1 = x2 ∧ y1 = y2))
    (hx1 : |x1| ≤ 512) (hy1 : |y1| ≤ 512) (hx2 : |x2| ≤ 512) (hy2 : |y2| ≤ 512) :
    (g.clip_rect.Includes x1 y1 = true →
        (DrawLine g x1 y1 x2 y2 color).pixel x1 y1 = readAt g.palette_table color) ∧
      (g.clip_rect.Includes x2 y2 = true →
        (DrawLine g x1 y1 x2 y2 color).pixel x2 y2 = readAt g.palette_table color) ∧
      (∀ (i : Nat) (p q : Int × Int), (DrawLinePositions x1 y1 x2 y2)[i]? = some p →
        (DrawLinePositions x1 y1 x2 y2)[i + 1]? = some q →
        if |x1 - x2| > |y1 - y2| then |q.2 - p.2| ≤ 1 else |q.1 - p.1| ≤ 1) := by
  have heq := DrawLine_eq_SetPixels g x1 y1 x2 y2 color
  have hpix : ∀ px py, g.clip_rect.Includes px py = true →
      (px, py) ∈ DrawLinePositions x1 y1 x2 y2 →
      (DrawLine g x1 y1 x2 y2 color).pixel px py = readAt g.palette_table color := by
    intro px py hin hmem
    rw [heq, SetPixels_pixel g hwf _ _ px py (onScreen_of_includes hwf hin), if_pos ⟨hmem, hin⟩]
    rfl
  have hnonneg : ∀ px py, g.clip_rect.Includes px py = true → 0 ≤ px ∧ 0 ≤ py := by
    intro px py hin
    have h := onScreen_of_includes hwf hin
    exact ⟨h.1, h.2.2.1⟩
  rw [abs_le] at hx1 hy1 hx2 hy2
  rcases DrawLinePositions_shape x1 y1 x2 y2 hne with
    ⟨hmaj, s, t, e, u, hor, hlt, hslope, hlen, hmin, hps⟩ |
    ⟨hmaj, s, t, e, u, hor, hlt, hslope, hlen, hmin, hps⟩
  · -- x-major
    have hD1 : e - s ≤ 1024 := by
      rcases hor with ⟨rfl, rfl, rfl, rfl⟩ | ⟨rfl, rfl, rfl, rfl⟩ <;> omega
    have ht : |t| ≤ 512 := by
      rw [abs_le]; rcases hor with ⟨rfl, rfl, rfl, rfl⟩ | ⟨rfl, rfl, rfl, rfl⟩ <;> constructor <;> omega
    have ht22 : |t| < 2 ^ 22 := lt_of_le_of_lt ht (by norm_num)
    have hstart : 0 ≤ t → (s, t) ∈ DrawLinePositions x1 y1 x2 y2 := by
      intro ht0
      rw [hps, List.mem_map]
      refine ⟨0, List.mem_range.mpr (by omega), ?_⟩
      have h := lineMinor_start_short t (f32Div (f32OfInt (u - t)) (f32OfInt (e - s))) ht22 ht0
      simp only [Nat.cast_zero, add_zero]
      rw [h]
    have hend : 0 ≤ u → (e, u) ∈ DrawLinePositions x1 y1 x2 y2 := by
      intro hu
      rw [hps, List.mem_map]
      refine ⟨(e - s).toNat, List.mem_range.mpr (by omega), ?_⟩
      have hk : (((e - s).toNat : Nat) : Int) = e - s := Int.toNat_of_nonneg (by omega)
      rw [hk, lineMinor_end_short t (u - t) (e - s) (by omega) hD1 hslope ht (by omega)]
      congr 1 <;> omega
    refine ⟨fun hin => ?_, fun hin => ?_, fun i p q hp hq => ?_⟩
    · rcases hor with ⟨rfl, rfl, rfl, rfl⟩ | ⟨rfl, rfl, rfl, rfl⟩
      · exact hpix _ _ hin (hstart (hnonneg _ _ hin).2)
      · exact hpix _ _ hin (hend (hnonneg _ _ hin).2)
    · rcases hor with ⟨rfl, rfl, rfl, rfl⟩ | ⟨rfl, rfl, rfl, rfl⟩
      · exact hpix _ _ hin (hend (hnonneg _ _ hin).2)
      · exact hpix _ _ hin (hstart (hnonneg _ _ hin).2)
    · rw [if_pos hmaj]
      rw [hps] at hp hq
      obtain ⟨_, rfl⟩ := getElem?_map_range _ _ _ _ hp
      obtain ⟨hi1, rfl⟩ := getElem?_map_range _ _ _ _ hq
      have h := lineMinor_step_short t (u - t) (e - s) (i : Int) (by omega) hD1 hslope ht
        (by omega) (by omega)
      simpa using h
  · -- y-major
    have hD1 : e - s ≤ 1024 := by
      rcases hor with ⟨rfl, rfl, rfl, rfl⟩ | ⟨rfl, rfl, rfl, rfl⟩ <;> omega
    have ht : |t| ≤ 512 := by
      rw [abs_le]; rcases hor with ⟨rfl, rfl, rfl, rfl⟩ | ⟨rfl, rfl, rfl, rfl⟩ <;> constructor <;> omega
    have ht22 : |t| < 2 ^ 22 := lt_of_le_of_lt ht (by norm_num)
    have hstart : 0 ≤ t → (t, s) ∈ DrawLinePositions x1 y1 x2 y2 := by
      intro ht0
      rw [hps, List.mem_map]
      refine ⟨0, List.mem_range.mpr (by omega), ?_⟩
      have h := lineMinor_start_short t (f32Div (f32OfInt (u - t)) (f32OfInt (e - s))) ht22 ht0
      simp only [Nat.cast_zero, add_zero]
      rw [h]
    have hend : 0 ≤ u → (u, e) ∈ DrawLinePositions x1 y1 x2 y2 := by
      intro hu
      rw [hps, List.mem_map]
      refine ⟨(e - s).toNat, List.mem_range.mpr (by omega), ?_⟩
      have hk : (((e - s).toNat : Nat) : Int) = e - s := Int.toNat_of_nonneg (by omega)
      rw [hk, lineMinor_end_short t (u - t) (e - s) (by omega) hD1 hslope ht (by omega)]
      congr 1 <;> omega
    refine ⟨fun hin => ?_, fun hin => ?_, fun i p q hp hq => ?_⟩
    · rcases hor with ⟨rfl, rfl, rfl, rfl⟩ | ⟨rfl, rfl, rfl, rfl⟩
      · exact hpix _ _ hin (hstart (hnonneg _ _ hin).1)
      · exact hpix _ _ hin (hend (hnonneg _ _ hin).1)
    · rcases hor with ⟨rfl, rfl, rfl, rfl⟩ | ⟨rfl, rfl, rfl, rfl⟩
      · exact hpix _ _ hin (hend (hnonneg _ _ hin).1)
      · exact hpix _ _ hin (hstart (hnonneg _ _ hin).1)
    · rw [if_neg hmaj]
      rw [hps] at hp hq
      obtain ⟨_, rfl⟩ := getElem?_map_range _ _ _ _ hp
      obtain ⟨hi1, rfl⟩ := getElem?_map_range _ _ _ _ hq
      have h := lineMinor_step_short t (u - t) (e - s) (i : Int) (by omega) hD1 hslope ht
        (by omega) (by omega)
      simpa using h

theorem lt_two_zpow_exponent_succ (n d A B : Nat) (hB : 0 < B) (hn : n < 2 ^ A)
    (hd : 2 ^ (B - 1) ≤ d) (hd0 : 0 < d) :
    (n : ℚ) < (2 : ℚ) ^ ((if d * 2 ^ A ≤ n * 2 ^ B then (A : Int) - (B : Int)
      else (A : Int) - (B : Int) - 1) + 1) * (d : ℚ) := by
  have hB2 : (0 : ℚ) < (2 : ℚ) ^ B := by positivity
  have hdq : (0 : ℚ) < (d : ℚ) := by exact_mod_cast hd0
  split
  · have e : (A : Int) - (B : Int) + 1 = ((A + 1 : Nat) : Int) - (B : Int) := by omega
    rw [e, zpow_sub₀ (by norm_num), zpow_natCast, zpow_natCast, div_mul_eq_mul_div,
      lt_div_iff₀ hB2]
    have h1 : (n : ℚ) < ((2 ^ A : Nat) : ℚ) := by exact_mod_cast hn
    have h2 : ((2 ^ (B - 1) : Nat) : ℚ) ≤ (d : ℚ) := by exact_mod_cast hd
    push_cast at h1 h2
    have e2 : (2 : ℚ) ^ B = 2 * (2 : ℚ) ^ (B - 1) := by
      have : B = (B - 1) + 1 := by omega
      conv_lhs => rw [this, pow_succ]
      ring
    have h3 : (0 : ℚ) < (2 : ℚ) ^ (B - 1) := by positivity
    have h4 : (0 : ℚ) < (2 : ℚ) ^ A := by positivity
    calc (n : ℚ) * (2 : ℚ) ^ B < (2 : ℚ) ^ A * (2 : ℚ) ^ B :=
          mul_lt_mul_of_pos_right h1 hB2
      _ = (2 : ℚ) ^ (A + 1) * (2 : ℚ) ^ (B - 1) := by rw [e2, pow_succ]; ring
      _ ≤ (2 : ℚ) ^ (A + 1) * (d : ℚ) := by gcongr
  · rename_i h
    have e : (A : Int) - (B : Int) - 1 + 1 = (A : Int) - (B : Int) := by omega
    rw [e, zpow_sub₀ (by norm_num), zpow_natCast, zpow_natCast, div_mul_eq_mul_div,
      lt_div_iff₀ hB2]
    have : ((n * 2 ^ B : Nat) : ℚ) < ((d * 2 ^ A : Nat) : ℚ) := by
      exact_mod_cast (not_le.mp h)
    push_cast at this
    linarith

/-- The binary exponent is the right one: `|q| < 2^(floorLog2 q + 1)` for
`q ≠ 0`, so that the rounding keeps exactly 24 significant bits. -/
theorem abs_lt_two_zpow_floorLog2_succ (q : ℚ) (hq : q ≠ 0) :
    |q| < (2 : ℚ) ^ (floorLog2 q + 1) := by
  have hn : 0 < q.num.natAbs := Int.natAbs_pos.mpr (Rat.num_ne_zero.mpr hq)
  have hd : 0 < q.den := q.den_pos
  obtain ⟨_, _, a3⟩ := bitLength_bounds q.num.natAbs q.num.natAbs hn le_rfl
  obtain ⟨b1, b2, _⟩ := bitLength_bounds q.den q.den hd le_rfl
  have hdq : (0 : ℚ) < (q.den : ℚ) := by exact_mod_cast hd
  rw [abs_eq_natAbs_div_den, div_lt_iff₀ hdq]
  exact lt_two_zpow_exponent_succ _ _ _ _ b1 a3 b2 hd

end Pyxel
